import Mathlib

/-!
Verification development for the graph-flow-explorer-visualizer repository.

The embedding below translates the repository's TypeScript core into Lean:
* `src/utils/graphUtils.ts` — graph data types and structural queries;
* the graph context module — reducer `graphReducer`, history helper
  `addToHistory`, initial state;
* the algorithms module — step producers `primMST`, `kruskalMST`, `bfs`, `dfs`.

Modelling conventions:
* JavaScript strings are `String`, numbers are `Int` (weights and positions in
  the app are integers; comparisons and sums are exact).
* A JS `Set<string>` iterated in insertion order is a `List String` without
  duplicates, `Set.add` appending only when absent.
* `Math.random`-based `generateId` is modelled by the fresh id being carried
  on the action itself (the reducer treats the id as opaque input).
* Narrative string fields of steps (`message`, `pathStep`) are omitted: no
  property below depends on them, and every other field is kept verbatim.
* Generator functions are modelled as functions returning the full `List`
  of yielded steps, preserving yield order exactly.
-/

namespace GraphFlow

/-- Vertex status, from `graphUtils.ts` `NodeData.status`. -/
inductive NodeStatus where
  | default
  | selected
  | visited
  | current
  | start
  | completed
deriving DecidableEq, Repr

/-- Edge status, from `graphUtils.ts` `EdgeData.status`. -/
inductive EdgeStatus where
  | default
  | selected
  | mst
  | visited
  | current
deriving DecidableEq, Repr

/-- `NodeData` from `graphUtils.ts`. -/
structure NodeData where
  id : String
  x : Int
  y : Int
  label : String
  status : NodeStatus
deriving DecidableEq, Repr

/-- `EdgeData` from `graphUtils.ts`.  The TypeScript fields `from`/`to` are
named `fromId`/`toId` because `from` is a Lean keyword. -/
structure EdgeData where
  id : String
  fromId : String
  toId : String
  weight : Int
  status : EdgeStatus
deriving DecidableEq, Repr

/-- `GraphData` from `graphUtils.ts`. -/
structure GraphData where
  nodes : List NodeData
  edges : List EdgeData
deriving DecidableEq, Repr

/-- The step kinds of the algorithms module's `AlgorithmStep.type` union. -/
inductive StepType where
  | visitNode
  | processNode
  | visitEdge
  | addToMST
  | skipEdge
  | done
  | completeNode
  | traverseEdge
  | currentEdge
  | mst
deriving DecidableEq, Repr

/-- `AlgorithmStep` from the algorithms module (narrative `message` and
`pathStep` strings omitted; optional fields are `Option`s, absent = `none`). -/
structure Step where
  type : StepType
  nodeId : Option String := none
  edgeId : Option String := none
  totalCost : Option Int := none
deriving DecidableEq, Repr

/-- `createAdjacencyList` from `graphUtils.ts`, presented as the per-vertex
lookup of the produced `Map`: every edge contributes `(to, weight)` to the
list of `from` and `(from, weight)` to the list of `to`, scanning the edge
array once in order.  A key missing from the map reads as the empty list,
exactly like `adjList.get(v) || []` at every use site. -/
def createAdjacencyList (g : GraphData) (v : String) : List (String × Int) :=
  g.edges.flatMap (fun e =>
    (if e.fromId = v then [(e.toId, e.weight)] else []) ++
    (if e.toId = v then [(e.fromId, e.weight)] else []))

/-- `findEdge` from `graphUtils.ts`: first edge joining the two ids in either
orientation. -/
def findEdge (g : GraphData) (fromNodeId toNodeId : String) : Option EdgeData :=
  g.edges.find? (fun e =>
    (e.fromId = fromNodeId && e.toId = toNodeId) ||
    (e.fromId = toNodeId && e.toId = fromNodeId))

/-- `resetGraphStatus` from `graphUtils.ts`. -/
def resetGraphStatus (g : GraphData) : GraphData :=
  { nodes := g.nodes.map (fun node => { node with status := .default }),
    edges := g.edges.map (fun edge => { edge with status := .default }) }

/-- The `Algorithm` union of the context module, minus `null` (callers use
`Option Algorithm`). -/
inductive Algorithm where
  | prim
  | kruskal
  | bfs
  | dfs
deriving DecidableEq, Repr

/-- `GraphState` of the context module. -/
structure GraphState where
  graph : GraphData
  selectedNodeId : Option String
  selectedEdgeId : Option String
  algorithm : Option Algorithm
  isRunning : Bool
  speed : Int
  currentStep : Option Step
  startNodeId : Option String
  totalMSTCost : Option Int
  pathTaken : List String
  history : List GraphData
  historyIndex : Nat
  visitedNodes : List String
  completedNodes : List String
deriving DecidableEq, Repr

/-- `GraphAction` of the context module.  `ADD_NODE` and `ADD_EDGE` carry the
id that the source draws from `generateId()` (a random fresh string); the
reducer only ever treats it as an opaque value. -/
inductive GraphAction where
  | addNode (id : String) (x : Int) (y : Int) (label : Option String)
  | deleteNode (nodeId : String)
  | selectNode (nodeId : Option String)
  | moveNode (nodeId : String) (x : Int) (y : Int)
  | addEdge (id : String) (fromNodeId : String) (toNodeId : String) (weight : Option Int)
  | deleteEdge (edgeId : String)
  | selectEdge (edgeId : Option String)
  | updateEdgeWeight (edgeId : String) (weight : Int)
  | setAlgorithm (algorithm : Option Algorithm)
  | setRunning (isRunning : Bool)
  | setSpeed (speed : Int)
  | setCurrentStep (step : Option Step)
  | resetGraphStatus
  | clearGraph
  | setStartNode (nodeId : Option String)
  | setTotalMSTCost (cost : Option Int)
  | addPathStep (step : String)
  | clearPath
  | undo
  | redo
  | loadSavedGraph (graph : GraphData)
deriving DecidableEq, Repr

/-- `addToHistory` of the context module: deep-copy the live graph, drop any
history entries after the cursor (`slice(0, historyIndex + 1)`), append the
copy and advance the cursor.  Deep copying is value copying here. -/
def addToHistory (state : GraphState) : GraphState :=
  let graphCopy : GraphData :=
    { nodes := state.graph.nodes, edges := state.graph.edges }
  let newHistory := state.history.take (state.historyIndex + 1)
  { state with
    history := newHistory ++ [graphCopy],
    historyIndex := state.historyIndex + 1 }

/-- The longest leading digit run of a character list, as a number; `none`
when there is no leading digit. -/
def leadingDigits (cs : List Char) : Option Nat :=
  let ds := cs.takeWhile Char.isDigit
  if ds.isEmpty then none
  else some (ds.foldl (fun a c => a * 10 + (c.toNat - '0'.toNat)) 0)

/-- JavaScript `parseInt(s)`: skip leading whitespace, optional sign, then
the longest digit prefix; `NaN` (here `none`) when no digit follows. -/
def parseIntJS (s : String) : Option Int :=
  match s.toList.dropWhile (fun c => c = ' ') with
  | '-' :: rest => (leadingDigits rest).map (fun n => -(n : Int))
  | '+' :: rest => (leadingDigits rest).map (fun n => (n : Int))
  | rest => (leadingDigits rest).map (fun n => (n : Int))

/-- `getNextNodeLabel` of the context module: 1 + the largest numeric label,
or `"1"` when no label parses as a number. -/
def getNextNodeLabel (nodes : List NodeData) : String :=
  let numericLabels := nodes.filterMap (fun node => parseIntJS node.label)
  match numericLabels with
  | [] => "1"
  | x :: xs => toString (xs.foldl max x + 1)

/-- `initialState` of the context module. -/
def initialState : GraphState :=
  { graph := { nodes := [], edges := [] },
    selectedNodeId := none,
    selectedEdgeId := none,
    algorithm := none,
    isRunning := false,
    speed := 500,
    currentStep := none,
    startNodeId := none,
    totalMSTCost := none,
    pathTaken := [],
    history := [{ nodes := [], edges := [] }],
    historyIndex := 0,
    visitedNodes := [],
    completedNodes := [] }

/-- JS `Set.add`: append when absent, keep insertion order. -/
def setAdd (s : List String) (x : String) : List String :=
  if x ∈ s then s else s ++ [x]

/-- The `SET_CURRENT_STEP` node recoloring of the reducer: priority
start > completed > current (the node named by a `processNode`/`addToMST`
step) > visited > default. -/
def recolorNode (startNodeId : Option String) (visited completed : List String)
    (step : Step) (node : NodeData) : NodeData :=
  if startNodeId = some node.id then
    { node with status := .start }
  else if node.id ∈ completed then
    { node with status := .completed }
  else if (step.type = .processNode ∨ step.type = .addToMST) ∧
      step.nodeId = some node.id then
    { node with status := .current }
  else if node.id ∈ visited then
    { node with status := .visited }
  else
    { node with status := .default }

/-- The `SET_CURRENT_STEP` edge recoloring of the reducer, applied to the
edge whose id the step names. -/
def recolorEdge (step : Step) (edge : EdgeData) : EdgeData :=
  if step.edgeId = some edge.id then
    if step.type = .visitEdge ∨ step.type = .currentEdge then
      { edge with status := .current }
    else if step.type = .addToMST ∨ step.type = .traverseEdge ∨
        step.type = .mst then
      { edge with status := .visited }
    else
      { edge with status := .default }
  else
    edge

/-- `graphReducer` of the context module, case for case. -/
def graphReducer (state : GraphState) (action : GraphAction) : GraphState :=
  match action with
  | .addNode id x y label =>
    let nodeLabel :=
      match label with
      | some l => if l = "" then getNextNodeLabel state.graph.nodes else l
      | none => getNextNodeLabel state.graph.nodes
    let newNode : NodeData :=
      { id := id, x := x, y := y, label := nodeLabel, status := .default }
    let newState :=
      { state with
        graph := { state.graph with nodes := state.graph.nodes ++ [newNode] },
        selectedNodeId := some id,
        selectedEdgeId := none }
    addToHistory newState
  | .deleteNode nodeId =>
    let newNodes := state.graph.nodes.filter (fun node => node.id ≠ nodeId)
    let newEdges := state.graph.edges.filter
      (fun edge => edge.fromId ≠ nodeId ∧ edge.toId ≠ nodeId)
    let newState :=
      { state with
        graph := { nodes := newNodes, edges := newEdges },
        selectedNodeId := none,
        startNodeId :=
          if state.startNodeId = some nodeId then none else state.startNodeId }
    addToHistory newState
  | .selectNode nodeId =>
    { state with selectedNodeId := nodeId, selectedEdgeId := none }
  | .moveNode nodeId x y =>
    let newNodes := state.graph.nodes.map (fun node =>
      if node.id = nodeId then { node with x := x, y := y } else node)
    { state with graph := { state.graph with nodes := newNodes } }
  | .addEdge id fromNodeId toNodeId weight =>
    let existingEdge := state.graph.edges.find? (fun edge =>
      (edge.fromId = fromNodeId && edge.toId = toNodeId) ||
      (edge.fromId = toNodeId && edge.toId = fromNodeId))
    match existingEdge with
    | some _ => state
    | none =>
      let newEdge : EdgeData :=
        { id := id, fromId := fromNodeId, toId := toNodeId,
          weight :=
            match weight with
            | some w => if w = 0 then 1 else w
            | none => 1,
          status := .default }
      let newState :=
        { state with
          graph := { state.graph with edges := state.graph.edges ++ [newEdge] },
          selectedEdgeId := some id,
          selectedNodeId := none }
      addToHistory newState
  | .deleteEdge edgeId =>
    let newEdges := state.graph.edges.filter (fun edge => edge.id ≠ edgeId)
    let newState :=
      { state with
        graph := { state.graph with edges := newEdges },
        selectedEdgeId := none }
    addToHistory newState
  | .selectEdge edgeId =>
    { state with selectedEdgeId := edgeId, selectedNodeId := none }
  | .updateEdgeWeight edgeId weight =>
    let newEdges := state.graph.edges.map (fun edge =>
      if edge.id = edgeId then { edge with weight := weight } else edge)
    let newState :=
      { state with graph := { state.graph with edges := newEdges } }
    addToHistory newState
  | .setAlgorithm algorithm =>
    { state with
      algorithm := algorithm,
      totalMSTCost := none,
      pathTaken := [],
      visitedNodes := [],
      completedNodes := [] }
  | .setRunning isRunning =>
    { state with isRunning := isRunning }
  | .setSpeed speed =>
    { state with speed := speed }
  | .setCurrentStep step =>
    match step with
    | none =>
      { state with
        currentStep := none,
        graph := resetGraphStatus state.graph,
        visitedNodes := [],
        completedNodes := [] }
    | some step =>
      let visitedNodes :=
        match step.nodeId with
        | some nodeId =>
          if step.type = .visitNode ∨ step.type = .processNode then
            setAdd state.visitedNodes nodeId
          else state.visitedNodes
        | none => state.visitedNodes
      let completedNodes :=
        match step.nodeId with
        | some nodeId =>
          if step.type = .completeNode ∨ step.type = .addToMST then
            setAdd state.completedNodes nodeId
          else state.completedNodes
        | none => state.completedNodes
      let newNodes := state.graph.nodes.map
        (recolorNode state.startNodeId visitedNodes completedNodes step)
      let newEdges :=
        match step.edgeId with
        | some _ => state.graph.edges.map (recolorEdge step)
        | none => state.graph.edges
      { state with
        currentStep := some step,
        graph := { nodes := newNodes, edges := newEdges },
        visitedNodes := visitedNodes,
        completedNodes := completedNodes }
  | .resetGraphStatus =>
    { state with
      graph := resetGraphStatus state.graph,
      currentStep := none,
      totalMSTCost := none,
      pathTaken := [],
      visitedNodes := [],
      completedNodes := [] }
  | .clearGraph =>
    let newState := { initialState with speed := state.speed }
    addToHistory newState
  | .setStartNode nodeId =>
    { state with
      startNodeId := nodeId,
      graph :=
        { nodes := state.graph.nodes.map (fun node =>
            { node with
              status := if nodeId = some node.id then .start else .default }),
          edges := state.graph.edges.map (fun edge =>
            { edge with status := .default }) },
      visitedNodes := [],
      completedNodes := [] }
  | .addPathStep step =>
    { state with pathTaken := state.pathTaken ++ [step] }
  | .clearPath =>
    { state with pathTaken := [] }
  | .setTotalMSTCost cost =>
    { state with totalMSTCost := cost }
  | .undo =>
    if 0 < state.historyIndex then
      let newIndex := state.historyIndex - 1
      let previousGraph := state.history.getD newIndex { nodes := [], edges := [] }
      { state with
        graph := previousGraph,
        historyIndex := newIndex,
        selectedNodeId := none,
        selectedEdgeId := none }
    else state
  | .redo =>
    if state.historyIndex + 1 < state.history.length then
      let newIndex := state.historyIndex + 1
      let nextGraph := state.history.getD newIndex { nodes := [], edges := [] }
      { state with
        graph := nextGraph,
        historyIndex := newIndex,
        selectedNodeId := none,
        selectedEdgeId := none }
    else state
  | .loadSavedGraph graph =>
    let newState :=
      { state with
        graph := graph,
        selectedNodeId := none,
        selectedEdgeId := none,
        algorithm := none,
        isRunning := false,
        currentStep := none,
        totalMSTCost := none,
        pathTaken := [],
        visitedNodes := [],
        completedNodes := [] }
    addToHistory newState

/-- Folding a list of actions through the reducer, oldest first. -/
def runActions (state : GraphState) (actions : List GraphAction) : GraphState :=
  actions.foldl graphReducer state

/-! ## Algorithm step producers -/

/-- The running minimum of Prim's candidate scan: the adjacency-list weight
that was compared, the edge returned by `findEdge`, and the unvisited
endpoint (`minWeight` / `minEdge` / `nextNode` in the source). -/
structure PrimCandidate where
  weight : Int
  edge : EdgeData
  next : String
deriving DecidableEq, Repr

/-- `weight < minWeight` of Prim's scan; the initial `minWeight` is
`Infinity`, which every weight beats. -/
def primBetter (weight : Int) (best : Option PrimCandidate) : Bool :=
  match best with
  | none => true
  | some b => weight < b.weight

/-- The inner neighbor loop of Prim's candidate scan, for one visited vertex
`v`: skip visited neighbors, skip pairs with no edge, otherwise yield
`visitEdge` and then either `processNode` (new running minimum, updated via
strict less-than) or `skipEdge`. -/
def primScanNeighbors (g : GraphData) (visited : List String) (v : String)
    (neighbors : List (String × Int)) (best : Option PrimCandidate) :
    List Step × Option PrimCandidate :=
  match neighbors with
  | [] => ([], best)
  | (neighborId, weight) :: rest =>
    if neighborId ∈ visited then primScanNeighbors g visited v rest best
    else
      match findEdge g v neighborId with
      | none => primScanNeighbors g visited v rest best
      | some edge =>
        if primBetter weight best then
          let (steps, best') := primScanNeighbors g visited v rest
            (some { weight := weight, edge := edge, next := neighborId })
          ({ type := .visitEdge, edgeId := some edge.id } ::
            { type := .processNode, nodeId := some neighborId } :: steps, best')
        else
          let (steps, best') := primScanNeighbors g visited v rest best
          ({ type := .visitEdge, edgeId := some edge.id } ::
            { type := .skipEdge, edgeId := some edge.id } :: steps, best')

/-- The outer `for (const visitedNodeId of visited)` of Prim's candidate
scan, iterating the visited set in insertion order. -/
def primScanVisited (g : GraphData) (visited : List String)
    (pending : List String) (best : Option PrimCandidate) :
    List Step × Option PrimCandidate :=
  match pending with
  | [] => ([], best)
  | v :: rest =>
    let (steps1, best1) :=
      primScanNeighbors g visited v (createAdjacencyList g v) best
    let (steps2, best2) := primScanVisited g visited rest best1
    (steps1 ++ steps2, best2)

/-- Prim's outer `while (visited.size < nodes.length)` loop: scan for the
minimum candidate; with no candidate yield a terminal `done` carrying the
partial cost; otherwise yield `addToMST` for the chosen edge and vertex and
continue with the vertex added to the visited set and the edge weight added
to the running cost. -/
def primLoop (g : GraphData) (visited : List String) (totalCost : Int) :
    List Step :=
  if visited.length < g.nodes.length then
    let (steps, best) := primScanVisited g visited visited none
    match best with
    | none => steps ++ [{ type := .done, totalCost := some totalCost }]
    | some cand =>
      if cand.next ∈ visited then
        -- Unreachable: the scan only ever proposes unvisited vertices
        -- (`primScanVisited_next_not_mem` below); the branch makes the
        -- growth of `visited` explicit for termination.
        steps
      else
        steps ++
          { type := .addToMST, nodeId := some cand.next,
            edgeId := some cand.edge.id } ::
          primLoop g (visited ++ [cand.next]) (totalCost + cand.edge.weight)
  else [{ type := .done, totalCost := some totalCost }]
termination_by g.nodes.length - visited.length
decreasing_by
  simp only [List.length_append, List.length_singleton]
  omega

/-- `primMST` of the algorithms module: the full yielded step sequence. -/
def primMST (g : GraphData) (startNodeId : String) : List Step :=
  if startNodeId = "" ∨ g.nodes.find? (fun n => n.id = startNodeId) = none then
    [{ type := .done }]
  else
    { type := .visitNode, nodeId := some startNodeId } ::
      primLoop g [startNodeId] 0

/-- Path-compressing `find` of Kruskal's union-find.  `parent` is the JS
object keyed by node id (`none` = key absent).  The fuel bounds the chain
length; under the rank invariant a fuel of `nodes.length` is never
exhausted (`findRoot_fuel_irrelevant`-style lemmas below).  As in the
source, hitting an absent key propagates `undefined` (`none`) and the
compression writes the returned root back along the path. -/
def findRoot (parent : String → Option String) (fuel : Nat) (x : String) :
    (String → Option String) × Option String :=
  match parent x with
  | none => (parent, none)
  | some p =>
    if p = x then (parent, some x)
    else
      match fuel with
      | 0 => (parent, none)
      | fuel + 1 =>
        let (parent1, r) := findRoot parent fuel p
        (fun y => if y = x then r else parent1 y, r)

/-- `find` applied to a possibly-`undefined` argument (the source calls
`union(fromRoot, toRoot)` whose inner finds may receive `undefined` when an
edge endpoint was never initialized; `find(undefined)` returns `undefined`). -/
def findRootOpt (parent : String → Option String) (fuel : Nat)
    (x : Option String) : (String → Option String) × Option String :=
  match x with
  | none => (parent, none)
  | some s => findRoot parent fuel s

/-- `union` of Kruskal's union-find, by rank.  When either root is
`undefined` (impossible once every endpoint is an initialized node id) the
source's rank comparisons on the undefined key are false and its writes land
on the `"undefined"` key, invisible to node-id lookups; that case is
modelled as leaving the structure unchanged. -/
def kruskalUnion (parent : String → Option String) (rank : String → Nat)
    (fuel : Nat) (x y : Option String) :
    (String → Option String) × (String → Nat) :=
  let (p1, rootX) := findRootOpt parent fuel x
  let (p2, rootY) := findRootOpt p1 fuel y
  if rootX = rootY then (p2, rank)
  else
    match rootX, rootY with
    | some rx, some ry =>
      if rank rx < rank ry then
        (fun z => if z = rx then some ry else p2 z, rank)
      else if rank ry < rank rx then
        (fun z => if z = ry then some rx else p2 z, rank)
      else
        (fun z => if z = ry then some rx else p2 z,
         fun z => if z = rx then rank z + 1 else rank z)
    | _, _ => (p2, rank)

/-- Kruskal's edge loop: for each sorted edge yield `visitEdge`; accept it
(`addToMST` naming the edge and its `to` endpoint, union, cost update) when
its endpoints' roots differ, breaking once `nodes.length - 1` edges are
accepted; otherwise yield `skipEdge`.  Returns the yielded steps, the
accepted edges in order, and the accumulated cost. -/
def kruskalLoop (g : GraphData) (edges : List EdgeData)
    (parent : String → Option String) (rank : String → Nat)
    (accepted : List EdgeData) (totalCost : Int) :
    List Step × List EdgeData × Int :=
  match edges with
  | [] => ([], accepted, totalCost)
  | edge :: rest =>
    let fuel := g.nodes.length
    let visitStep : Step := { type := .visitEdge, edgeId := some edge.id }
    let (p1, fromRoot) := findRoot parent fuel edge.fromId
    let (p2, toRoot) := findRoot p1 fuel edge.toId
    if fromRoot = toRoot then
      let (steps, acc, cost) := kruskalLoop g rest p2 rank accepted totalCost
      (visitStep :: { type := .skipEdge, edgeId := some edge.id } :: steps,
        acc, cost)
    else
      let accepted1 := accepted ++ [edge]
      let totalCost1 := totalCost + edge.weight
      let (p3, rank1) := kruskalUnion p2 rank fuel fromRoot toRoot
      let addStep : Step :=
        { type := .addToMST, nodeId := some edge.toId,
          edgeId := some edge.id }
      if accepted1.length = g.nodes.length - 1 then
        ([visitStep, addStep], accepted1, totalCost1)
      else
        let (steps, acc, cost) := kruskalLoop g rest p3 rank1 accepted1 totalCost1
        (visitStep :: addStep :: steps, acc, cost)

/-- The ascending-by-weight edge order of Kruskal
(`[...edges].sort((a, b) => a.weight - b.weight)`): a stable sort by weight,
modelled by insertion sort, which is stable like `Array.prototype.sort`. -/
def sortEdgesByWeight (edges : List EdgeData) : List EdgeData :=
  List.insertionSort (fun a b => a.weight ≤ b.weight) edges

/-- `kruskalMST` of the algorithms module: initialize each node as its own
singleton set with rank 0, sort the edges, yield the informational
`done`-typed announcement, run the edge loop, then yield the terminal `done`
with the total cost (the disconnected and complete branches differ only in
their narrative strings). -/
def kruskalMST (g : GraphData) : List Step :=
  let parent0 : String → Option String :=
    g.nodes.foldl
      (fun p node => fun x => if x = node.id then some node.id else p x)
      (fun _ => none)
  let rank0 : String → Nat := fun _ => 0
  let sortedEdges := sortEdgesByWeight g.edges
  let (steps, _, totalCost) := kruskalLoop g sortedEdges parent0 rank0 [] 0
  { type := .done } :: steps ++
    [{ type := .done, totalCost := some totalCost }]

/-- All ids a traversal can ever mark visited: the node ids and the edge
endpoints (adjacency-list neighbors are edge endpoints). -/
def idUniverse (g : GraphData) : List String :=
  g.nodes.map (fun n => n.id) ++
    g.edges.flatMap (fun e => [e.fromId, e.toId])

/-- BFS neighbor loop for the dequeued vertex `current`: yield `visitEdge`
when the connecting edge exists; for an unvisited neighbor mark it visited,
enqueue it and yield `traverseEdge`; otherwise yield `skipEdge`.  Returns
the yielded steps, the newly visited ids in order (appended to both the
visited set and the queue), and the `allNeighborsVisited` flag. -/
def bfsNeighbors (g : GraphData) (current : String)
    (neighbors : List (String × Int)) (visited : List String) :
    List Step × List String × Bool :=
  match neighbors with
  | [] => ([], [], true)
  | (neighborId, _) :: rest =>
    let edge := findEdge g current neighborId
    let esteps : List Step :=
      match edge with
      | some e => [{ type := .visitEdge, edgeId := some e.id }]
      | none => []
    if neighborId ∈ visited then
      let ssteps : List Step :=
        match edge with
        | some e => [{ type := .skipEdge, edgeId := some e.id }]
        | none => []
      let (steps, added, flag) := bfsNeighbors g current rest visited
      (esteps ++ ssteps ++ steps, added, flag)
    else
      let tsteps : List Step :=
        match edge with
        | some e =>
          [{ type := .traverseEdge, nodeId := some neighborId,
             edgeId := some e.id }]
        | none => []
      let (steps, added, _) :=
        bfsNeighbors g current rest (visited ++ [neighborId])
      (esteps ++ tsteps ++ steps, neighborId :: added, false)

/-- Newly visited ids of a BFS neighbor loop are fresh and pairwise
distinct: appending them preserves `Nodup`. -/
theorem bfsNeighbors_nodup_append (g : GraphData) (current : String)
    (neighbors : List (String × Int)) (visited : List String)
    (h : (visited).Nodup) :
    (visited ++ (bfsNeighbors g current neighbors visited).2.1).Nodup := by
  induction neighbors generalizing visited with
  | nil => simpa [bfsNeighbors]
  | cons nb rest ih =>
    obtain ⟨neighborId, w⟩ := nb
    by_cases hv : neighborId ∈ visited
    · simpa [bfsNeighbors, hv] using ih visited h
    · have h1 : (visited ++ [neighborId]).Nodup := by
        simp [List.nodup_append, h, hv]
      simpa [bfsNeighbors, hv, List.append_assoc] using
        ih (visited ++ [neighborId]) h1

/-- Newly visited ids of a BFS neighbor loop come from the scanned neighbor
list (hence are edge endpoints). -/
theorem bfsNeighbors_added_subset (g : GraphData) (current : String)
    (neighbors : List (String × Int)) (visited : List String) :
    ∀ x ∈ (bfsNeighbors g current neighbors visited).2.1,
      ∃ w, (x, w) ∈ neighbors := by
  induction neighbors generalizing visited with
  | nil => simp [bfsNeighbors]
  | cons nb rest ih =>
    obtain ⟨neighborId, w⟩ := nb
    by_cases hv : neighborId ∈ visited
    · intro x hx
      simp only [bfsNeighbors, hv, if_pos] at hx
      rcases ih visited x hx with ⟨w', hw'⟩
      exact ⟨w', List.mem_cons_of_mem _ hw'⟩
    · intro x hx
      simp only [bfsNeighbors, hv, if_neg, ite_false] at hx
      rcases List.mem_cons.mp hx with rfl | hx'
      · exact ⟨w, List.mem_cons_self _ _⟩
      · rcases ih (visited ++ [neighborId]) x hx' with ⟨w', hw'⟩
        exact ⟨w', List.mem_cons_of_mem _ hw'⟩

/-- An adjacency-list neighbor is an edge endpoint, hence in the universe. -/
theorem adjacency_mem_universe (g : GraphData) (v x : String) (w : Int)
    (h : (x, w) ∈ createAdjacencyList g v) : x ∈ idUniverse g := by
  simp only [createAdjacencyList, List.mem_flatMap] at h
  obtain ⟨e, he, hmem⟩ := h
  simp only [idUniverse, List.mem_append, List.mem_flatMap]
  refine Or.inr ⟨e, he, ?_⟩
  rcases List.mem_append.mp hmem with h1 | h1 <;> split at h1 <;>
    simp_all

/-- A duplicate-free list contained in `m` is no longer than `m.dedup`. -/
theorem nodup_length_le_dedup {l m : List String} (hn : l.Nodup)
    (hsub : ∀ x ∈ l, x ∈ m) : l.length ≤ m.dedup.length := by
  have h1 : l.toFinset.card = l.length := List.toFinset_card_of_nodup hn
  have h2 : l.toFinset ⊆ m.toFinset := by
    intro x hx
    rw [List.mem_toFinset] at hx ⊢
    exact hsub x hx
  calc l.length = l.toFinset.card := h1.symm
    _ ≤ m.toFinset.card := Finset.card_le_card h2
    _ = m.dedup.length := List.card_toFinset m

/-- BFS dequeuing loop: dequeue, yield `processNode`, run the neighbor scan,
yield `completeNode` when no unvisited neighbor was found, recurse with the
newly visited ids appended to the queue and the visited set.  Returns the
steps and the final visited set.  The guard restating the loop invariant
(visited ids are distinct members of the universe) is what bounds the
recursion; it holds at every real call site. -/
def bfsLoop (g : GraphData) (queue : List String) (visited : List String) :
    List Step × List String :=
  match queue with
  | [] => ([], visited)
  | currentNodeId :: queueRest =>
    if hguard : visited.Nodup ∧ ∀ x ∈ visited, x ∈ idUniverse g then
      let scanned :=
        bfsNeighbors g currentNodeId (createAdjacencyList g currentNodeId)
          visited
      let csteps : List Step :=
        if scanned.2.2 then
          [{ type := .completeNode, nodeId := some currentNodeId }]
        else []
      let recres := bfsLoop g (queueRest ++ scanned.2.1) (visited ++ scanned.2.1)
      ({ type := .processNode, nodeId := some currentNodeId } ::
        scanned.1 ++ csteps ++ recres.1, recres.2)
    else ([], visited)
termination_by ((idUniverse g).dedup.length - visited.length) + queue.length
decreasing_by
  have hnd := bfsNeighbors_nodup_append g v (createAdjacencyList g v) visited hguard.1
  have hsub : ∀ x ∈ visited ++
      (bfsNeighbors g v (createAdjacencyList g v) visited).2.1,
      x ∈ idUniverse g := by
    intro x hx
    rcases List.mem_append.mp hx with hx | hx
    · exact hguard.2 x hx
    · rcases bfsNeighbors_added_subset g v (createAdjacencyList g v) visited x hx with ⟨w, hw⟩
      exact adjacency_mem_universe g v x w hw
  have hlen := nodup_length_le_dedup hnd hsub
  simp only [List.length_append, List.length_cons] at hlen ⊢
  omega

/-- `bfs` of the algorithms module: the full yielded step sequence. -/
def bfs (g : GraphData) (startNodeId : String) : List Step :=
  if startNodeId = "" ∨ g.nodes.find? (fun n => n.id = startNodeId) = none then
    [{ type := .done }]
  else
    { type := .visitNode, nodeId := some startNodeId } ::
      (bfsLoop g [startNodeId] [startNodeId]).1 ++ [{ type := .done }]

mutual

/-- `dfsVisit` of the source's DFS: mark `v` visited, yield `visitNode`,
walk the neighbor list, then yield `completeNode` (post-order).  Returns the
yielded steps and the ids newly marked visited, in order (`v` first); the
caller's visited set plus that list is the visited set after the call.  The
guard restates the call invariant — `v` is a fresh member of the universe —
which bounds the recursion and holds at every real call site. -/
def dfsVisit (g : GraphData) (v : String) (visited : List String) :
    List Step × List String :=
  if hguard : visited.Nodup ∧ (∀ x ∈ visited, x ∈ idUniverse g) ∧
      v ∈ idUniverse g ∧ v ∉ visited then
    let nres := dfsNeighbors g v (createAdjacencyList g v) (visited ++ [v])
    ({ type := .visitNode, nodeId := some v } :: nres.1 ++
      [{ type := .completeNode, nodeId := some v }], v :: nres.2)
  else ([], [])
termination_by ((idUniverse g).dedup.length + 1 - visited.length, 0)
decreasing_by
  have hnd : (visited ++ [v]).Nodup := by
    simp [List.nodup_append, hguard.1, hguard.2.2.2]
  have hsub : ∀ x ∈ visited ++ [v], x ∈ idUniverse g := by
    intro x hx
    rcases List.mem_append.mp hx with hx | hx
    · exact hguard.2.1 x hx
    · simp only [List.mem_singleton] at hx
      exact hx ▸ hguard.2.2.1
  have hlen := nodup_length_le_dedup hnd hsub
  simp only [List.length_append, List.length_singleton] at hlen
  simp only [Prod.lex_def, List.length_append, List.length_singleton]
  omega

/-- The neighbor loop of `dfsVisit`: yield `currentEdge` when the connecting
edge exists; recurse into an unvisited neighbor after yielding
`traverseEdge`; yield `skipEdge` for a visited one.  Returns the yielded
steps and the ids newly marked visited, in order. -/
def dfsNeighbors (g : GraphData) (v : String)
    (neighbors : List (String × Int)) (visited : List String) :
    List Step × List String :=
  match neighbors with
  | [] => ([], [])
  | (neighborId, _) :: rest =>
    let edge := findEdge g v neighborId
    let esteps : List Step :=
      match edge with
      | some e => [{ type := .currentEdge, edgeId := some e.id }]
      | none => []
    if neighborId ∈ visited then
      let ssteps : List Step :=
        match edge with
        | some e => [{ type := .skipEdge, edgeId := some e.id }]
        | none => []
      let nres := dfsNeighbors g v rest visited
      (esteps ++ ssteps ++ nres.1, nres.2)
    else
      let tsteps : List Step :=
        match edge with
        | some e =>
          [{ type := .traverseEdge, nodeId := some neighborId,
             edgeId := some e.id }]
        | none => []
      let vres := dfsVisit g neighborId visited
      let nres := dfsNeighbors g v rest (visited ++ vres.2)
      (esteps ++ tsteps ++ vres.1 ++ nres.1, vres.2 ++ nres.2)
termination_by
  ((idUniverse g).dedup.length + 1 - visited.length, neighbors.length + 1)
decreasing_by
  · simp only [Prod.lex_def, List.length_cons, true_and]
    omega
  · simp only [Prod.lex_def, List.length_cons, true_and]
    omega
  · simp only [Prod.lex_def, List.length_append, List.length_cons, true_and]
    omega

end

/-- `dfs` of the algorithms module: the full yielded step sequence.  Note
the start vertex is announced with `visitNode` once before `dfsVisit`, which
yields a second `visitNode` for it. -/
def dfs (g : GraphData) (startNodeId : String) : List Step :=
  if startNodeId = "" ∨ g.nodes.find? (fun n => n.id = startNodeId) = none then
    [{ type := .done }]
  else
    { type := .visitNode, nodeId := some startNodeId } ::
      (dfsVisit g startNodeId []).1 ++ [{ type := .done }]

/-! ## Concrete fixtures

The four-vertex scenario of the specification: vertices `A..D` with ids
`a1..a4`, edges A–B (weight 2), B–C (weight 3), A–C (weight 1), C–D
(weight 4). -/

/-- The empty graph value. -/
def emptyGraph : GraphData := { nodes := [], edges := [] }

def nodeA : NodeData := { id := "a1", x := 0, y := 0, label := "A", status := .default }

def nodeB : NodeData := { id := "a2", x := 0, y := 0, label := "B", status := .default }

def nodeC : NodeData := { id := "a3", x := 0, y := 0, label := "C", status := .default }

def nodeD : NodeData := { id := "a4", x := 0, y := 0, label := "D", status := .default }

def edgeAB : EdgeData := { id := "e1", fromId := "a1", toId := "a2", weight := 2, status := .default }

def edgeBC : EdgeData := { id := "e2", fromId := "a2", toId := "a3", weight := 3, status := .default }

def edgeAC : EdgeData := { id := "e3", fromId := "a1", toId := "a3", weight := 1, status := .default }

def edgeCD : EdgeData := { id := "e4", fromId := "a3", toId := "a4", weight := 4, status := .default }

/-- The spec's 4-vertex scenario graph. -/
def scenario : GraphData :=
  { nodes := [nodeA, nodeB, nodeC, nodeD],
    edges := [edgeAB, edgeBC, edgeAC, edgeCD] }

/-! ## C9 — invalid start vertex -/

/-- C9: for every graph and a start id that is empty or not a vertex id,
each of `primMST`, `bfs` and `dfs` yields exactly one step, of kind `done`,
carrying no `totalCost`, and terminates. -/
theorem C9_invalid_start_single_done (g : GraphData) (startNodeId : String)
    (h : startNodeId = "" ∨ g.nodes.find? (fun n => n.id = startNodeId) = none) :
    primMST g startNodeId =
      [{ type := .done, nodeId := none, edgeId := none, totalCost := none }] ∧
    bfs g startNodeId =
      [{ type := .done, nodeId := none, edgeId := none, totalCost := none }] ∧
    dfs g startNodeId =
      [{ type := .done, nodeId := none, edgeId := none, totalCost := none }] := by
  refine ⟨?_, ?_, ?_⟩
  · unfold primMST
    rw [if_pos h]
  · unfold bfs
    rw [if_pos h]
  · unfold dfs
    rw [if_pos h]

/-- C9 witness: the id `"zz"` names no vertex of the scenario graph. -/
theorem C9_invalid_start_single_done_witness :
    primMST scenario "zz" =
      [{ type := .done, nodeId := none, edgeId := none, totalCost := none }] ∧
    bfs scenario "zz" =
      [{ type := .done, nodeId := none, edgeId := none, totalCost := none }] ∧
    dfs scenario "zz" =
      [{ type := .done, nodeId := none, edgeId := none, totalCost := none }] :=
  C9_invalid_start_single_done scenario "zz" (by decide)

/-! ## C10 — deleting a vertex leaves the selected-edge id alone -/

/-- C10: `DELETE_NODE` leaves `selectedEdgeId` unchanged; consequently when
every edge carrying the selected id is incident to the deleted vertex, the
resulting state's selected-edge id references no edge of the graph. -/
theorem C10_deleteNode_keeps_selectedEdgeId (s : GraphState) (nodeId : String) :
    (graphReducer s (.deleteNode nodeId)).selectedEdgeId = s.selectedEdgeId ∧
    (∀ eid, s.selectedEdgeId = some eid →
      (∀ e ∈ s.graph.edges, e.id = eid → e.fromId = nodeId ∨ e.toId = nodeId) →
      ∀ e ∈ (graphReducer s (.deleteNode nodeId)).graph.edges, e.id ≠ eid) := by
  constructor
  · rfl
  · intro eid _ hinc e he hid
    have he' : e ∈ s.graph.edges ∧ e.fromId ≠ nodeId ∧ e.toId ≠ nodeId := by
      simpa [graphReducer, addToHistory, List.mem_filter] using he
    rcases hinc e he'.1 hid with hcase | hcase
    · exact he'.2.1 hcase
    · exact he'.2.2 hcase

/-- A state whose selected edge is incident to vertex `a1`. -/
def stateC10 : GraphState :=
  { initialState with
    graph := { nodes := [nodeA], edges := [edgeAB] },
    selectedEdgeId := some "e1" }

/-- C10 witness: deleting `a1` from `stateC10` keeps `selectedEdgeId` at
`"e1"` while removing every edge with that id. -/
theorem C10_deleteNode_keeps_selectedEdgeId_witness :
    (graphReducer stateC10 (.deleteNode "a1")).selectedEdgeId =
      stateC10.selectedEdgeId ∧
    ∀ e ∈ (graphReducer stateC10 (.deleteNode "a1")).graph.edges,
      e.id ≠ "e1" :=
  ⟨(C10_deleteNode_keeps_selectedEdgeId stateC10 "a1").1,
   (C10_deleteNode_keeps_selectedEdgeId stateC10 "a1").2 "e1" rfl (by decide)⟩

/-! ## C7 — structural no-ops -/

/-- C7 counterexample: dispatching `DELETE_NODE` with an id absent from the
graph does **not** return the state unchanged — it still appends a history
entry and advances the cursor (and clears the node selection). -/
theorem C7_counterexample :
    graphReducer initialState (.deleteNode "z") ≠ initialState := by decide

/-- C7 amended: a duplicate `ADD_EDGE` returns the state unchanged (same
value); `DELETE_NODE`/`DELETE_EDGE` with an id matching no node (nor any
edge endpoint) resp. no edge leave the graph value unchanged, but still
clear the corresponding selection and append a history entry via
`addToHistory`; the reducer is total, so it never raises. -/
theorem C7_amended_noop_behaviour (s : GraphState) :
    (∀ id fromN toN w,
      (s.graph.edges.find? (fun e =>
        (e.fromId = fromN && e.toId = toN) ||
        (e.fromId = toN && e.toId = fromN))).isSome →
      graphReducer s (.addEdge id fromN toN w) = s) ∧
    (∀ nodeId, (∀ n ∈ s.graph.nodes, n.id ≠ nodeId) →
      (∀ e ∈ s.graph.edges, e.fromId ≠ nodeId ∧ e.toId ≠ nodeId) →
      (graphReducer s (.deleteNode nodeId)).graph = s.graph ∧
      graphReducer s (.deleteNode nodeId) =
        addToHistory { s with
          selectedNodeId := none,
          startNodeId :=
            if s.startNodeId = some nodeId then none else s.startNodeId }) ∧
    (∀ edgeId, (∀ e ∈ s.graph.edges, e.id ≠ edgeId) →
      (graphReducer s (.deleteEdge edgeId)).graph = s.graph ∧
      graphReducer s (.deleteEdge edgeId) =
        addToHistory { s with selectedEdgeId := none }) := by
  refine ⟨?_, ?_, ?_⟩
  · intro id fromN toN w hdup
    obtain ⟨e, he⟩ := Option.isSome_iff_exists.mp hdup
    simp only [graphReducer, he]
  · intro nodeId hno hedge
    have hn : s.graph.nodes.filter (fun node => node.id ≠ nodeId) =
        s.graph.nodes :=
      List.filter_eq_self.mpr (by intro a ha; simpa using hno a ha)
    have hed : s.graph.edges.filter
        (fun edge => edge.fromId ≠ nodeId ∧ edge.toId ≠ nodeId) =
        s.graph.edges :=
      List.filter_eq_self.mpr (by intro a ha; simpa using hedge a ha)
    constructor
    · simp only [graphReducer, addToHistory, hn, hed]
    · simp only [graphReducer, hn, hed]
  · intro edgeId hno
    have hed : s.graph.edges.filter (fun edge => edge.id ≠ edgeId) =
        s.graph.edges :=
      List.filter_eq_self.mpr (by intro a ha; simpa using hno a ha)
    constructor
    · simp only [graphReducer, addToHistory, hed]
    · simp only [graphReducer, hed]

/-- C7 witness: on the scenario state, adding `a1–a2` again (in reversed
orientation) is a value-level no-op, and deleting the absent node `"z"` and
absent edge `"zz"` leave the graph value unchanged while appending history. -/
theorem C7_amended_noop_behaviour_witness :
    (graphReducer { initialState with graph := scenario }
        (.addEdge "e9" "a2" "a1" (some 5)) =
      { initialState with graph := scenario }) ∧
    ((graphReducer { initialState with graph := scenario }
        (.deleteNode "z")).graph = scenario) ∧
    ((graphReducer { initialState with graph := scenario }
        (.deleteEdge "zz")).graph = scenario) :=
  ⟨(C7_amended_noop_behaviour _).1 "e9" "a2" "a1" (some 5) (by decide),
   ((C7_amended_noop_behaviour _).2.1 "z" (by decide) (by decide)).1,
   ((C7_amended_noop_behaviour _).2.2 "zz" (by decide)).1⟩

/-! ## C3 — history discipline of structurally-mutating actions -/

/-- The actions that reach `addToHistory`: add/delete vertex, non-duplicate
add edge, delete edge, update edge weight, load graph.  (The duplicate
`ADD_EDGE` returns early; `CLEAR_GRAPH` also records history, but of the
freshly reset state rather than the current one.) -/
def appendsHistory (s : GraphState) : GraphAction → Prop
  | .addNode _ _ _ _ => True
  | .deleteNode _ => True
  | .addEdge _ fromN toN _ =>
    s.graph.edges.find? (fun e =>
      (e.fromId = fromN && e.toId = toN) ||
      (e.fromId = toN && e.toId = fromN)) = none
  | .deleteEdge _ => True
  | .updateEdgeWeight _ _ => True
  | .loadSavedGraph _ => True
  | _ => False

/-- Field equations of `addToHistory`. -/
theorem addToHistory_history (t : GraphState) :
    (addToHistory t).history =
      t.history.take (t.historyIndex + 1) ++ [t.graph] := rfl

theorem addToHistory_historyIndex (t : GraphState) :
    (addToHistory t).historyIndex = t.historyIndex + 1 := rfl

theorem addToHistory_graph (t : GraphState) :
    (addToHistory t).graph = t.graph := rfl

/-- Undoing right after `addToHistory` restores the history entry at the
old cursor, which is the pre-action live graph whenever that graph was in
sync with its cursor entry. -/
theorem undo_after_addToHistory (s t : GraphState)
    (hh : t.history = s.history) (hi : t.historyIndex = s.historyIndex)
    (hlen : s.historyIndex < s.history.length)
    (hsync : s.graph = s.history.getD s.historyIndex emptyGraph) :
    (graphReducer (addToHistory t) .undo).graph = s.graph := by
  have htk : s.historyIndex < (s.history.take (s.historyIndex + 1)).length := by
    simp only [List.length_take]
    omega
  have hstep : graphReducer (addToHistory t) .undo =
      { addToHistory t with
        graph := (addToHistory t).history.getD
          ((addToHistory t).historyIndex - 1) emptyGraph,
        historyIndex := (addToHistory t).historyIndex - 1,
        selectedNodeId := none,
        selectedEdgeId := none } := by
    simp only [graphReducer]
    rw [if_pos (show 0 < (addToHistory t).historyIndex by
      rw [addToHistory_historyIndex]; omega)]
    rfl
  rw [hstep]
  show (addToHistory t).history.getD
    ((addToHistory t).historyIndex - 1) emptyGraph = s.graph
  rw [addToHistory_history, addToHistory_historyIndex, hh, hi,
    Nat.add_sub_cancel, List.getD_eq_getElem?_getD, List.getElem?_append,
    if_pos htk, List.getElem?_take, if_pos (Nat.lt_succ_self _)]
  rw [hsync, List.getD_eq_getElem?_getD]

/-- Every history-appending action is `addToHistory` of a state carrying
the original history and cursor. -/
theorem appendsHistory_step (s : GraphState) (a : GraphAction)
    (h : appendsHistory s a) :
    ∃ t, graphReducer s a = addToHistory t ∧ t.history = s.history ∧
      t.historyIndex = s.historyIndex := by
  cases a with
  | addNode id x y label => exact ⟨_, rfl, rfl, rfl⟩
  | deleteNode nodeId => exact ⟨_, rfl, rfl, rfl⟩
  | addEdge id fromN toN w =>
    have h' : s.graph.edges.find? (fun e =>
        (e.fromId = fromN && e.toId = toN) ||
        (e.fromId = toN && e.toId = fromN)) = none := h
    clear h
    refine ⟨{ s with
        graph := { s.graph with edges := s.graph.edges ++
          [{ id := id, fromId := fromN, toId := toN,
             weight := match w with
               | some w' => if w' = 0 then 1 else w'
               | none => 1,
             status := .default }] },
        selectedEdgeId := some id,
        selectedNodeId := none }, ?_, rfl, rfl⟩
    simp only [graphReducer, h']
  | deleteEdge edgeId => exact ⟨_, rfl, rfl, rfl⟩
  | updateEdgeWeight edgeId w => exact ⟨_, rfl, rfl, rfl⟩
  | loadSavedGraph graph => exact ⟨_, rfl, rfl, rfl⟩
  | selectNode n => exact absurd h (by simp [appendsHistory])
  | moveNode n x y => exact absurd h (by simp [appendsHistory])
  | selectEdge e => exact absurd h (by simp [appendsHistory])
  | setAlgorithm alg => exact absurd h (by simp [appendsHistory])
  | setRunning b => exact absurd h (by simp [appendsHistory])
  | setSpeed sp => exact absurd h (by simp [appendsHistory])
  | setCurrentStep st => exact absurd h (by simp [appendsHistory])
  | resetGraphStatus => exact absurd h (by simp [appendsHistory])
  | clearGraph => exact absurd h (by simp [appendsHistory])
  | setStartNode n => exact absurd h (by simp [appendsHistory])
  | setTotalMSTCost c => exact absurd h (by simp [appendsHistory])
  | addPathStep p => exact absurd h (by simp [appendsHistory])
  | clearPath => exact absurd h (by simp [appendsHistory])
  | undo => exact absurd h (by simp [appendsHistory])
  | redo => exact absurd h (by simp [appendsHistory])

/-- C3 counterexample: after one `ADD_NODE`, `CLEAR_GRAPH` does not advance
the cursor past the current one (it resets history wholesale), and the
pre-clear graph is not reachable by a subsequent undo. -/
theorem C3_counterexample :
    ¬ ((graphReducer (graphReducer initialState (.addNode "n1" 0 0 none))
          .clearGraph).historyIndex =
        (graphReducer initialState (.addNode "n1" 0 0 none)).historyIndex + 1 ∧
      (graphReducer (graphReducer (graphReducer initialState
          (.addNode "n1" 0 0 none)) .clearGraph) .undo).graph =
        (graphReducer initialState (.addNode "n1" 0 0 none)).graph) := by
  decide

/-- C3 amended: every action that records history (add/delete vertex,
non-duplicate add edge, delete edge, weight update, load graph — but not
`CLEAR_GRAPH`, and not a duplicate add edge) truncates the entries beyond
the cursor, appends the resulting graph and advances the cursor by one, so
a structural edit after an undo discards the redo branch; the pre-action
graph is restored by a subsequent undo whenever the live graph was in sync
with its cursor entry.  `CLEAR_GRAPH` instead resets the history to two
empty-graph entries with cursor 1. -/
theorem C3_amended_history_discipline (s : GraphState) (a : GraphAction)
    (h : appendsHistory s a) :
    (graphReducer s a).history =
      s.history.take (s.historyIndex + 1) ++ [(graphReducer s a).graph] ∧
    (graphReducer s a).historyIndex = s.historyIndex + 1 ∧
    (s.historyIndex < s.history.length →
      s.graph = s.history.getD s.historyIndex emptyGraph →
      (graphReducer (graphReducer s a) .undo).graph = s.graph) ∧
    (graphReducer s .clearGraph).history = [emptyGraph, emptyGraph] ∧
    (graphReducer s .clearGraph).historyIndex = 1 := by
  have hclear : (graphReducer s .clearGraph).history = [emptyGraph, emptyGraph] ∧
      (graphReducer s .clearGraph).historyIndex = 1 := by
    constructor <;> rfl
  obtain ⟨t, heq, hh, hi⟩ := appendsHistory_step s a h
  refine ⟨?_, ?_, ?_, hclear.1, hclear.2⟩
  · rw [heq, addToHistory_history, addToHistory_graph, hh, hi]
  · rw [heq, addToHistory_historyIndex, hi]
  · intro hlen hsync
    rw [heq]
    exact undo_after_addToHistory s t hh hi hlen hsync

/-- C3 witness: adding a node to the initial state truncates nothing,
appends the one-node graph, advances the cursor to 1, and an undo restores
the empty pre-action graph. -/
theorem C3_amended_history_discipline_witness :
    (graphReducer initialState (.addNode "n1" 0 0 none)).history =
      initialState.history.take 1 ++
        [(graphReducer initialState (.addNode "n1" 0 0 none)).graph] ∧
    (graphReducer initialState (.addNode "n1" 0 0 none)).historyIndex = 1 ∧
    (graphReducer (graphReducer initialState (.addNode "n1" 0 0 none))
        .undo).graph = initialState.graph ∧
    (graphReducer initialState .clearGraph).history =
      [emptyGraph, emptyGraph] ∧
    (graphReducer initialState .clearGraph).historyIndex = 1 :=
  ⟨(C3_amended_history_discipline initialState (.addNode "n1" 0 0 none) trivial).1,
   (C3_amended_history_discipline initialState (.addNode "n1" 0 0 none) trivial).2.1,
   (C3_amended_history_discipline initialState (.addNode "n1" 0 0 none) trivial).2.2.1
     (by decide) (by decide),
   (C3_amended_history_discipline initialState (.addNode "n1" 0 0 none) trivial).2.2.2.1,
   (C3_amended_history_discipline initialState (.addNode "n1" 0 0 none) trivial).2.2.2.2⟩

/-! ## C2 — undo/redo round trips -/

/-- The five structural edit kinds of the undo/redo property. -/
def structuralEdit : GraphAction → Prop
  | .addNode _ _ _ _ => True
  | .deleteNode _ => True
  | .addEdge _ _ _ _ => True
  | .deleteEdge _ => True
  | .updateEdgeWeight _ _ => True
  | _ => False

/-- A sequence of structural edits each of which actually records a history
entry at its point in the sequence (rules out duplicate-edge no-ops). -/
def structuralEditsRecord (s : GraphState) : List GraphAction → Prop
  | [] => True
  | a :: rest =>
    structuralEdit a ∧ appendsHistory s a ∧
      structuralEditsRecord (graphReducer s a) rest

/-- Field equations of a history-appending step under an in-range cursor. -/
theorem step_after_append (s : GraphState) (a : GraphAction)
    (h : appendsHistory s a) (hlen : s.historyIndex < s.history.length) :
    (graphReducer s a).historyIndex = s.historyIndex + 1 ∧
    (graphReducer s a).history.length = s.historyIndex + 2 ∧
    (graphReducer s a).graph =
      (graphReducer s a).history.getD (graphReducer s a).historyIndex
        emptyGraph ∧
    (graphReducer s a).history.take (s.historyIndex + 1) =
      s.history.take (s.historyIndex + 1) := by
  obtain ⟨t, heq, hh, hi⟩ := appendsHistory_step s a h
  have htklen : (s.history.take (s.historyIndex + 1)).length =
      s.historyIndex + 1 := by
    simp only [List.length_take]
    omega
  rw [heq, addToHistory_history, addToHistory_historyIndex,
    addToHistory_graph, hh, hi]
  refine ⟨rfl, ?_, ?_, ?_⟩
  · simp only [List.length_append, htklen, List.length_singleton]
  · rw [List.getD_eq_getElem?_getD, List.getElem?_append,
      if_neg (by omega), htklen, Nat.sub_self]
    rfl
  · rw [List.take_append_of_le_length (by omega), List.take_take]
    simp

/-- Field equations of `UNDO` when the cursor is positive. -/
theorem undo_fields (t : GraphState) (h : 0 < t.historyIndex) :
    (graphReducer t .undo).graph =
      t.history.getD (t.historyIndex - 1) emptyGraph ∧
    (graphReducer t .undo).history = t.history ∧
    (graphReducer t .undo).historyIndex = t.historyIndex - 1 := by
  simp only [graphReducer, if_pos h]
  refine ⟨by trivial, by trivial, by trivial⟩

/-- Field equations of `REDO` when the cursor is not at the last entry. -/
theorem redo_fields (t : GraphState) (h : t.historyIndex + 1 < t.history.length) :
    (graphReducer t .redo).graph =
      t.history.getD (t.historyIndex + 1) emptyGraph ∧
    (graphReducer t .redo).history = t.history ∧
    (graphReducer t .redo).historyIndex = t.historyIndex + 1 := by
  simp only [graphReducer, if_pos h]
  refine ⟨by trivial, by trivial, by trivial⟩

/-- `N` undos from a cursor-synced state walk the cursor back `N` entries. -/
theorem undo_many (N : Nat) : ∀ t : GraphState, N ≤ t.historyIndex →
    t.graph = t.history.getD t.historyIndex emptyGraph →
    (runActions t (List.replicate N .undo)).history = t.history ∧
    (runActions t (List.replicate N .undo)).historyIndex =
      t.historyIndex - N ∧
    (runActions t (List.replicate N .undo)).graph =
      t.history.getD (t.historyIndex - N) emptyGraph := by
  induction N with
  | zero =>
    intro t _ hsync
    exact ⟨rfl, rfl, by simpa using hsync⟩
  | succ n ih =>
    intro t hN hsync
    have h0 : 0 < t.historyIndex := by omega
    have hu := undo_fields t h0
    have hrec := ih (graphReducer t .undo)
      (by rw [hu.2.2]; omega)
      (by rw [hu.1, hu.2.1, hu.2.2])
    have hrw : runActions t (List.replicate (n + 1) .undo) =
        runActions (graphReducer t .undo) (List.replicate n .undo) := rfl
    rw [hrw]
    refine ⟨by rw [hrec.1, hu.2.1], ?_, ?_⟩
    · rw [hrec.2.1, hu.2.2]
      omega
    · rw [hrec.2.2, hu.2.1, hu.2.2]
      congr 1
      omega

/-- `N` redos from a cursor-synced state walk the cursor forward `N`
entries. -/
theorem redo_many (N : Nat) : ∀ t : GraphState,
    t.historyIndex + N < t.history.length →
    t.graph = t.history.getD t.historyIndex emptyGraph →
    (runActions t (List.replicate N .redo)).history = t.history ∧
    (runActions t (List.replicate N .redo)).historyIndex =
      t.historyIndex + N ∧
    (runActions t (List.replicate N .redo)).graph =
      t.history.getD (t.historyIndex + N) emptyGraph := by
  induction N with
  | zero =>
    intro t _ hsync
    exact ⟨rfl, rfl, by simpa using hsync⟩
  | succ n ih =>
    intro t hN hsync
    have h0 : t.historyIndex + 1 < t.history.length := by omega
    have hr := redo_fields t h0
    have hrec := ih (graphReducer t .redo)
      (by rw [hr.2.2, hr.2.1]; omega)
      (by rw [hr.1, hr.2.1, hr.2.2])
    have hrw : runActions t (List.replicate (n + 1) .redo) =
        runActions (graphReducer t .redo) (List.replicate n .redo) := rfl
    rw [hrw]
    refine ⟨by rw [hrec.1, hr.2.1], ?_, ?_⟩
    · rw [hrec.2.1, hr.2.2]
      omega
    · rw [hrec.2.2, hr.2.1, hr.2.2]
      congr 1
      omega

/-- Running a recording edit sequence advances the cursor once per edit,
keeps it in range and in sync, and preserves the history prefix up to any
index at most the starting cursor. -/
theorem edits_run (i0 : Nat) (edits : List GraphAction) :
    ∀ s : GraphState, structuralEditsRecord s edits →
    s.historyIndex < s.history.length →
    s.graph = s.history.getD s.historyIndex emptyGraph →
    i0 ≤ s.historyIndex →
    (runActions s edits).historyIndex = s.historyIndex + edits.length ∧
    (runActions s edits).historyIndex < (runActions s edits).history.length ∧
    (runActions s edits).graph =
      (runActions s edits).history.getD (runActions s edits).historyIndex
        emptyGraph ∧
    (runActions s edits).history.take (i0 + 1) =
      s.history.take (i0 + 1) := by
  induction edits with
  | nil =>
    intro s _ hlen hsync _
    exact ⟨rfl, hlen, hsync, rfl⟩
  | cons a rest ih =>
    intro s hrec hlen hsync hi0
    obtain ⟨hsa, happ, hrest⟩ := hrec
    have hstep := step_after_append s a happ hlen
    have hlen1 : (graphReducer s a).historyIndex <
        (graphReducer s a).history.length := by
      rw [hstep.1, hstep.2.1]
      omega
    have h := ih (graphReducer s a) hrest hlen1 hstep.2.2.1
      (by rw [hstep.1]; omega)
    have hrw : runActions s (a :: rest) =
        runActions (graphReducer s a) rest := rfl
    rw [hrw]
    refine ⟨?_, h.2.1, h.2.2.1, ?_⟩
    · rw [h.1, hstep.1, List.length_cons]
      omega
    · rw [h.2.2.2]
      have hmid : (graphReducer s a).history.take (i0 + 1) =
          ((graphReducer s a).history.take (s.historyIndex + 1)).take
            (i0 + 1) := by
        rw [List.take_take]
        congr 1
        omega
      rw [hmid, hstep.2.2.2, List.take_take]
      congr 1
      omega

/-- C2 counterexample: a duplicate `ADD_EDGE` inside the edit sequence
records no history entry, so N undos step one entry too far. -/
theorem C2_counterexample :
    (runActions
      (runActions
        (runActions initialState
          [.addNode "n1" 0 0 none, .addNode "n2" 100 0 none,
           .addEdge "e1" "n1" "n2" none])
        [.updateEdgeWeight "e1" 5, .addEdge "e2" "n1" "n2" none])
      (List.replicate 2 .undo)).graph ≠
    (runActions initialState
      [.addNode "n1" 0 0 none, .addNode "n2" 100 0 none,
       .addEdge "e1" "n1" "n2" none]).graph := by
  decide

/-- C2 amended: from a state whose live graph is in sync with the history
entry at its in-range cursor, after `N` structural edits each of which
records a history entry (no duplicate-edge no-op), `N` undos restore the
pre-sequence graph value and `N` further redos restore the post-sequence
graph value. -/
theorem C2_amended_undo_redo (s : GraphState) (edits : List GraphAction)
    (h : structuralEditsRecord s edits)
    (hlen : s.historyIndex < s.history.length)
    (hsync : s.graph = s.history.getD s.historyIndex emptyGraph) :
    (runActions (runActions s edits)
      (List.replicate edits.length .undo)).graph = s.graph ∧
    (runActions
      (runActions (runActions s edits) (List.replicate edits.length .undo))
      (List.replicate edits.length .redo)).graph =
      (runActions s edits).graph := by
  have hr := edits_run s.historyIndex edits s h hlen hsync le_rfl
  have hu := undo_many edits.length (runActions s edits)
    (by rw [hr.1]; omega) hr.2.2.1
  have hidx : (runActions s edits).historyIndex - edits.length =
      s.historyIndex := by
    rw [hr.1]
    omega
  have hpref : (runActions s edits).history.getD s.historyIndex emptyGraph =
      s.history.getD s.historyIndex emptyGraph := by
    rw [List.getD_eq_getElem?_getD, List.getD_eq_getElem?_getD]
    have h1 : (runActions s edits).history[s.historyIndex]? =
        ((runActions s edits).history.take (s.historyIndex + 1))[s.historyIndex]? := by
      rw [List.getElem?_take, if_pos (Nat.lt_succ_self _)]
    have h2 : s.history[s.historyIndex]? =
        (s.history.take (s.historyIndex + 1))[s.historyIndex]? := by
      rw [List.getElem?_take, if_pos (Nat.lt_succ_self _)]
    rw [h1, h2, hr.2.2.2]
  have hgoal1 : (runActions (runActions s edits)
      (List.replicate edits.length .undo)).graph = s.graph := by
    rw [hu.2.2, hidx, hpref, ← hsync]
  refine ⟨hgoal1, ?_⟩
  have husync : (runActions (runActions s edits)
      (List.replicate edits.length .undo)).graph =
      (runActions (runActions s edits)
        (List.replicate edits.length .undo)).history.getD
        (runActions (runActions s edits)
          (List.replicate edits.length .undo)).historyIndex emptyGraph := by
    rw [hu.1, hu.2.1, hu.2.2]
  have hrlen : (runActions (runActions s edits)
      (List.replicate edits.length .undo)).historyIndex + edits.length <
      (runActions (runActions s edits)
        (List.replicate edits.length .undo)).history.length := by
    rw [hu.1, hu.2.1, hr.1]
    have := hr.2.1
    rw [hr.1] at this
    omega
  have hre := redo_many edits.length _ hrlen husync
  rw [hre.2.2, hu.1, hu.2.1]
  have : (runActions s edits).historyIndex - edits.length + edits.length =
      (runActions s edits).historyIndex := by
    rw [hr.1]
    omega
  rw [this]
  exact hr.2.2.1.symm

/-- C2 witness: two recording edits on a one-node state, undone twice and
redone twice. -/
theorem C2_amended_undo_redo_witness :
    (runActions
      (runActions (graphReducer initialState (.addNode "n1" 0 0 none))
        [.addNode "n2" 0 0 none, .addEdge "e1" "n1" "n2" none])
      (List.replicate 2 .undo)).graph =
      (graphReducer initialState (.addNode "n1" 0 0 none)).graph ∧
    (runActions
      (runActions
        (runActions (graphReducer initialState (.addNode "n1" 0 0 none))
          [.addNode "n2" 0 0 none, .addEdge "e1" "n1" "n2" none])
        (List.replicate 2 .undo))
      (List.replicate 2 .redo)).graph =
      (runActions (graphReducer initialState (.addNode "n1" 0 0 none))
        [.addNode "n2" 0 0 none, .addEdge "e1" "n1" "n2" none]).graph :=
  C2_amended_undo_redo (graphReducer initialState (.addNode "n1" 0 0 none))
    [.addNode "n2" 0 0 none, .addEdge "e1" "n1" "n2" none]
    (by simp only [structuralEditsRecord, structuralEdit, appendsHistory]
        decide)
    (by decide) (by decide)

/-! ## C4 — status derivation of step application -/

/-- Modelled from the spec's recoloring wording: vertex status by
descending priority — start, completed, current (the vertex named by a
`processNode`/`addToMST` step), visited, default. -/
def specVertexStatus (startNodeId : Option String)
    (visited completed : List String) (step : Step) (node : NodeData) :
    NodeStatus :=
  if startNodeId = some node.id then .start
  else if node.id ∈ completed then .completed
  else if (step.type = .processNode ∨ step.type = .addToMST) ∧
      step.nodeId = some node.id then .current
  else if node.id ∈ visited then .visited
  else .default

/-- Modelled from the spec's edge recoloring wording (claim C4):
`visitEdge`/`currentEdge` → current, `addToMST`/`traverseEdge` → visited,
anything else named → default. -/
def specEdgeStatusClaim (t : StepType) : EdgeStatus :=
  if t = .visitEdge ∨ t = .currentEdge then .current
  else if t = .addToMST ∨ t = .traverseEdge then .visited
  else .default

/-- The edge rule the reducer actually implements: it also maps the `mst`
step kind to `visited`. -/
def stepEdgeStatus (t : StepType) : EdgeStatus :=
  if t = .visitEdge ∨ t = .currentEdge then .current
  else if t = .addToMST ∨ t = .traverseEdge ∨ t = .mst then .visited
  else .default

/-- `recolorNode` computes exactly the spec's vertex priority cascade. -/
theorem recolorNode_eq_spec (startNodeId : Option String)
    (visited completed : List String) (step : Step) (node : NodeData) :
    recolorNode startNodeId visited completed step node =
      { node with
        status := specVertexStatus startNodeId visited completed step node } := by
  unfold recolorNode specVertexStatus
  split_ifs <;> rfl

/-- `recolorEdge` computes the `stepEdgeStatus` rule on the named edge. -/
theorem recolorEdge_eq_spec (step : Step) (edge : EdgeData) :
    recolorEdge step edge =
      if step.edgeId = some edge.id then
        { edge with status := stepEdgeStatus step.type }
      else edge := by
  unfold recolorEdge stepEdgeStatus
  split_ifs <;> rfl

/-- A state holding just the edge `e1` and a step of the `mst` kind naming
it. -/
def stateC4 : GraphState :=
  { initialState with graph := { nodes := [], edges := [edgeAB] } }

def stepC4 : Step := { type := .mst, edgeId := some "e1" }

/-- C4 counterexample: a step of kind `mst` naming an edge is recolored
`visited` by the reducer, not `default` as the claim's "any other kind →
default" clause demands. -/
theorem C4_counterexample :
    ¬ (∀ e ∈ (graphReducer stateC4 (.setCurrentStep (some stepC4))).graph.edges,
        e.status = specEdgeStatusClaim stepC4.type) := by
  decide

/-- C4 amended: applying a non-null step recolors every vertex by the
spec's priority cascade over the updated derived sets, and recolors the
named edge by `current` for `visitEdge`/`currentEdge`, `visited` for
`addToMST`/`traverseEdge` **and for `mst`**, `default` for any other kind. -/
theorem C4_amended_status_derivation (s : GraphState) (step : Step) :
    (graphReducer s (.setCurrentStep (some step))).graph.nodes =
      s.graph.nodes.map (fun node =>
        { node with status := (specVertexStatus s.startNodeId
            (graphReducer s (.setCurrentStep (some step))).visitedNodes
            (graphReducer s (.setCurrentStep (some step))).completedNodes
            step node) }) ∧
    (graphReducer s (.setCurrentStep (some step))).graph.edges =
      s.graph.edges.map (fun edge =>
        if step.edgeId = some edge.id then
          { edge with status := stepEdgeStatus step.type }
        else edge) := by
  constructor
  · have hnodes : (graphReducer s (.setCurrentStep (some step))).graph.nodes =
        s.graph.nodes.map (recolorNode s.startNodeId
          (graphReducer s (.setCurrentStep (some step))).visitedNodes
          (graphReducer s (.setCurrentStep (some step))).completedNodes
          step) := rfl
    rw [hnodes]
    exact List.map_congr_left (fun node _ =>
      recolorNode_eq_spec s.startNodeId _ _ step node)
  · cases hE : step.edgeId with
    | none =>
      have hedges : (graphReducer s (.setCurrentStep (some step))).graph.edges =
          s.graph.edges := by
        simp only [graphReducer, hE]
      rw [hedges]
      simp
    | some eid =>
      have hedges : (graphReducer s (.setCurrentStep (some step))).graph.edges =
          s.graph.edges.map (recolorEdge step) := by
        simp only [graphReducer, hE]
      rw [hedges]
      refine List.map_congr_left (fun edge _ => ?_)
      rw [recolorEdge_eq_spec step edge, hE]

/-! ## C8 — no dangling edges -/

/-- Every edge's endpoints name vertices of the graph. -/
def wfGraph (g : GraphData) : Prop :=
  ∀ e ∈ g.edges,
    (∃ n ∈ g.nodes, n.id = e.fromId) ∧ (∃ n ∈ g.nodes, n.id = e.toId)

/-- The restriction under which the invariant is provable: `ADD_EDGE` joins
existing vertices and `LOAD_SAVED_GRAPH` loads a graph without dangling
edges (the reducer itself checks neither). -/
def goodAction (s : GraphState) : GraphAction → Prop
  | .addEdge _ fromN toN _ =>
    (∃ n ∈ s.graph.nodes, n.id = fromN) ∧ (∃ n ∈ s.graph.nodes, n.id = toN)
  | .loadSavedGraph g => wfGraph g
  | _ => True

/-- A chain of actions each good at its point in the sequence. -/
def goodChain (s : GraphState) : List GraphAction → Prop
  | [] => True
  | a :: rest => goodAction s a ∧ goodChain (graphReducer s a) rest

theorem wfGraph_empty : wfGraph emptyGraph := by
  intro e he
  simp [emptyGraph] at he

/-- Recoloring a node never changes its id. -/
theorem recolorNode_id (a : Option String) (v c : List String) (st : Step)
    (n : NodeData) : (recolorNode a v c st n).id = n.id := by
  unfold recolorNode
  split_ifs <;> rfl

/-- Recoloring an edge never changes its endpoints. -/
theorem recolorEdge_endpoints (st : Step) (e : EdgeData) :
    (recolorEdge st e).fromId = e.fromId ∧ (recolorEdge st e).toId = e.toId := by
  unfold recolorEdge
  split_ifs <;> exact ⟨rfl, rfl⟩

/-- Mapping id-preserving functions over nodes and endpoint-preserving
functions over edges keeps a graph well-formed. -/
theorem wfGraph_map (g : GraphData) (f : NodeData → NodeData)
    (fe : EdgeData → EdgeData) (hf : ∀ n, (f n).id = n.id)
    (he : ∀ e, (fe e).fromId = e.fromId ∧ (fe e).toId = e.toId)
    (h : wfGraph g) :
    wfGraph { nodes := g.nodes.map f, edges := g.edges.map fe } := by
  intro e hmem
  rw [List.mem_map] at hmem
  obtain ⟨e0, he0, rfl⟩ := hmem
  obtain ⟨⟨n1, hn1, hid1⟩, ⟨n2, hn2, hid2⟩⟩ := h e0 he0
  exact ⟨⟨f n1, List.mem_map_of_mem f hn1, by rw [hf, hid1, (he e0).1]⟩,
         ⟨f n2, List.mem_map_of_mem f hn2, by rw [hf, hid2, (he e0).2]⟩⟩

theorem wf_getD (l : List GraphData) (i : Nat)
    (h : ∀ x ∈ l, wfGraph x) : wfGraph (l.getD i emptyGraph) := by
  rw [List.getD_eq_getElem?_getD]
  cases hx : l[i]? with
  | none => exact wfGraph_empty
  | some x => exact h x (List.getElem?_mem hx)

/-- `addToHistory` preserves well-formedness of the live graph and of every
history entry. -/
theorem addToHistory_wf (t : GraphState) (h1 : wfGraph t.graph)
    (h2 : ∀ x ∈ t.history, wfGraph x) :
    wfGraph (addToHistory t).graph ∧
      ∀ x ∈ (addToHistory t).history, wfGraph x := by
  refine ⟨h1, ?_⟩
  intro x hx
  rw [addToHistory_history] at hx
  rcases List.mem_append.mp hx with hx | hx
  · exact h2 x (List.take_subset _ _ hx)
  · rw [List.mem_singleton] at hx
    exact hx ▸ h1

/-- One good reducer step preserves the no-dangling-edges invariant on both
the live graph and every stored history entry. -/
theorem wf_preserved (s : GraphState) (a : GraphAction)
    (hwf : wfGraph s.graph ∧ ∀ x ∈ s.history, wfGraph x)
    (hg : goodAction s a) :
    wfGraph (graphReducer s a).graph ∧
      ∀ x ∈ (graphReducer s a).history, wfGraph x := by
  obtain ⟨hG, hH⟩ := hwf
  cases a with
  | addNode id x y label =>
    refine addToHistory_wf _ ?_ hH
    intro e he
    obtain ⟨⟨n1, hn1, hid1⟩, ⟨n2, hn2, hid2⟩⟩ := hG e he
    exact ⟨⟨n1, List.mem_append_left _ hn1, hid1⟩,
           ⟨n2, List.mem_append_left _ hn2, hid2⟩⟩
  | deleteNode nodeId =>
    refine addToHistory_wf _ ?_ hH
    intro e he
    obtain ⟨he0, hne⟩ := List.mem_filter.mp he
    obtain ⟨⟨n1, hn1, hid1⟩, ⟨n2, hn2, hid2⟩⟩ := hG e he0
    simp only [decide_eq_true_eq] at hne
    refine ⟨⟨n1, ?_, hid1⟩, ⟨n2, ?_, hid2⟩⟩
    · exact List.mem_filter.mpr ⟨hn1, by simp [hid1, hne.1]⟩
    · exact List.mem_filter.mpr ⟨hn2, by simp [hid2, hne.2]⟩
  | selectNode n => exact ⟨hG, hH⟩
  | moveNode nodeId x y =>
    refine ⟨?_, hH⟩
    intro e he
    obtain ⟨⟨n1, hn1, hid1⟩, ⟨n2, hn2, hid2⟩⟩ := hG e he
    have hid : ∀ n : NodeData,
        ((if n.id = nodeId then { n with x := x, y := y } else n) : NodeData).id
          = n.id := by
      intro n
      split <;> rfl
    exact ⟨⟨_, List.mem_map_of_mem _ hn1, by rw [hid, hid1]⟩,
           ⟨_, List.mem_map_of_mem _ hn2, by rw [hid, hid2]⟩⟩
  | addEdge id fromN toN w =>
    simp only [graphReducer]
    cases hdup : s.graph.edges.find? (fun e =>
        (e.fromId = fromN && e.toId = toN) ||
        (e.fromId = toN && e.toId = fromN)) with
    | some e0 => exact ⟨hG, hH⟩
    | none =>
      refine addToHistory_wf _ ?_ hH
      intro e he
      rcases List.mem_append.mp he with he | he
      · exact hG e he
      · rw [List.mem_singleton] at he
        subst he
        exact hg
  | deleteEdge edgeId =>
    refine addToHistory_wf _ ?_ hH
    intro e he
    exact hG e (List.mem_filter.mp he).1
  | selectEdge e => exact ⟨hG, hH⟩
  | updateEdgeWeight edgeId w =>
    refine addToHistory_wf _ ?_ hH
    intro e he
    rw [List.mem_map] at he
    obtain ⟨e0, he0, rfl⟩ := he
    obtain ⟨⟨n1, hn1, hid1⟩, ⟨n2, hn2, hid2⟩⟩ := hG e0 he0
    have hfe : ∀ e1 : EdgeData,
        ((if e1.id = edgeId then { e1 with weight := w } else e1) : EdgeData).fromId
          = e1.fromId ∧
        ((if e1.id = edgeId then { e1 with weight := w } else e1) : EdgeData).toId
          = e1.toId := by
      intro e1
      split <;> exact ⟨rfl, rfl⟩
    exact ⟨⟨n1, hn1, by rw [(hfe e0).1, hid1]⟩,
           ⟨n2, hn2, by rw [(hfe e0).2, hid2]⟩⟩
  | setAlgorithm alg => exact ⟨hG, hH⟩
  | setRunning b => exact ⟨hG, hH⟩
  | setSpeed sp => exact ⟨hG, hH⟩
  | setCurrentStep st =>
    cases st with
    | none => exact ⟨wfGraph_map s.graph _ _ (fun n => rfl) (fun e => ⟨rfl, rfl⟩) hG, hH⟩
    | some step =>
      refine ⟨?_, hH⟩
      cases hE : step.edgeId with
      | none =>
        have : (graphReducer s (.setCurrentStep (some step))).graph =
            { nodes := s.graph.nodes.map (recolorNode s.startNodeId
                (graphReducer s (.setCurrentStep (some step))).visitedNodes
                (graphReducer s (.setCurrentStep (some step))).completedNodes
                step),
              edges := s.graph.edges } := by
          simp only [graphReducer, hE]
        rw [this]
        intro e he
        obtain ⟨⟨n1, hn1, hid1⟩, ⟨n2, hn2, hid2⟩⟩ := hG e he
        exact ⟨⟨_, List.mem_map_of_mem _ hn1, by rw [recolorNode_id, hid1]⟩,
               ⟨_, List.mem_map_of_mem _ hn2, by rw [recolorNode_id, hid2]⟩⟩
      | some eid =>
        have : (graphReducer s (.setCurrentStep (some step))).graph =
            { nodes := s.graph.nodes.map (recolorNode s.startNodeId
                (graphReducer s (.setCurrentStep (some step))).visitedNodes
                (graphReducer s (.setCurrentStep (some step))).completedNodes
                step),
              edges := s.graph.edges.map (recolorEdge step) } := by
          simp only [graphReducer, hE]
        rw [this]
        exact wfGraph_map s.graph _ _ (fun n => recolorNode_id _ _ _ _ n)
          (fun e => recolorEdge_endpoints step e) hG
  | resetGraphStatus =>
    exact ⟨wfGraph_map s.graph _ _ (fun n => rfl) (fun e => ⟨rfl, rfl⟩) hG, hH⟩
  | clearGraph =>
    constructor
    · exact wfGraph_empty
    · intro x hx
      have : (graphReducer s .clearGraph).history = [emptyGraph, emptyGraph] := rfl
      rw [this] at hx
      rcases List.mem_cons.mp hx with rfl | hx
      · exact wfGraph_empty
      · rcases List.mem_cons.mp hx with rfl | hx
        · exact wfGraph_empty
        · cases hx
  | setStartNode n =>
    refine ⟨?_, hH⟩
    intro e he
    rw [show (graphReducer s (.setStartNode n)).graph.edges =
      s.graph.edges.map (fun edge => { edge with status := .default }) from rfl] at he
    rw [List.mem_map] at he
    obtain ⟨e0, he0, rfl⟩ := he
    obtain ⟨⟨n1, hn1, hid1⟩, ⟨n2, hn2, hid2⟩⟩ := hG e0 he0
    exact ⟨⟨_, List.mem_map_of_mem _ hn1, hid1⟩,
           ⟨_, List.mem_map_of_mem _ hn2, hid2⟩⟩
  | setTotalMSTCost c => exact ⟨hG, hH⟩
  | addPathStep p => exact ⟨hG, hH⟩
  | clearPath => exact ⟨hG, hH⟩
  | undo =>
    by_cases h0 : 0 < s.historyIndex
    · have hu := undo_fields s h0
      refine ⟨?_, ?_⟩
      · rw [hu.1]
        exact wf_getD _ _ hH
      · rw [hu.2.1]
        exact hH
    · have : graphReducer s .undo = s := by
        simp only [graphReducer, if_neg h0]
      rw [this]
      exact ⟨hG, hH⟩
  | redo =>
    by_cases h0 : s.historyIndex + 1 < s.history.length
    · have hr := redo_fields s h0
      refine ⟨?_, ?_⟩
      · rw [hr.1]
        exact wf_getD _ _ hH
      · rw [hr.2.1]
        exact hH
    · have : graphReducer s .redo = s := by
        simp only [graphReducer, if_neg h0]
      rw [this]
      exact ⟨hG, hH⟩
  | loadSavedGraph g =>
    exact addToHistory_wf _ hg hH

/-- The invariant holds along any good chain. -/
theorem wf_chain (acts : List GraphAction) :
    ∀ s : GraphState,
    (wfGraph s.graph ∧ ∀ x ∈ s.history, wfGraph x) →
    goodChain s acts →
    wfGraph (runActions s acts).graph ∧
      ∀ x ∈ (runActions s acts).history, wfGraph x := by
  induction acts with
  | nil => intro s hwf _; exact hwf
  | cons a rest ih =>
    intro s hwf hchain
    exact ih (graphReducer s a) (wf_preserved s a hwf hchain.1) hchain.2

/-- C8 counterexample: `ADD_EDGE` does not check that its endpoints exist,
so one reducer action from the initial state creates a dangling edge. -/
theorem C8_counterexample :
    ¬ (∀ e ∈ (graphReducer initialState (.addEdge "e1" "a" "b" none)).graph.edges,
        (∃ n ∈ (graphReducer initialState (.addEdge "e1" "a" "b" none)).graph.nodes,
          n.id = e.fromId) ∧
        (∃ n ∈ (graphReducer initialState (.addEdge "e1" "a" "b" none)).graph.nodes,
          n.id = e.toId)) := by
  decide

/-- C8 amended: in every state reachable from the initial state by reducer
actions whose `ADD_EDGE`s join existing vertices and whose loaded graphs
are dangling-free, every edge's endpoints reference vertices present in
the graph; and deleting a vertex removes exactly the edges whose `from` or
`to` equals that vertex's id. -/
theorem C8_amended_no_dangling (acts : List GraphAction)
    (hchain : goodChain initialState acts) :
    (∀ e ∈ (runActions initialState acts).graph.edges,
      (∃ n ∈ (runActions initialState acts).graph.nodes, n.id = e.fromId) ∧
      (∃ n ∈ (runActions initialState acts).graph.nodes, n.id = e.toId)) ∧
    (∀ s : GraphState, ∀ id,
      (graphReducer s (.deleteNode id)).graph.edges =
        s.graph.edges.filter (fun e => e.fromId ≠ id ∧ e.toId ≠ id)) := by
  constructor
  · have hinit : wfGraph initialState.graph ∧
        ∀ x ∈ initialState.history, wfGraph x := by
      constructor
      · intro e he
        simp [initialState] at he
      · intro x hx
        simp only [initialState, List.mem_singleton] at hx
        subst hx
        exact wfGraph_empty
    exact (wf_chain acts initialState hinit hchain).1
  · intro s id
    rfl

/-- C8 witness: build two vertices, join them, delete one — the surviving
state has no dangling edge, and the delete removed the incident edge. -/
theorem C8_amended_no_dangling_witness :
    (∀ e ∈ (runActions initialState
        [.addNode "n1" 0 0 none, .addNode "n2" 0 0 none,
         .addEdge "e1" "n1" "n2" none, .deleteNode "n1"]).graph.edges,
      (∃ n ∈ (runActions initialState
        [.addNode "n1" 0 0 none, .addNode "n2" 0 0 none,
         .addEdge "e1" "n1" "n2" none, .deleteNode "n1"]).graph.nodes,
        n.id = e.fromId) ∧
      (∃ n ∈ (runActions initialState
        [.addNode "n1" 0 0 none, .addNode "n2" 0 0 none,
         .addEdge "e1" "n1" "n2" none, .deleteNode "n1"]).graph.nodes,
        n.id = e.toId)) ∧
    (∀ s : GraphState, ∀ id,
      (graphReducer s (.deleteNode id)).graph.edges =
        s.graph.edges.filter (fun e => e.fromId ≠ id ∧ e.toId ≠ id)) :=
  C8_amended_no_dangling
    [.addNode "n1" 0 0 none, .addNode "n2" 0 0 none,
     .addEdge "e1" "n1" "n2" none, .deleteNode "n1"]
    (by simp only [goodChain, goodAction]
        refine ⟨trivial, trivial, ?_, trivial, trivial⟩
        decide)

/-! ## C6 — Prim's candidate scan -/

/-- Modelled from the spec: the ordered candidate list of one Prim scan —
visited vertices in visited-set iteration order, within a vertex the
adjacency list in order, keeping the pairs whose neighbor is unvisited and
whose connecting edge exists. -/
def primCandidates (g : GraphData) (visited : List String) :
    List (Int × EdgeData × String) :=
  visited.flatMap (fun v =>
    (createAdjacencyList g v).filterMap (fun p =>
      if p.1 ∈ visited then none
      else (findEdge g v p.1).map (fun e => (p.2, e, p.1))))

/-- Modelled from the spec: fold over the candidate list tracking the
running minimum under strict less-than (so ties keep the first-seen
minimum); each candidate yields `visitEdge` followed by `processNode` when
it strictly improves the minimum and by `skipEdge` otherwise. -/
def primScanSpec (cands : List (Int × EdgeData × String))
    (best : Option PrimCandidate) : List Step × Option PrimCandidate :=
  match cands with
  | [] => ([], best)
  | (w, e, nb) :: rest =>
    let isNewMin : Bool :=
      match best with
      | none => true
      | some b => w < b.weight
    if isNewMin then
      let (steps, best') :=
        primScanSpec rest (some { weight := w, edge := e, next := nb })
      ({ type := .visitEdge, edgeId := some e.id } ::
        { type := .processNode, nodeId := some nb } :: steps, best')
    else
      let (steps, best') := primScanSpec rest best
      ({ type := .visitEdge, edgeId := some e.id } ::
        { type := .skipEdge, edgeId := some e.id } :: steps, best')

/-- The per-vertex half of the scan refinement. -/
theorem primScanNeighbors_eq_spec (g : GraphData) (visited : List String)
    (v : String) (neighbors : List (String × Int)) :
    ∀ best, primScanNeighbors g visited v neighbors best =
      primScanSpec (neighbors.filterMap (fun p =>
        if p.1 ∈ visited then none
        else (findEdge g v p.1).map (fun e => (p.2, e, p.1)))) best := by
  induction neighbors with
  | nil => intro best; rfl
  | cons p rest ih =>
    intro best
    obtain ⟨neighborId, w⟩ := p
    by_cases hv : neighborId ∈ visited
    · simp only [primScanNeighbors, List.filterMap_cons, if_pos hv, hv,
        ite_true]
      exact ih best
    · cases hfe : findEdge g v neighborId with
      | none =>
        simp only [primScanNeighbors, List.filterMap_cons, if_neg hv, hfe,
          hv, ite_false, Option.map_none']
        exact ih best
      | some e =>
        simp only [primScanNeighbors, List.filterMap_cons, if_neg hv, hfe,
          hv, ite_false, Option.map_some', primScanSpec, primBetter]
        cases best with
        | none => simp only [ih]
        | some b => by_cases hw : w < b.weight <;> simp [hw, ih]

/-- `primScanSpec` distributes over appended candidate lists. -/
theorem primScanSpec_append (l1 l2 : List (Int × EdgeData × String)) :
    ∀ best, primScanSpec (l1 ++ l2) best =
      ((primScanSpec l1 best).1 ++
        (primScanSpec l2 (primScanSpec l1 best).2).1,
       (primScanSpec l2 (primScanSpec l1 best).2).2) := by
  induction l1 with
  | nil => intro best; simp [primScanSpec]
  | cons c rest ih =>
    intro best
    obtain ⟨w, e, nb⟩ := c
    simp only [List.cons_append, primScanSpec]
    cases hb : (match best with
      | none => true
      | some b => decide (w < b.weight)) with
    | true => simp [hb, ih]
    | false => simp [hb, ih]

/-- The full scan over the visited set refines the spec fold over the
ordered candidate list. -/
theorem primScanVisited_eq_spec (g : GraphData) (visited : List String) :
    ∀ (pending : List String) best,
      primScanVisited g visited pending best =
        primScanSpec (pending.flatMap (fun v =>
          (createAdjacencyList g v).filterMap (fun p =>
            if p.1 ∈ visited then none
            else (findEdge g v p.1).map (fun e => (p.2, e, p.1))))) best := by
  intro pending
  induction pending with
  | nil => intro best; rfl
  | cons v rest ih =>
    intro best
    simp only [primScanVisited, List.flatMap_cons, primScanSpec_append,
      primScanNeighbors_eq_spec, ih]

/-- Once the spec fold holds a candidate it never drops it. -/
theorem primScanSpec_some (cands : List (Int × EdgeData × String)) :
    ∀ c, (primScanSpec cands (some c)).2 ≠ none := by
  induction cands with
  | nil => intro c h; exact Option.noConfusion h
  | cons p rest ih =>
    intro c
    obtain ⟨w, e, nb⟩ := p
    simp only [primScanSpec]
    by_cases hw : w < c.weight
    · rw [decide_eq_true hw]
      simpa using ih { weight := w, edge := e, next := nb }
    · rw [decide_eq_false hw]
      simpa using ih c

/-- Starting from no minimum, the spec fold ends with no candidate exactly
when the candidate list is empty. -/
theorem primScanSpec_none_iff (cands : List (Int × EdgeData × String)) :
    (primScanSpec cands none).2 = none ↔ cands = [] := by
  cases cands with
  | nil => simp [primScanSpec]
  | cons p rest =>
    obtain ⟨w, e, nb⟩ := p
    simp only [primScanSpec, ite_true]
    constructor
    · intro h
      exact absurd h (primScanSpec_some rest _)
    · intro h
      exact List.noConfusion h

/-- With no candidate found, Prim's loop yields the scan steps followed by
a terminal `done` carrying the partial cost, and stops. -/
theorem primLoop_done_of_no_candidate (g : GraphData) (visited : List String)
    (totalCost : Int) (hlt : visited.length < g.nodes.length)
    (h2 : (primScanVisited g visited visited none).2 = none) :
    primLoop g visited totalCost =
      (primScanVisited g visited visited none).1 ++
        [{ type := .done, totalCost := some totalCost }] := by
  rw [primLoop, if_pos hlt]
  have hs : primScanVisited g visited visited none =
      ((primScanVisited g visited visited none).1,
        (none : Option PrimCandidate)) :=
    Prod.ext rfl h2
  rw [hs]

/-- C6: the candidate scan of Prim's loop visits candidates in visited-set
iteration order and adjacency order, updates the running minimum only on
strict less-than (first-seen minimum kept on ties) yielding `processNode`
exactly then and `skipEdge` otherwise; the minimum is `none` exactly when
there is no candidate, in which case the loop emits a final `done` with the
partial cost and stops. -/
theorem C6_prim_scan (g : GraphData) (visited : List String) (totalCost : Int) :
    primScanVisited g visited visited none =
      primScanSpec (primCandidates g visited) none ∧
    ((primScanVisited g visited visited none).2 = none ↔
      primCandidates g visited = []) ∧
    (visited.length < g.nodes.length →
      (primScanVisited g visited visited none).2 = none →
      primLoop g visited totalCost =
        (primScanVisited g visited visited none).1 ++
          [{ type := .done, totalCost := some totalCost }]) := by
  refine ⟨primScanVisited_eq_spec g visited visited none, ?_, ?_⟩
  · rw [primScanVisited_eq_spec g visited visited none]
    exact primScanSpec_none_iff _
  · intro hlt h2
    exact primLoop_done_of_no_candidate g visited totalCost hlt h2

/-- C6 witness: on two isolated vertices with `a1` visited, the scan finds
nothing and the loop terminates with a `done` carrying cost 0. -/
theorem C6_prim_scan_witness :
    primScanVisited { nodes := [nodeA, nodeB], edges := [] } ["a1"] ["a1"] none =
      primScanSpec (primCandidates { nodes := [nodeA, nodeB], edges := [] } ["a1"]) none ∧
    primCandidates { nodes := [nodeA, nodeB], edges := [] } ["a1"] = [] ∧
    primLoop { nodes := [nodeA, nodeB], edges := [] } ["a1"] 0 =
      (primScanVisited { nodes := [nodeA, nodeB], edges := [] } ["a1"] ["a1"] none).1 ++
        [{ type := .done, totalCost := some 0 }] :=
  ⟨(C6_prim_scan { nodes := [nodeA, nodeB], edges := [] } ["a1"] 0).1,
   ((C6_prim_scan { nodes := [nodeA, nodeB], edges := [] } ["a1"] 0).2.1).mp
     (by decide),
   (C6_prim_scan { nodes := [nodeA, nodeB], edges := [] } ["a1"] 0).2.2
     (by decide) (by decide)⟩

/-! ## C5 — BFS/DFS visit each reachable vertex once -/

/-- How many steps of the list have the given kind and name the given
vertex. -/
def countNode (steps : List Step) (t : StepType) (v : String) : Nat :=
  steps.countP (fun st => st.type = t ∧ st.nodeId = some v)

/-- One adjacency hop. -/
def adjacent (g : GraphData) (a b : String) : Prop :=
  ∃ w, (b, w) ∈ createAdjacencyList g a

/-- Reachability along adjacency hops. -/
def reachable (g : GraphData) (a b : String) : Prop :=
  Relation.ReflTransGen (adjacent g) a b

theorem countNode_nil (t : StepType) (v : String) : countNode [] t v = 0 := rfl

theorem countNode_append (l1 l2 : List Step) (t : StepType) (v : String) :
    countNode (l1 ++ l2) t v = countNode l1 t v + countNode l2 t v :=
  List.countP_append _ l1 l2

theorem countNode_cons (st : Step) (l : List Step) (t : StepType) (v : String) :
    countNode (st :: l) t v =
      countNode l t v + (if st.type = t ∧ st.nodeId = some v then 1 else 0) := by
  rw [countNode, List.countP_cons, countNode]
  congr 1
  by_cases h : st.type = t ∧ st.nodeId = some v <;> simp [h]

/-- A list none of whose steps has the kind counts zero. -/
theorem countNode_eq_zero_of_types {steps : List Step} {t : StepType}
    (h : ∀ st ∈ steps, st.type ≠ t) (v : String) : countNode steps t v = 0 := by
  rw [countNode, List.countP_eq_zero]
  intro st hst
  simp only [decide_eq_true_eq, not_and]
  intro hty
  exact absurd hty (h st hst)

/-- A set closed under adjacency swallows everything reachable from one of
its members. -/
theorem reachable_closed {g : GraphData} {F : List String}
    (hclosed : ∀ x ∈ F, ∀ p ∈ createAdjacencyList g x, p.1 ∈ F)
    {a b : String} (ha : a ∈ F) (hr : reachable g a b) : b ∈ F := by
  induction hr with
  | refl => exact ha
  | tail _ hstep ih =>
    obtain ⟨w, hw⟩ := hstep
    exact hclosed _ ih _ hw

/-- BFS neighbor steps are edge steps only. -/
theorem bfsNeighbors_types (g : GraphData) (current : String)
    (neighbors : List (String × Int)) (visited : List String) :
    ∀ st ∈ (bfsNeighbors g current neighbors visited).1,
      st.type = .visitEdge ∨ st.type = .skipEdge ∨ st.type = .traverseEdge := by
  induction neighbors generalizing visited with
  | nil => simp [bfsNeighbors]
  | cons nb rest ih =>
    obtain ⟨neighborId, w⟩ := nb
    intro st hst
    by_cases hv : neighborId ∈ visited <;>
      cases hfe : findEdge g current neighborId <;>
      · simp only [bfsNeighbors, hv, hfe, if_pos, if_neg, ite_true, ite_false,
          List.nil_append, List.cons_append, List.append_assoc] at hst
        first
        | exact ih visited st hst
        | exact ih (visited ++ [neighborId]) st hst
        | (rcases List.mem_cons.mp hst with rfl | hst'
           · simp
           · first
             | exact ih visited st hst'
             | exact ih (visited ++ [neighborId]) st hst'
             | (rcases List.mem_cons.mp hst' with rfl | hst''
                · simp
                · first
                  | exact ih visited st hst''
                  | exact ih (visited ++ [neighborId]) st hst''))

/-- After the neighbor loop, every scanned neighbor is visited. -/
theorem bfsNeighbors_covers (g : GraphData) (current : String)
    (neighbors : List (String × Int)) (visited : List String) :
    ∀ p ∈ neighbors,
      p.1 ∈ visited ++ (bfsNeighbors g current neighbors visited).2.1 := by
  induction neighbors generalizing visited with
  | nil => simp
  | cons nb rest ih =>
    obtain ⟨neighborId, w⟩ := nb
    intro p hp
    by_cases hv : neighborId ∈ visited
    · rcases List.mem_cons.mp hp with rfl | hp'
      · simp only [bfsNeighbors, hv, ite_true]
        exact List.mem_append_left _ hv
      · simp only [bfsNeighbors, hv, ite_true]
        exact ih visited p hp'
    · rcases List.mem_cons.mp hp with rfl | hp'
      · simp only [bfsNeighbors, hv, ite_false, List.mem_append]
        right
        exact List.mem_cons_self _ _
      · have := ih (visited ++ [neighborId]) p hp'
        simp only [bfsNeighbors, hv, ite_false]
        simpa [List.append_assoc] using this

/-- The loop invariant of `bfsLoop`: the visited set is duplicate-free
inside the universe, and the queue is a duplicate-free subset of the
visited set. -/
def bfsInv (g : GraphData) (queue visited : List String) : Prop :=
  (visited.Nodup ∧ ∀ x ∈ visited, x ∈ idUniverse g) ∧
    queue.Nodup ∧ ∀ x ∈ queue, x ∈ visited

theorem bfsLoop_nil (g : GraphData) (visited : List String) :
    bfsLoop g [] visited = ([], visited) := by
  rw [bfsLoop]

theorem bfsLoop_cons (g : GraphData) (v : String) (rest visited : List String)
    (hguard : visited.Nodup ∧ ∀ x ∈ visited, x ∈ idUniverse g) :
    bfsLoop g (v :: rest) visited =
      (({ type := .processNode, nodeId := some v } : Step) ::
        (bfsNeighbors g v (createAdjacencyList g v) visited).1 ++
        (if (bfsNeighbors g v (createAdjacencyList g v) visited).2.2 then
          [{ type := .completeNode, nodeId := some v }] else []) ++
        (bfsLoop g (rest ++ (bfsNeighbors g v (createAdjacencyList g v) visited).2.1)
          (visited ++ (bfsNeighbors g v (createAdjacencyList g v) visited).2.1)).1,
       (bfsLoop g (rest ++ (bfsNeighbors g v (createAdjacencyList g v) visited).2.1)
          (visited ++ (bfsNeighbors g v (createAdjacencyList g v) visited).2.1)).2) := by
  rw [bfsLoop, dif_pos hguard]

theorem bfsLoop_cons_stuck (g : GraphData) (v : String)
    (rest visited : List String)
    (hguard : ¬(visited.Nodup ∧ ∀ x ∈ visited, x ∈ idUniverse g)) :
    bfsLoop g (v :: rest) visited = ([], visited) := by
  rw [bfsLoop, dif_neg hguard]

/-- The newly visited ids of a BFS neighbor scan are disjoint from the
prior visited set and in the universe; the invariant carries over to the
recursive call. -/
theorem bfsInv_step (g : GraphData) (v : String) (rest visited : List String)
    (h : bfsInv g (v :: rest) visited) :
    bfsInv g (rest ++ (bfsNeighbors g v (createAdjacencyList g v) visited).2.1)
      (visited ++ (bfsNeighbors g v (createAdjacencyList g v) visited).2.1) := by
  obtain ⟨⟨hnd, hU⟩, hqnd, hqsub⟩ := h
  have hnd' := bfsNeighbors_nodup_append g v (createAdjacencyList g v) visited hnd
  obtain ⟨-, hand, hdisj⟩ := List.nodup_append.mp hnd'
  have haddU : ∀ x ∈ (bfsNeighbors g v (createAdjacencyList g v) visited).2.1,
      x ∈ idUniverse g := by
    intro x hx
    rcases bfsNeighbors_added_subset g v (createAdjacencyList g v) visited x hx with
      ⟨w, hw⟩
    exact adjacency_mem_universe g v x w hw
  refine ⟨⟨hnd', ?_⟩, ?_, ?_⟩
  · intro x hx
    rcases List.mem_append.mp hx with hx | hx
    · exact hU x hx
    · exact haddU x hx
  · rw [List.nodup_append]
    refine ⟨(List.nodup_cons.mp hqnd).2, hand, ?_⟩
    intro x hx hx'
    exact hdisj (hqsub x (List.mem_cons_of_mem _ hx)) hx'
  · intro x hx
    rcases List.mem_append.mp hx with hx | hx
    · exact List.mem_append_left _ (hqsub x (List.mem_cons_of_mem _ hx))
    · exact List.mem_append_right _ hx

/-- The final visited set of `bfsLoop` extends its input visited set. -/
theorem bfsLoop_visited_prefix (g : GraphData) :
    ∀ queue visited : List String,
      ∃ ext, (bfsLoop g queue visited).2 = visited ++ ext := by
  refine bfsLoop.induct g
    (fun queue visited => ∃ ext, (bfsLoop g queue visited).2 = visited ++ ext)
    ?_ ?_ ?_
  · intro visited
    exact ⟨[], by rw [bfsLoop_nil]; simp⟩
  · intro visited v rest hguard scanned ih
    have hs : scanned = bfsNeighbors g v (createAdjacencyList g v) visited := rfl
    rw [hs] at ih
    obtain ⟨ext, hext⟩ := ih
    refine ⟨(bfsNeighbors g v (createAdjacencyList g v) visited).2.1 ++ ext, ?_⟩
    rw [bfsLoop_cons g v rest visited hguard]
    dsimp only
    rw [hext, List.append_assoc]
  · intro visited v rest hguard
    exact ⟨[], by rw [bfsLoop_cons_stuck g v rest visited hguard]; simp⟩

/-- No step of the BFS dequeuing loop is a `visitNode`. -/
theorem bfsLoop_no_visit (g : GraphData) :
    ∀ queue visited : List String,
      ∀ st ∈ (bfsLoop g queue visited).1, st.type ≠ .visitNode := by
  refine bfsLoop.induct g
    (fun queue visited =>
      ∀ st ∈ (bfsLoop g queue visited).1, st.type ≠ .visitNode)
    ?_ ?_ ?_
  · intro visited st hst
    rw [bfsLoop_nil] at hst
    cases hst
  · intro visited v rest hguard scanned ih st hst
    have hs : scanned = bfsNeighbors g v (createAdjacencyList g v) visited := rfl
    rw [hs] at ih
    rw [bfsLoop_cons g v rest visited hguard] at hst
    dsimp only at hst
    rcases List.mem_cons.mp hst with rfl | hst'
    · simp
    · rcases List.mem_append.mp hst' with hst'' | hst''
      · rcases List.mem_append.mp hst'' with h3 | h3
        · rcases bfsNeighbors_types g v (createAdjacencyList g v) visited st h3
            with h | h | h <;> simp [h]
        · rcases Bool.eq_false_or_eq_true
            (bfsNeighbors g v (createAdjacencyList g v) visited).2.2 with hb | hb <;>
            rw [hb] at h3 <;> simp at h3
          subst h3
          exact fun hc => StepType.noConfusion hc
      · exact ih st hst''
  · intro visited v rest hguard st hst
    rw [bfsLoop_cons_stuck g v rest visited hguard] at hst
    cases hst

/-- Neighbor-scan steps never contribute to node-step counts. -/
theorem bfsNeighbors_count_zero (g : GraphData) (current : String)
    (neighbors : List (String × Int)) (visited : List String) (t : StepType)
    (ht : t = .processNode ∨ t = .completeNode ∨ t = .visitNode) (v : String) :
    countNode (bfsNeighbors g current neighbors visited).1 t v = 0 :=
  countNode_eq_zero_of_types (fun st hst => by
    rcases bfsNeighbors_types g current neighbors visited st hst with h | h | h <;>
      rcases ht with rfl | rfl | rfl <;> simp [h]) v

/-- Each vertex is dequeued (and so named by `processNode`) exactly once:
once if it is pending in the queue or becomes visited during the loop,
never otherwise. -/
theorem bfsLoop_count_process (g : GraphData) :
    ∀ queue visited : List String, bfsInv g queue visited →
      ∀ v, countNode (bfsLoop g queue visited).1 .processNode v =
        if v ∈ queue ∨ (v ∈ (bfsLoop g queue visited).2 ∧ v ∉ visited) then 1
        else 0 := by
  refine bfsLoop.induct g
    (fun queue visited => bfsInv g queue visited →
      ∀ v, countNode (bfsLoop g queue visited).1 .processNode v =
        if v ∈ queue ∨ (v ∈ (bfsLoop g queue visited).2 ∧ v ∉ visited) then 1
        else 0) ?_ ?_ ?_
  · intro visited _ v
    rw [bfsLoop_nil]
    dsimp only
    rw [countNode_nil, if_neg]
    rintro (h | ⟨h1, h2⟩)
    · cases h
    · exact h2 h1
  · intro visited v rest hguard scanned ih hinv v'
    have hs : scanned = bfsNeighbors g v (createAdjacencyList g v) visited := rfl
    rw [hs] at ih
    have hinv' := bfsInv_step g v rest visited hinv
    have hvmem : v ∈ visited := hinv.2.2 v (List.mem_cons_self _ _)
    have hnd' := bfsNeighbors_nodup_append g v (createAdjacencyList g v)
      visited hinv.1.1
    have hdisj := (List.nodup_append.mp hnd').2.2
    obtain ⟨ext, hext⟩ := bfsLoop_visited_prefix g
      (rest ++ (bfsNeighbors g v (createAdjacencyList g v) visited).2.1)
      (visited ++ (bfsNeighbors g v (createAdjacencyList g v) visited).2.1)
    rw [bfsLoop_cons g v rest visited hguard]
    dsimp only
    have hC : countNode
        (if (bfsNeighbors g v (createAdjacencyList g v) visited).2.2 then
          [({ type := .completeNode, nodeId := some v } : Step)] else [])
        .processNode v' = 0 := by
      refine countNode_eq_zero_of_types ?_ v'
      intro st hst
      split at hst
      · rcases List.mem_singleton.mp hst with rfl
        exact fun hc => StepType.noConfusion hc
      · cases hst
    rw [countNode_append, countNode_append, countNode_cons,
      bfsNeighbors_count_zero g v _ visited .processNode (Or.inl rfl) v',
      hC, ih hinv' v']
    by_cases hv : v' = v
    · subst hv
      have hnotrec : ¬ (v' ∈ rest ++
          (bfsNeighbors g v' (createAdjacencyList g v') visited).2.1 ∨
          (v' ∈ (bfsLoop g (rest ++
            (bfsNeighbors g v' (createAdjacencyList g v') visited).2.1)
            (visited ++
              (bfsNeighbors g v' (createAdjacencyList g v') visited).2.1)).2 ∧
            v' ∉ visited ++
              (bfsNeighbors g v' (createAdjacencyList g v') visited).2.1)) := by
        rintro (h | ⟨h1, h2⟩)
        · rcases List.mem_append.mp h with h | h
          · exact (List.nodup_cons.mp hinv.2.1).1 h
          · exact hdisj hvmem h
        · exact h2 (List.mem_append_left _ hvmem)
      rw [if_neg hnotrec, if_pos (Or.inl (List.mem_cons_self _ _))]
      simp
    · have hiff : (v' ∈ rest ++
          (bfsNeighbors g v (createAdjacencyList g v) visited).2.1 ∨
          (v' ∈ (bfsLoop g (rest ++
            (bfsNeighbors g v (createAdjacencyList g v) visited).2.1)
            (visited ++
              (bfsNeighbors g v (createAdjacencyList g v) visited).2.1)).2 ∧
            v' ∉ visited ++
              (bfsNeighbors g v (createAdjacencyList g v) visited).2.1)) ↔
          (v' ∈ v :: rest ∨
          (v' ∈ (bfsLoop g (rest ++
            (bfsNeighbors g v (createAdjacencyList g v) visited).2.1)
            (visited ++
              (bfsNeighbors g v (createAdjacencyList g v) visited).2.1)).2 ∧
            v' ∉ visited)) := by
        constructor
        · rintro (h | ⟨h1, h2⟩)
          · rcases List.mem_append.mp h with h | h
            · exact Or.inl (List.mem_cons_of_mem _ h)
            · refine Or.inr ⟨?_, ?_⟩
              · rw [hext]
                exact List.mem_append_left _ (List.mem_append_right _ h)
              · intro hc
                exact hdisj hc h
          · exact Or.inr ⟨h1, fun hc => h2 (List.mem_append_left _ hc)⟩
        · rintro (h | ⟨h1, h2⟩)
          · rcases List.mem_cons.mp h with rfl | h
            · exact absurd rfl hv
            · exact Or.inl (List.mem_append_left _ h)
          · by_cases ha : v' ∈
                (bfsNeighbors g v (createAdjacencyList g v) visited).2.1
            · exact Or.inl (List.mem_append_right _ ha)
            · refine Or.inr ⟨h1, ?_⟩
              intro hc
              rcases List.mem_append.mp hc with hc | hc
              · exact h2 hc
              · exact ha hc
      rw [if_congr hiff rfl rfl]
      have hne : v ≠ v' := fun hc => hv hc.symm
      simp [hne]
  · intro visited v rest hguard hinv
    exact absurd hinv.1 hguard

theorem countNode_singleton (st : Step) (t : StepType) (w : String) :
    countNode [st] t w =
      if st.type = t ∧ st.nodeId = some w then 1 else 0 := by
  rw [countNode_cons, countNode_nil]
  simp

/-- One dequeue yields counts: the neighbor steps, the optional
`completeNode`, the recursive steps and the leading `processNode`. -/
theorem bfsLoop_count_decomp (g : GraphData) (v : String)
    (rest visited : List String)
    (hguard : visited.Nodup ∧ ∀ x ∈ visited, x ∈ idUniverse g)
    (t : StepType) (w : String) :
    countNode (bfsLoop g (v :: rest) visited).1 t w =
      ((countNode (bfsNeighbors g v (createAdjacencyList g v) visited).1 t w +
        (if StepType.processNode = t ∧ (some v : Option String) = some w then 1
         else 0)) +
       countNode
         (if (bfsNeighbors g v (createAdjacencyList g v) visited).2.2 then
           [({ type := .completeNode, nodeId := some v } : Step)] else []) t w) +
      countNode
        (bfsLoop g
          (rest ++ (bfsNeighbors g v (createAdjacencyList g v) visited).2.1)
          (visited ++
            (bfsNeighbors g v (createAdjacencyList g v) visited).2.1)).1 t w := by
  rw [bfsLoop_cons g v rest visited hguard]
  dsimp only
  rw [countNode_append, countNode_append, countNode_cons]

/-- Each vertex is completed at most as often as it is processed. -/
theorem bfsLoop_complete_le_process (g : GraphData) :
    ∀ queue visited : List String, ∀ w,
      countNode (bfsLoop g queue visited).1 .completeNode w ≤
        countNode (bfsLoop g queue visited).1 .processNode w := by
  refine bfsLoop.induct g
    (fun queue visited => ∀ w,
      countNode (bfsLoop g queue visited).1 .completeNode w ≤
        countNode (bfsLoop g queue visited).1 .processNode w) ?_ ?_ ?_
  · intro visited w
    rw [bfsLoop_nil]
    exact le_rfl
  · intro visited v rest hguard scanned ih w
    have hs : scanned = bfsNeighbors g v (createAdjacencyList g v) visited := rfl
    rw [hs] at ih
    rw [bfsLoop_count_decomp g v rest visited hguard .completeNode w,
      bfsLoop_count_decomp g v rest visited hguard .processNode w,
      bfsNeighbors_count_zero g v _ visited .completeNode (Or.inr (Or.inl rfl)) w,
      bfsNeighbors_count_zero g v _ visited .processNode (Or.inl rfl) w]
    have h3 : countNode
        (if (bfsNeighbors g v (createAdjacencyList g v) visited).2.2 then
          [({ type := .completeNode, nodeId := some v } : Step)] else [])
        .completeNode w ≤
        (if StepType.processNode = StepType.processNode ∧
          (some v : Option String) = some w then 1 else 0) := by
      split
      · rw [countNode_singleton]
        by_cases hw : (some v : Option String) = some w <;> simp [hw]
      · rw [countNode_nil]
        exact Nat.zero_le _
    have h4 : (if StepType.processNode = StepType.completeNode ∧
        (some v : Option String) = some w then 1 else 0) = 0 := by
      rw [if_neg]
      rintro ⟨hc, -⟩
      exact StepType.noConfusion hc
    have h5 : countNode
        (if (bfsNeighbors g v (createAdjacencyList g v) visited).2.2 then
          [({ type := .completeNode, nodeId := some v } : Step)] else [])
        .processNode w = 0 := by
      split
      · rw [countNode_singleton, if_neg]
        rintro ⟨hc, -⟩
        exact StepType.noConfusion hc
      · rw [countNode_nil]
    rw [h4, h5]
    have hrec := ih w
    omega
  · intro visited v rest hguard w
    rw [bfsLoop_cons_stuck g v rest visited hguard]
    exact le_rfl

/-- At loop exit the visited set is closed under adjacency, provided every
visited vertex is pending or already fully expanded. -/
theorem bfsLoop_closed (g : GraphData) :
    ∀ queue visited : List String, bfsInv g queue visited →
      (∀ x ∈ visited, x ∈ queue ∨
        ∀ p ∈ createAdjacencyList g x, p.1 ∈ visited) →
      ∀ x ∈ (bfsLoop g queue visited).2, ∀ p ∈ createAdjacencyList g x,
        p.1 ∈ (bfsLoop g queue visited).2 := by
  refine bfsLoop.induct g
    (fun queue visited => bfsInv g queue visited →
      (∀ x ∈ visited, x ∈ queue ∨
        ∀ p ∈ createAdjacencyList g x, p.1 ∈ visited) →
      ∀ x ∈ (bfsLoop g queue visited).2, ∀ p ∈ createAdjacencyList g x,
        p.1 ∈ (bfsLoop g queue visited).2) ?_ ?_ ?_
  · intro visited _ hexp x hx p hp
    rw [bfsLoop_nil] at hx ⊢
    rcases hexp x hx with h | h
    · cases h
    · exact h p hp
  · intro visited v rest hguard scanned ih hinv hexp x hx p hp
    have hs : scanned = bfsNeighbors g v (createAdjacencyList g v) visited := rfl
    rw [hs] at ih
    have hinv' := bfsInv_step g v rest visited hinv
    have hexp' : ∀ y ∈ visited ++
        (bfsNeighbors g v (createAdjacencyList g v) visited).2.1,
        y ∈ rest ++ (bfsNeighbors g v (createAdjacencyList g v) visited).2.1 ∨
        ∀ q ∈ createAdjacencyList g y,
          q.1 ∈ visited ++
            (bfsNeighbors g v (createAdjacencyList g v) visited).2.1 := by
      intro y hy
      rcases List.mem_append.mp hy with hy | hy
      · by_cases hyv : y = v
        · subst hyv
          right
          intro q hq
          exact bfsNeighbors_covers g y (createAdjacencyList g y) visited q hq
        · rcases hexp y hy with h | h
          · rcases List.mem_cons.mp h with rfl | h2
            · exact absurd rfl hyv
            · exact Or.inl (List.mem_append_left _ h2)
          · right
            intro q hq
            exact List.mem_append_left _ (h q hq)
      · exact Or.inl (List.mem_append_right _ hy)
    rw [bfsLoop_cons g v rest visited hguard] at hx ⊢
    dsimp only at hx ⊢
    exact ih hinv' hexp' x hx p hp
  · intro visited v rest hguard hinv
    exact absurd hinv.1 hguard

/-- The BFS step counts: per vertex at most one `visitNode`, one
`processNode`, one `completeNode`; every vertex reachable from the start is
processed. -/
theorem bfs_counts (g : GraphData) (startNodeId : String)
    (hval : ¬(startNodeId = "" ∨
      g.nodes.find? (fun n => n.id = startNodeId) = none)) :
    ∀ v, countNode (bfs g startNodeId) .visitNode v ≤ 1 ∧
      countNode (bfs g startNodeId) .processNode v ≤ 1 ∧
      countNode (bfs g startNodeId) .completeNode v ≤ 1 ∧
      (reachable g startNodeId v →
        1 ≤ countNode (bfs g startNodeId) .processNode v) := by
  have hstart : startNodeId ∈ idUniverse g := by
    rcases Option.ne_none_iff_exists'.mp (fun hc => hval (Or.inr hc)) with ⟨n, hn⟩
    have hmem := List.find?_some hn
    have hmem2 := List.mem_of_find?_eq_some hn
    simp only [decide_eq_true_eq] at hmem
    rw [idUniverse, List.mem_append]
    exact Or.inl (List.mem_map.mpr ⟨n, hmem2, hmem⟩)
  have hInv : bfsInv g [startNodeId] [startNodeId] := by
    refine ⟨⟨List.nodup_singleton _, ?_⟩, List.nodup_singleton _, ?_⟩
    · intro x hx
      rw [List.mem_singleton] at hx
      exact hx ▸ hstart
    · intro x hx
      exact hx
  have hbfs : bfs g startNodeId =
      ({ type := .visitNode, nodeId := some startNodeId } : Step) ::
        ((bfsLoop g [startNodeId] [startNodeId]).1 ++ [{ type := .done }]) := by
    rw [bfs, if_neg hval, List.cons_append]
  have hdone : ∀ t w, t ≠ .done →
      countNode [({ type := .done } : Step)] t w = 0 := by
    intro t w ht
    rw [countNode_singleton, if_neg]
    rintro ⟨hc, -⟩
    exact ht hc.symm
  intro v
  rw [hbfs, countNode_cons, countNode_cons, countNode_cons,
    countNode_append, countNode_append, countNode_append]
  have hv0 : countNode (bfsLoop g [startNodeId] [startNodeId]).1 .visitNode v = 0 := by
    refine countNode_eq_zero_of_types ?_ v
    intro st hst
    exact bfsLoop_no_visit g [startNodeId] [startNodeId] st hst
  have hp := bfsLoop_count_process g [startNodeId] [startNodeId] hInv v
  have hc := bfsLoop_complete_le_process g [startNodeId] [startNodeId] v
  have hheadp : (if (StepType.visitNode = StepType.processNode ∧
      (some startNodeId : Option String) = some v) then 1 else 0) = 0 := by
    rw [if_neg]
    rintro ⟨hcc, -⟩
    exact StepType.noConfusion hcc
  have hheadc : (if (StepType.visitNode = StepType.completeNode ∧
      (some startNodeId : Option String) = some v) then 1 else 0) = 0 := by
    rw [if_neg]
    rintro ⟨hcc, -⟩
    exact StepType.noConfusion hcc
  have hheadv : (if (StepType.visitNode = StepType.visitNode ∧
      (some startNodeId : Option String) = some v) then 1 else 0) ≤ 1 := by
    split <;> omega
  refine ⟨?_, ?_, ?_, ?_⟩
  · rw [hv0, hdone .visitNode v (by rintro hc'; cases hc')]
    simpa using hheadv
  · rw [hdone .processNode v (by rintro hc'; cases hc'), hp, hheadp]
    split <;> omega
  · rw [hdone .completeNode v (by rintro hc'; cases hc'), hheadc]
    have := hp
    split at this <;> omega
  · intro hreach
    rw [hdone .processNode v (by rintro hc'; cases hc'), hp, hheadp]
    have hclosed := bfsLoop_closed g [startNodeId] [startNodeId] hInv
      (by intro x hx; exact Or.inl hx)
    obtain ⟨ext, hext⟩ := bfsLoop_visited_prefix g [startNodeId] [startNodeId]
    have hstartF : startNodeId ∈ (bfsLoop g [startNodeId] [startNodeId]).2 := by
      rw [hext]
      exact List.mem_append_left _ (List.mem_singleton_self _)
    have hvF : v ∈ (bfsLoop g [startNodeId] [startNodeId]).2 :=
      reachable_closed hclosed hstartF hreach
    have hcond : v ∈ [startNodeId] ∨
        (v ∈ (bfsLoop g [startNodeId] [startNodeId]).2 ∧
          v ∉ [startNodeId]) := by
      by_cases hvs : v = startNodeId
      · exact Or.inl (by rw [hvs]; exact List.mem_singleton_self _)
      · exact Or.inr ⟨hvF, fun hcc => hvs (List.mem_singleton.mp hcc)⟩
    rw [if_pos hcond]

theorem dfsVisit_eq (g : GraphData) (v : String) (visited : List String)
    (hg : visited.Nodup ∧ (∀ x ∈ visited, x ∈ idUniverse g) ∧
      v ∈ idUniverse g ∧ v ∉ visited) :
    dfsVisit g v visited =
      ({ type := .visitNode, nodeId := some v } ::
        (dfsNeighbors g v (createAdjacencyList g v) (visited ++ [v])).1 ++
        [{ type := .completeNode, nodeId := some v }],
       v :: (dfsNeighbors g v (createAdjacencyList g v) (visited ++ [v])).2) := by
  rw [dfsVisit, dif_pos hg]

theorem dfsVisit_stuck (g : GraphData) (v : String) (visited : List String)
    (hg : ¬(visited.Nodup ∧ (∀ x ∈ visited, x ∈ idUniverse g) ∧
      v ∈ idUniverse g ∧ v ∉ visited)) :
    dfsVisit g v visited = ([], []) := by
  rw [dfsVisit, dif_neg hg]

theorem dfsNeighbors_nil (g : GraphData) (v : String) (visited : List String) :
    dfsNeighbors g v [] visited = ([], []) := by
  rw [dfsNeighbors]

theorem dfsNeighbors_cons_mem (g : GraphData) (v nb : String) (w : Int)
    (rest : List (String × Int)) (visited : List String) (h : nb ∈ visited) :
    dfsNeighbors g v ((nb, w) :: rest) visited =
      ((match findEdge g v nb with
        | some e => [({ type := .currentEdge, edgeId := some e.id } : Step)]
        | none => []) ++
       (match findEdge g v nb with
        | some e => [({ type := .skipEdge, edgeId := some e.id } : Step)]
        | none => []) ++
       (dfsNeighbors g v rest visited).1,
       (dfsNeighbors g v rest visited).2) := by
  rw [dfsNeighbors, if_pos h]

theorem dfsNeighbors_cons_fresh (g : GraphData) (v nb : String) (w : Int)
    (rest : List (String × Int)) (visited : List String) (h : nb ∉ visited) :
    dfsNeighbors g v ((nb, w) :: rest) visited =
      ((match findEdge g v nb with
        | some e => [({ type := .currentEdge, edgeId := some e.id } : Step)]
        | none => []) ++
       (match findEdge g v nb with
        | some e =>
          [({ type := .traverseEdge, nodeId := some nb,
              edgeId := some e.id } : Step)]
        | none => []) ++
       (dfsVisit g nb visited).1 ++
       (dfsNeighbors g v rest (visited ++ (dfsVisit g nb visited).2)).1,
       (dfsVisit g nb visited).2 ++
       (dfsNeighbors g v rest (visited ++ (dfsVisit g nb visited).2)).2) := by
  rw [dfsNeighbors, if_neg h]

/-- Structure of a DFS visit: the newly visited ids extend the visited set
without duplicates, stay in the universe, start with the visited vertex,
and are fully expanded (all their neighbors are visited by the end); the
neighbor loop likewise, and it visits every scanned neighbor. -/
theorem dfs_structure (g : GraphData) :
    (∀ (v : String) (visited : List String),
      visited.Nodup ∧ (∀ x ∈ visited, x ∈ idUniverse g) ∧
        v ∈ idUniverse g ∧ v ∉ visited →
      ((visited ++ (dfsVisit g v visited).2).Nodup ∧
       (∀ x ∈ (dfsVisit g v visited).2, x ∈ idUniverse g) ∧
       v ∈ (dfsVisit g v visited).2 ∧
       (∀ x ∈ (dfsVisit g v visited).2, ∀ p ∈ createAdjacencyList g x,
         p.1 ∈ visited ++ (dfsVisit g v visited).2))) ∧
    (∀ (v : String) (neighbors : List (String × Int)) (visited : List String),
      visited.Nodup ∧ (∀ x ∈ visited, x ∈ idUniverse g) ∧
        (∀ p ∈ neighbors, p.1 ∈ idUniverse g) →
      ((visited ++ (dfsNeighbors g v neighbors visited).2).Nodup ∧
       (∀ x ∈ (dfsNeighbors g v neighbors visited).2, x ∈ idUniverse g) ∧
       (∀ x ∈ (dfsNeighbors g v neighbors visited).2,
         ∀ p ∈ createAdjacencyList g x,
           p.1 ∈ visited ++ (dfsNeighbors g v neighbors visited).2) ∧
       (∀ p ∈ neighbors,
         p.1 ∈ visited ++ (dfsNeighbors g v neighbors visited).2))) := by
  refine dfsVisit.mutual_induct g
    (fun v visited =>
      visited.Nodup ∧ (∀ x ∈ visited, x ∈ idUniverse g) ∧
        v ∈ idUniverse g ∧ v ∉ visited →
      ((visited ++ (dfsVisit g v visited).2).Nodup ∧
       (∀ x ∈ (dfsVisit g v visited).2, x ∈ idUniverse g) ∧
       v ∈ (dfsVisit g v visited).2 ∧
       (∀ x ∈ (dfsVisit g v visited).2, ∀ p ∈ createAdjacencyList g x,
         p.1 ∈ visited ++ (dfsVisit g v visited).2)))
    (fun v neighbors visited =>
      visited.Nodup ∧ (∀ x ∈ visited, x ∈ idUniverse g) ∧
        (∀ p ∈ neighbors, p.1 ∈ idUniverse g) →
      ((visited ++ (dfsNeighbors g v neighbors visited).2).Nodup ∧
       (∀ x ∈ (dfsNeighbors g v neighbors visited).2, x ∈ idUniverse g) ∧
       (∀ x ∈ (dfsNeighbors g v neighbors visited).2,
         ∀ p ∈ createAdjacencyList g x,
           p.1 ∈ visited ++ (dfsNeighbors g v neighbors visited).2) ∧
       (∀ p ∈ neighbors,
         p.1 ∈ visited ++ (dfsNeighbors g v neighbors visited).2)))
    ?_ ?_ ?_ ?_ ?_
  · intro v visited hguard ih _
    have hprem : (visited ++ [v]).Nodup ∧
        (∀ x ∈ visited ++ [v], x ∈ idUniverse g) ∧
        (∀ p ∈ createAdjacencyList g v, p.1 ∈ idUniverse g) := by
      refine ⟨?_, ?_, ?_⟩
      · simp [List.nodup_append, hguard.1, hguard.2.2.2]
      · intro x hx
        rcases List.mem_append.mp hx with hx | hx
        · exact hguard.2.1 x hx
        · rw [List.mem_singleton] at hx
          exact hx ▸ hguard.2.2.1
      · intro p hp
        exact adjacency_mem_universe g v p.1 p.2 hp
    obtain ⟨ha, hb, he, hf⟩ := ih hprem
    rw [dfsVisit_eq g v visited hguard]
    dsimp only
    have hrw : visited ++ v ::
        (dfsNeighbors g v (createAdjacencyList g v) (visited ++ [v])).2 =
        (visited ++ [v]) ++
        (dfsNeighbors g v (createAdjacencyList g v) (visited ++ [v])).2 := by
      rw [List.append_assoc, List.singleton_append]
    refine ⟨?_, ?_, List.mem_cons_self _ _, ?_⟩
    · rw [hrw]
      exact ha
    · intro x hx
      rcases List.mem_cons.mp hx with rfl | hx
      · exact hguard.2.2.1
      · exact hb x hx
    · intro x hx p hp
      rw [hrw]
      rcases List.mem_cons.mp hx with rfl | hx
      · exact hf p hp
      · exact he x hx p hp
  · intro v visited hguard hguard2
    exact absurd hguard2 hguard
  · intro v visited hprem
    rw [dfsNeighbors_nil]
    refine ⟨by simpa using hprem.1, by simp, by simp, by simp⟩
  · intro v visited nb w rest hmem ih hprem
    have hprem' : visited.Nodup ∧ (∀ x ∈ visited, x ∈ idUniverse g) ∧
        (∀ p ∈ rest, p.1 ∈ idUniverse g) :=
      ⟨hprem.1, hprem.2.1,
       fun p hp => hprem.2.2 p (List.mem_cons_of_mem _ hp)⟩
    obtain ⟨ha, hb, he, hf⟩ := ih hprem'
    rw [dfsNeighbors_cons_mem g v nb w rest visited hmem]
    dsimp only
    refine ⟨ha, hb, he, ?_⟩
    intro p hp
    rcases List.mem_cons.mp hp with rfl | hp
    · exact List.mem_append_left _ hmem
    · exact hf p hp
  · intro v visited nb w rest hnmem vres ih1 ih2 hprem
    have hv : vres = dfsVisit g nb visited := rfl
    rw [hv] at ih2
    have hguard1 : visited.Nodup ∧ (∀ x ∈ visited, x ∈ idUniverse g) ∧
        nb ∈ idUniverse g ∧ nb ∉ visited :=
      ⟨hprem.1, hprem.2.1, hprem.2.2 (nb, w) (List.mem_cons_self _ _), hnmem⟩
    obtain ⟨ha1, hb1, hc1, he1⟩ := ih1 hguard1
    have hprem2 : (visited ++ (dfsVisit g nb visited).2).Nodup ∧
        (∀ x ∈ visited ++ (dfsVisit g nb visited).2, x ∈ idUniverse g) ∧
        (∀ p ∈ rest, p.1 ∈ idUniverse g) := by
      refine ⟨ha1, ?_, fun p hp => hprem.2.2 p (List.mem_cons_of_mem _ hp)⟩
      intro x hx
      rcases List.mem_append.mp hx with hx | hx
      · exact hprem.2.1 x hx
      · exact hb1 x hx
    obtain ⟨ha2, hb2, he2, hf2⟩ := ih2 hprem2
    rw [dfsNeighbors_cons_fresh g v nb w rest visited hnmem]
    dsimp only
    have hrw : visited ++ ((dfsVisit g nb visited).2 ++
        (dfsNeighbors g v rest (visited ++ (dfsVisit g nb visited).2)).2) =
        (visited ++ (dfsVisit g nb visited).2) ++
        (dfsNeighbors g v rest (visited ++ (dfsVisit g nb visited).2)).2 := by
      rw [List.append_assoc]
    refine ⟨?_, ?_, ?_, ?_⟩
    · rw [hrw]
      exact ha2
    · intro x hx
      rcases List.mem_append.mp hx with hx | hx
      · exact hb1 x hx
      · exact hb2 x hx
    · intro x hx p hp
      rw [hrw]
      rcases List.mem_append.mp hx with hx | hx
      · exact List.mem_append_left _ (he1 x hx p hp)
      · exact he2 x hx p hp
    · intro p hp
      rw [hrw]
      rcases List.mem_cons.mp hp with rfl | hp
      · exact List.mem_append_left _ (List.mem_append_right _ hc1)
      · exact hf2 p hp

/-- Each DFS visit yields exactly one `visitNode` and one `completeNode`
per newly visited vertex, and no `processNode` at all. -/
theorem dfs_counts_core (g : GraphData) :
    (∀ (v : String) (visited : List String),
      visited.Nodup ∧ (∀ x ∈ visited, x ∈ idUniverse g) ∧
        v ∈ idUniverse g ∧ v ∉ visited →
      ∀ w, countNode (dfsVisit g v visited).1 .visitNode w =
          (if w ∈ (dfsVisit g v visited).2 then 1 else 0) ∧
        countNode (dfsVisit g v visited).1 .completeNode w =
          (if w ∈ (dfsVisit g v visited).2 then 1 else 0) ∧
        countNode (dfsVisit g v visited).1 .processNode w = 0) ∧
    (∀ (v : String) (neighbors : List (String × Int)) (visited : List String),
      visited.Nodup ∧ (∀ x ∈ visited, x ∈ idUniverse g) ∧
        (∀ p ∈ neighbors, p.1 ∈ idUniverse g) →
      ∀ w, countNode (dfsNeighbors g v neighbors visited).1 .visitNode w =
          (if w ∈ (dfsNeighbors g v neighbors visited).2 then 1 else 0) ∧
        countNode (dfsNeighbors g v neighbors visited).1 .completeNode w =
          (if w ∈ (dfsNeighbors g v neighbors visited).2 then 1 else 0) ∧
        countNode (dfsNeighbors g v neighbors visited).1 .processNode w = 0) := by
  refine dfsVisit.mutual_induct g
    (fun v visited =>
      visited.Nodup ∧ (∀ x ∈ visited, x ∈ idUniverse g) ∧
        v ∈ idUniverse g ∧ v ∉ visited →
      ∀ w, countNode (dfsVisit g v visited).1 .visitNode w =
          (if w ∈ (dfsVisit g v visited).2 then 1 else 0) ∧
        countNode (dfsVisit g v visited).1 .completeNode w =
          (if w ∈ (dfsVisit g v visited).2 then 1 else 0) ∧
        countNode (dfsVisit g v visited).1 .processNode w = 0)
    (fun v neighbors visited =>
      visited.Nodup ∧ (∀ x ∈ visited, x ∈ idUniverse g) ∧
        (∀ p ∈ neighbors, p.1 ∈ idUniverse g) →
      ∀ w, countNode (dfsNeighbors g v neighbors visited).1 .visitNode w =
          (if w ∈ (dfsNeighbors g v neighbors visited).2 then 1 else 0) ∧
        countNode (dfsNeighbors g v neighbors visited).1 .completeNode w =
          (if w ∈ (dfsNeighbors g v neighbors visited).2 then 1 else 0) ∧
        countNode (dfsNeighbors g v neighbors visited).1 .processNode w = 0)
    ?_ ?_ ?_ ?_ ?_
  · intro v visited hguard ih _ w
    have hprem : (visited ++ [v]).Nodup ∧
        (∀ x ∈ visited ++ [v], x ∈ idUniverse g) ∧
        (∀ p ∈ createAdjacencyList g v, p.1 ∈ idUniverse g) := by
      refine ⟨?_, ?_, ?_⟩
      · simp [List.nodup_append, hguard.1, hguard.2.2.2]
      · intro x hx
        rcases List.mem_append.mp hx with hx | hx
        · exact hguard.2.1 x hx
        · rw [List.mem_singleton] at hx
          exact hx ▸ hguard.2.2.1
      · intro p hp
        exact adjacency_mem_universe g v p.1 p.2 hp
    obtain ⟨ihv, ihc, ihp⟩ := ih hprem w
    have hvn : v ∉ (dfsNeighbors g v (createAdjacencyList g v)
        (visited ++ [v])).2 := by
      have ha := ((dfs_structure g).2 v (createAdjacencyList g v)
        (visited ++ [v]) hprem).1
      have hd := (List.nodup_append.mp ha).2.2
      exact fun hc => hd (List.mem_append_right _ (List.mem_singleton_self _)) hc
    rw [dfsVisit_eq g v visited hguard]
    dsimp only
    simp only [countNode_append, countNode_cons, countNode_nil,
      ihv, ihc, ihp]
    refine ⟨?_, ?_, ?_⟩ <;>
      by_cases hw : w = v <;>
      by_cases hin : w ∈ (dfsNeighbors g v (createAdjacencyList g v)
        (visited ++ [v])).2
    all_goals try (subst hw; exact absurd hin hvn)
    all_goals try (subst hw; simp [hin, hvn])
    all_goals simp [hw, hin, Ne.symm hw, List.mem_cons]
  · intro v visited hguard hguard2
    exact absurd hguard2 hguard
  · intro v visited _ w
    rw [dfsNeighbors_nil]
    refine ⟨by simp [countNode_nil], by simp [countNode_nil],
      by simp [countNode_nil]⟩
  · intro v visited nb w rest hmem ih hprem w'
    have hprem' : visited.Nodup ∧ (∀ x ∈ visited, x ∈ idUniverse g) ∧
        (∀ p ∈ rest, p.1 ∈ idUniverse g) :=
      ⟨hprem.1, hprem.2.1,
       fun p hp => hprem.2.2 p (List.mem_cons_of_mem _ hp)⟩
    obtain ⟨ihv, ihc, ihp⟩ := ih hprem' w'
    rw [dfsNeighbors_cons_mem g v nb w rest visited hmem]
    dsimp only
    cases hfe : findEdge g v nb <;>
      dsimp only <;>
      refine ⟨?_, ?_, ?_⟩ <;>
      simp only [countNode_append, countNode_cons, List.nil_append,
        countNode_nil, ihv, ihc, ihp] <;>
      simp
  · intro v visited nb w rest hnmem vres ih1 ih2 hprem w'
    have hv : vres = dfsVisit g nb visited := rfl
    rw [hv] at ih2
    have hguard1 : visited.Nodup ∧ (∀ x ∈ visited, x ∈ idUniverse g) ∧
        nb ∈ idUniverse g ∧ nb ∉ visited :=
      ⟨hprem.1, hprem.2.1, hprem.2.2 (nb, w) (List.mem_cons_self _ _), hnmem⟩
    obtain ⟨ihv1, ihc1, ihp1⟩ := ih1 hguard1 w'
    have hstr1 := (dfs_structure g).1 nb visited hguard1
    have hprem2 : (visited ++ (dfsVisit g nb visited).2).Nodup ∧
        (∀ x ∈ visited ++ (dfsVisit g nb visited).2, x ∈ idUniverse g) ∧
        (∀ p ∈ rest, p.1 ∈ idUniverse g) := by
      refine ⟨hstr1.1, ?_, fun p hp => hprem.2.2 p (List.mem_cons_of_mem _ hp)⟩
      intro x hx
      rcases List.mem_append.mp hx with hx | hx
      · exact hprem.2.1 x hx
      · exact hstr1.2.1 x hx
    obtain ⟨ihv2, ihc2, ihp2⟩ := ih2 hprem2 w'
    have hdisj : ∀ x ∈ (dfsVisit g nb visited).2,
        x ∉ (dfsNeighbors g v rest (visited ++ (dfsVisit g nb visited).2)).2 := by
      have ha2 := ((dfs_structure g).2 v rest
        (visited ++ (dfsVisit g nb visited).2) hprem2).1
      have hd := (List.nodup_append.mp ha2).2.2
      exact fun x hx => hd (List.mem_append_right _ hx)
    rw [dfsNeighbors_cons_fresh g v nb w rest visited hnmem]
    dsimp only
    cases hfe : findEdge g v nb <;>
      dsimp only <;>
      refine ⟨?_, ?_, ?_⟩ <;>
      simp only [countNode_append, countNode_cons, List.nil_append,
        countNode_nil, ihv1, ihc1, ihp1, ihv2, ihc2, ihp2] <;>
      (try simp only [List.mem_append]) <;>
      by_cases h1 : w' ∈ (dfsVisit g nb visited).2 <;>
      by_cases h2 : w' ∈ (dfsNeighbors g v rest
        (visited ++ (dfsVisit g nb visited).2)).2 <;>
      first
      | (exact absurd h2 (hdisj w' h1))
      | simp [h1, h2]

/-- The DFS step counts: the start vertex collects exactly two `visitNode`
steps (the announcement before the recursive walk plus the walk's own),
every other vertex at most one; every vertex at most one `completeNode` and
no `processNode` at all; every vertex reachable from the start is named by
a `visitNode`. -/
theorem dfs_counts (g : GraphData) (startNodeId : String)
    (hval : ¬(startNodeId = "" ∨
      g.nodes.find? (fun n => n.id = startNodeId) = none)) :
    countNode (dfs g startNodeId) .visitNode startNodeId = 2 ∧
    ∀ v, (v ≠ startNodeId → countNode (dfs g startNodeId) .visitNode v ≤ 1) ∧
      countNode (dfs g startNodeId) .completeNode v ≤ 1 ∧
      countNode (dfs g startNodeId) .processNode v = 0 ∧
      (reachable g startNodeId v →
        1 ≤ countNode (dfs g startNodeId) .visitNode v) := by
  have hstart : startNodeId ∈ idUniverse g := by
    rcases Option.ne_none_iff_exists'.mp (fun hc => hval (Or.inr hc)) with ⟨n, hn⟩
    have hmem := List.find?_some hn
    have hmem2 := List.mem_of_find?_eq_some hn
    simp only [decide_eq_true_eq] at hmem
    rw [idUniverse, List.mem_append]
    exact Or.inl (List.mem_map.mpr ⟨n, hmem2, hmem⟩)
  have hguard : ([] : List String).Nodup ∧
      (∀ x ∈ ([] : List String), x ∈ idUniverse g) ∧
      startNodeId ∈ idUniverse g ∧ startNodeId ∉ ([] : List String) := by
    refine ⟨List.nodup_nil, ?_, hstart, ?_⟩
    · intro x hx
      exact absurd hx (List.not_mem_nil x)
    · exact List.not_mem_nil startNodeId
  have hcore := (dfs_counts_core g).1 startNodeId [] hguard
  have hstr := (dfs_structure g).1 startNodeId [] hguard
  have hdfs : dfs g startNodeId =
      ({ type := .visitNode, nodeId := some startNodeId } : Step) ::
        ((dfsVisit g startNodeId []).1 ++ [{ type := .done }]) := by
    rw [dfs, if_neg hval, List.cons_append]
  have hdone : ∀ t w, t ≠ .done →
      countNode [({ type := .done } : Step)] t w = 0 := by
    intro t w ht
    rw [countNode_singleton, if_neg]
    rintro ⟨hc, -⟩
    exact ht hc.symm
  have hclosed : ∀ x ∈ (dfsVisit g startNodeId []).2,
      ∀ p ∈ createAdjacencyList g x, p.1 ∈ (dfsVisit g startNodeId []).2 := by
    intro x hx p hp
    have hm := hstr.2.2.2 x hx p hp
    rwa [List.nil_append] at hm
  have hcount : ∀ t v, countNode (dfs g startNodeId) t v =
      countNode (dfsVisit g startNodeId []).1 t v +
        countNode [({ type := .done } : Step)] t v +
        (if StepType.visitNode = t ∧
          (some startNodeId : Option String) = some v then 1 else 0) := by
    intro t v
    rw [hdfs, countNode_cons, countNode_append]
  constructor
  · obtain ⟨hv, -, -⟩ := hcore startNodeId
    rw [hcount, hdone .visitNode startNodeId (by rintro hc; cases hc), hv,
      if_pos hstr.2.2.1, if_pos ⟨rfl, rfl⟩]
  · intro v
    obtain ⟨hv, hc, hp⟩ := hcore v
    refine ⟨?_, ?_, ?_, ?_⟩
    · intro hne
      have hhead : ¬(StepType.visitNode = StepType.visitNode ∧
          (some startNodeId : Option String) = some v) := by
        rintro ⟨-, hcc⟩
        exact hne (Option.some.inj hcc).symm
      rw [hcount, hdone .visitNode v (by rintro hc'; cases hc'), hv,
        if_neg hhead]
      split <;> omega
    · have hhead : ¬(StepType.visitNode = StepType.completeNode ∧
          (some startNodeId : Option String) = some v) := by
        rintro ⟨hcc, -⟩
        exact StepType.noConfusion hcc
      rw [hcount, hdone .completeNode v (by rintro hc'; cases hc'), hc,
        if_neg hhead]
      split <;> omega
    · have hhead : ¬(StepType.visitNode = StepType.processNode ∧
          (some startNodeId : Option String) = some v) := by
        rintro ⟨hcc, -⟩
        exact StepType.noConfusion hcc
      rw [hcount, hdone .processNode v (by rintro hc'; cases hc'), hp,
        if_neg hhead]
    · intro hreach
      have hvS : v ∈ (dfsVisit g startNodeId []).2 :=
        reachable_closed hclosed hstr.2.2.1 hreach
      rw [hcount, hdone .visitNode v (by rintro hc'; cases hc'), hv,
        if_pos hvS]
      omega

/-- C5 counterexample: on the one-vertex graph, DFS from that vertex names
it in two `visitNode` steps — the claimed at-most-one bound fails. -/
theorem C5_counterexample :
    ¬ countNode (dfs { nodes := [nodeA], edges := [] } "a1")
        .visitNode "a1" ≤ 1 := by
  have h := (dfs_counts { nodes := [nodeA], edges := [] } "a1" (by decide)).1
  omega

/-- C5 (amended): for every graph and valid start vertex, BFS names each
vertex in at most one `visitNode`, at most one `processNode` and at most one
`completeNode` step, and every reachable vertex gets a `processNode`; DFS
names the start vertex in exactly two `visitNode` steps, every other vertex
in at most one, each vertex in at most one `completeNode` and never in a
`processNode`, and every reachable vertex gets a `visitNode`. -/
theorem C5_amended_traversal_counts (g : GraphData) (startNodeId : String)
    (hval : ¬(startNodeId = "" ∨
      g.nodes.find? (fun n => n.id = startNodeId) = none)) :
    (∀ v, countNode (bfs g startNodeId) .visitNode v ≤ 1 ∧
      countNode (bfs g startNodeId) .processNode v ≤ 1 ∧
      countNode (bfs g startNodeId) .completeNode v ≤ 1 ∧
      (reachable g startNodeId v →
        1 ≤ countNode (bfs g startNodeId) .processNode v)) ∧
    countNode (dfs g startNodeId) .visitNode startNodeId = 2 ∧
    (∀ v, (v ≠ startNodeId →
        countNode (dfs g startNodeId) .visitNode v ≤ 1) ∧
      countNode (dfs g startNodeId) .completeNode v ≤ 1 ∧
      countNode (dfs g startNodeId) .processNode v = 0 ∧
      (reachable g startNodeId v →
        1 ≤ countNode (dfs g startNodeId) .visitNode v)) :=
  ⟨bfs_counts g startNodeId hval, (dfs_counts g startNodeId hval).1,
    (dfs_counts g startNodeId hval).2⟩

/-- C5 amended witness: the start vertex `a1` of the scenario graph is
valid, and DFS from it names it in exactly two `visitNode` steps. -/
theorem C5_amended_traversal_counts_witness :
    ¬(("a1" : String) = "" ∨
      scenario.nodes.find? (fun n => n.id = "a1") = none) ∧
    countNode (dfs scenario "a1") .visitNode "a1" = 2 :=
  ⟨by decide, (C5_amended_traversal_counts scenario "a1" (by decide)).2.1⟩


/-! ## C1 — Prim and Kruskal report the same MST cost -/

/-- The node ids of a graph, in list order. -/
def nodeIds (g : GraphData) : List String :=
  g.nodes.map (fun n => n.id)

/-- The edge `e` connects the unordered pair `\x7ba, b\x7d`. -/
def joins (e : EdgeData) (a b : String) : Prop :=
  (e.fromId = a ∧ e.toId = b) ∨ (e.fromId = b ∧ e.toId = a)

/-- Two edges connect the same unordered pair. -/
def sameEnds (e₁ e₂ : EdgeData) : Prop :=
  (e₁.fromId = e₂.fromId ∧ e₁.toId = e₂.toId) ∨
  (e₁.fromId = e₂.toId ∧ e₁.toId = e₂.fromId)

/-- Two ids are adjacent through some edge of the list. -/
def adjE (E : List EdgeData) (a b : String) : Prop :=
  ∃ e ∈ E, joins e a b

/-- Two ids are linked by a chain of edges of the list. -/
def linkedE (E : List EdgeData) : String → String → Prop :=
  Relation.ReflTransGen (adjE E)

/-- The edges of `g` strictly lighter than `e`. -/
def lighterEdges (g : GraphData) (e : EdgeData) : List EdgeData :=
  g.edges.filter (fun d => d.weight < e.weight)

/-- An edge is light when its endpoints are not linked by strictly lighter
edges; with pairwise distinct weights these are exactly the edges of the
unique minimum spanning tree. -/
def LightEdge (g : GraphData) (e : EdgeData) : Prop :=
  ¬ linkedE (lighterEdges g e) e.fromId e.toId

/-- Total weight of an edge list. -/
def sumW (E : List EdgeData) : Int :=
  (E.map (fun e => e.weight)).sum

/-- Every pair of vertices is linked by the graph's edges. -/
def connectedG (g : GraphData) : Prop :=
  ∀ u ∈ nodeIds g, ∀ v ∈ nodeIds g, linkedE g.edges u v

/-- Well-formedness for the MST claim: distinct node ids, edge endpoints
that are distinct existing nodes, at most one edge per unordered vertex
pair, and pairwise distinct weights. -/
def MSTWf (g : GraphData) : Prop :=
  (nodeIds g).Nodup ∧
  (∀ e ∈ g.edges, e.fromId ∈ nodeIds g ∧ e.toId ∈ nodeIds g) ∧
  (∀ e ∈ g.edges, e.fromId ≠ e.toId) ∧
  (∀ e₁ ∈ g.edges, ∀ e₂ ∈ g.edges, sameEnds e₁ e₂ → e₁ = e₂) ∧
  (g.edges.map (fun e => e.weight)).Nodup

theorem joins_sameEnds {e₁ e₂ : EdgeData} {a b : String}
    (h₁ : joins e₁ a b) (h₂ : joins e₂ a b) : sameEnds e₁ e₂ := by
  rcases h₁ with ⟨hf₁, ht₁⟩ | ⟨hf₁, ht₁⟩ <;>
    rcases h₂ with ⟨hf₂, ht₂⟩ | ⟨hf₂, ht₂⟩
  · exact Or.inl ⟨hf₁.trans hf₂.symm, ht₁.trans ht₂.symm⟩
  · exact Or.inr ⟨hf₁.trans ht₂.symm, ht₁.trans hf₂.symm⟩
  · exact Or.inr ⟨hf₁.trans ht₂.symm, ht₁.trans hf₂.symm⟩
  · exact Or.inl ⟨hf₁.trans hf₂.symm, ht₁.trans ht₂.symm⟩

theorem joins_symmetric {e : EdgeData} {a b : String} (h : joins e a b) :
    joins e b a := h.symm

theorem adjE_symm {E : List EdgeData} {a b : String} (h : adjE E a b) :
    adjE E b a := by
  obtain ⟨e, he, hj⟩ := h
  exact ⟨e, he, hj.symm⟩

theorem linkedE_symm {E : List EdgeData} {a b : String}
    (h : linkedE E a b) : linkedE E b a := by
  induction h with
  | refl => exact Relation.ReflTransGen.refl
  | tail hxb hstep ih =>
    exact Relation.ReflTransGen.trans
      (Relation.ReflTransGen.single (adjE_symm hstep)) ih

theorem linkedE_mono {E F : List EdgeData}
    (hsub : ∀ d, d ∈ E → d ∈ F) {a b : String} (h : linkedE E a b) :
    linkedE F a b := by
  induction h with
  | refl => exact Relation.ReflTransGen.refl
  | tail hxb hstep ih =>
    obtain ⟨e, he, hj⟩ := hstep
    exact ih.tail ⟨e, hsub e he, hj⟩

theorem linkedE_congr {E F : List EdgeData}
    (hiff : ∀ d, d ∈ E ↔ d ∈ F) (a b : String) :
    linkedE E a b ↔ linkedE F a b :=
  ⟨linkedE_mono (fun d hd => (hiff d).mp hd),
   linkedE_mono (fun d hd => (hiff d).mpr hd)⟩

theorem linkedE_nil {a b : String} : linkedE [] a b ↔ a = b := by
  constructor
  · intro h
    induction h with
    | refl => rfl
    | tail hxb hstep ih =>
      obtain ⟨e, he, -⟩ := hstep
      exact absurd he (List.not_mem_nil e)
  · rintro rfl
    exact Relation.ReflTransGen.refl

/-- Linking through one more edge: either the old edges suffice, or the
chain passes through the new edge in one of its two orientations. -/
theorem linkedE_append_single {E : List EdgeData} {e : EdgeData}
    {x y : String} :
    linkedE (E ++ [e]) x y ↔
      linkedE E x y ∨
      (linkedE E x e.fromId ∧ linkedE E e.toId y) ∨
      (linkedE E x e.toId ∧ linkedE E e.fromId y) := by
  constructor
  · intro h
    induction h with
    | refl => exact Or.inl Relation.ReflTransGen.refl
    | tail hxb hstep ih =>
      obtain ⟨d, hd, hj⟩ := hstep
      rcases List.mem_append.mp hd with hdE | hde
      · rcases ih with h1 | ⟨h2a, h2b⟩ | ⟨h3a, h3b⟩
        · exact Or.inl (h1.tail ⟨d, hdE, hj⟩)
        · exact Or.inr (Or.inl ⟨h2a, h2b.tail ⟨d, hdE, hj⟩⟩)
        · exact Or.inr (Or.inr ⟨h3a, h3b.tail ⟨d, hdE, hj⟩⟩)
      · rw [List.mem_singleton] at hde
        subst hde
        rcases hj with ⟨hfb, hty⟩ | ⟨hfy, htb⟩
        · rcases ih with h1 | ⟨h2a, -⟩ | ⟨h3a, -⟩
          · exact Or.inr (Or.inl ⟨hfb ▸ h1, hty ▸ Relation.ReflTransGen.refl⟩)
          · exact Or.inr (Or.inl ⟨h2a, hty ▸ Relation.ReflTransGen.refl⟩)
          · exact Or.inl (hty ▸ h3a)
        · rcases ih with h1 | ⟨h2a, -⟩ | ⟨h3a, h3b⟩
          · exact Or.inr (Or.inr ⟨htb ▸ h1, hfy ▸ Relation.ReflTransGen.refl⟩)
          · exact Or.inl (hfy ▸ h2a)
          · exact Or.inr (Or.inr ⟨h3a, hfy ▸ Relation.ReflTransGen.refl⟩)
  · have hsub : ∀ d, d ∈ E → d ∈ E ++ [e] := fun d hd =>
      List.mem_append_left _ hd
    have hmem : e ∈ E ++ [e] :=
      List.mem_append_right _ (List.mem_singleton_self e)
    rintro (h | ⟨h1, h2⟩ | ⟨h1, h2⟩)
    · exact linkedE_mono hsub h
    · exact (((linkedE_mono hsub h1).tail
        ⟨e, hmem, Or.inl ⟨rfl, rfl⟩⟩).trans (linkedE_mono hsub h2))
    · exact (((linkedE_mono hsub h1).tail
        ⟨e, hmem, Or.inr ⟨rfl, rfl⟩⟩).trans (linkedE_mono hsub h2))

/-- Appending an edge whose endpoints are already linked changes nothing. -/
theorem linkedE_append_redundant {E : List EdgeData} {e : EdgeData}
    (h : linkedE E e.fromId e.toId) (x y : String) :
    linkedE (E ++ [e]) x y ↔ linkedE E x y := by
  rw [linkedE_append_single]
  constructor
  · rintro (h1 | ⟨h1, h2⟩ | ⟨h1, h2⟩)
    · exact h1
    · exact (h1.trans h).trans h2
    · exact (h1.trans (linkedE_symm h)).trans h2
  · exact Or.inl

/-- A chain from inside a vertex set to outside it crosses the boundary. -/
theorem crossing_of_linked {E : List EdgeData} {S : List String}
    {x y : String} (hx : x ∈ S) (h : linkedE E x y) : y ∉ S →
    ∃ d ∈ E, ∃ a b, joins d a b ∧ a ∈ S ∧ b ∉ S := by
  induction h with
  | refl => intro hy; exact absurd hx hy
  | @tail b c hxb hstep ih =>
    intro hy
    by_cases hb : b ∈ S
    · obtain ⟨d, hd, hj⟩ := hstep
      exact ⟨d, hd, b, c, hj, hb, hy⟩
    · exact ih hb


/-- Membership in the adjacency list: exactly the edges joining the pair. -/
theorem createAdjacencyList_mem (g : GraphData) (a b : String) (w : Int) :
    (b, w) ∈ createAdjacencyList g a ↔
      ∃ e ∈ g.edges, joins e a b ∧ e.weight = w := by
  rw [createAdjacencyList, List.mem_flatMap]
  constructor
  · rintro ⟨e, he, hm⟩
    refine ⟨e, he, ?_⟩
    rcases List.mem_append.mp hm with hm | hm
    · by_cases h1 : e.fromId = a
      · rw [if_pos h1, List.mem_singleton] at hm
        simp only [Prod.mk.injEq] at hm
        exact ⟨Or.inl ⟨h1, hm.1.symm⟩, hm.2.symm⟩
      · rw [if_neg h1] at hm
        exact absurd hm (List.not_mem_nil _)
    · by_cases h2 : e.toId = a
      · rw [if_pos h2, List.mem_singleton] at hm
        simp only [Prod.mk.injEq] at hm
        exact ⟨Or.inr ⟨hm.1.symm, h2⟩, hm.2.symm⟩
      · rw [if_neg h2] at hm
        exact absurd hm (List.not_mem_nil _)
  · rintro ⟨e, he, hj, hw⟩
    refine ⟨e, he, ?_⟩
    rcases hj with ⟨hf, ht⟩ | ⟨hf, ht⟩
    · refine List.mem_append_left _ ?_
      rw [if_pos hf, List.mem_singleton, ht, hw]
    · refine List.mem_append_right _ ?_
      rw [if_pos ht, List.mem_singleton, hf, hw]

/-- A found edge is an edge of the graph joining the queried pair. -/
theorem findEdge_some {g : GraphData} {a b : String} {e : EdgeData}
    (h : findEdge g a b = some e) : e ∈ g.edges ∧ joins e a b := by
  have hm := List.mem_of_find?_eq_some h
  have hp := List.find?_some h
  refine ⟨hm, ?_⟩
  simp only [Bool.or_eq_true, Bool.and_eq_true, decide_eq_true_eq] at hp
  exact hp

/-- When some edge joins the pair, `findEdge` finds one. -/
theorem findEdge_isSome_of_joins {g : GraphData} {a b : String}
    {d : EdgeData} (hd : d ∈ g.edges) (hj : joins d a b) :
    ∃ e, findEdge g a b = some e := by
  cases hfe : findEdge g a b with
  | some e => exact ⟨e, rfl⟩
  | none =>
    exfalso
    have hnone := List.find?_eq_none.mp hfe d hd
    apply hnone
    simp only [Bool.or_eq_true, Bool.and_eq_true, decide_eq_true_eq]
    exact hj

/-- With at most one edge per unordered pair, `findEdge` returns exactly
the joining edge. -/
theorem findEdge_eq_of_joins {g : GraphData} (hwf : MSTWf g)
    {a b : String} {d : EdgeData} (hd : d ∈ g.edges) (hj : joins d a b) :
    findEdge g a b = some d := by
  obtain ⟨e, he⟩ := findEdge_isSome_of_joins hd hj
  obtain ⟨heE, hej⟩ := findEdge_some he
  rw [he, hwf.2.2.2.1 e heE d hd (joins_sameEnds hej hj)]

/-- The running minimum of the candidate fold is a lower bound for every
candidate weight (and for the incoming minimum). -/
theorem primScanSpec_min (cands : List (Int × EdgeData × String)) :
    ∀ best m, (primScanSpec cands best).2 = some m →
      (∀ c ∈ cands, m.weight ≤ c.1) ∧
      (∀ b, best = some b → m.weight ≤ b.weight) := by
  induction cands with
  | nil =>
    intro best m h
    simp only [primScanSpec] at h
    refine ⟨fun c hc => absurd hc (List.not_mem_nil c), fun b hb => ?_⟩
    rw [hb] at h
    rw [Option.some.inj h]
  | cons c rest ih =>
    obtain ⟨w, e, nb⟩ := c
    intro best m h
    cases best with
    | none =>
      simp only [primScanSpec] at h
      obtain ⟨ihm, ihb⟩ := ih (some ⟨w, e, nb⟩) m h
      have hmw : m.weight ≤ w := ihb ⟨w, e, nb⟩ rfl
      refine ⟨fun c hc => ?_, fun b hb => Option.noConfusion hb⟩
      rcases List.mem_cons.mp hc with rfl | hc
      · exact hmw
      · exact ihm c hc
    | some b =>
      by_cases hw : w < b.weight
      · simp only [primScanSpec, decide_eq_true hw, ite_true] at h
        obtain ⟨ihm, ihb⟩ := ih (some ⟨w, e, nb⟩) m h
        have hmw : m.weight ≤ w := ihb ⟨w, e, nb⟩ rfl
        refine ⟨fun c hc => ?_, fun b' hb' => ?_⟩
        · rcases List.mem_cons.mp hc with rfl | hc
          · exact hmw
          · exact ihm c hc
        · rw [← Option.some.inj hb']
          exact hmw.trans (le_of_lt hw)
      · simp only [primScanSpec, decide_eq_false hw, Bool.false_eq_true,
          if_false] at h
        obtain ⟨ihm, ihb⟩ := ih (some b) m h
        have hmb : m.weight ≤ b.weight := ihb b rfl
        refine ⟨fun c hc => ?_, fun b' hb' => ?_⟩
        · rcases List.mem_cons.mp hc with rfl | hc
          · exact hmb.trans (not_lt.mp hw)
          · exact ihm c hc
        · rw [← Option.some.inj hb']
          exact hmb
      
/-- The minimum produced by the candidate fold is either the incoming one
or a candidate of the list. -/
theorem primScanSpec_origin (cands : List (Int × EdgeData × String)) :
    ∀ best m, (primScanSpec cands best).2 = some m →
      best = some m ∨ (m.weight, m.edge, m.next) ∈ cands := by
  induction cands with
  | nil =>
    intro best m h
    simp only [primScanSpec] at h
    exact Or.inl h
  | cons c rest ih =>
    obtain ⟨w, e, nb⟩ := c
    intro best m h
    have step : ∀ X, (primScanSpec rest X).2 = some m →
        X = some m ∨ (m.weight, m.edge, m.next) ∈ (w, e, nb) :: rest := by
      intro X hX
      rcases ih X m hX with h1 | h1
      · exact Or.inl h1
      · exact Or.inr (List.mem_cons_of_mem _ h1)
    cases best with
    | none =>
      simp only [primScanSpec] at h
      rcases step (some ⟨w, e, nb⟩) h with h1 | h1
      · have hm := (Option.some.inj h1).symm
        subst hm
        exact Or.inr (List.mem_cons_self _ _)
      · exact Or.inr h1
    | some b =>
      by_cases hw : w < b.weight
      · simp only [primScanSpec, decide_eq_true hw, ite_true] at h
        rcases step (some ⟨w, e, nb⟩) h with h1 | h1
        · have hm := (Option.some.inj h1).symm
          subst hm
          exact Or.inr (List.mem_cons_self _ _)
        · exact Or.inr h1
      · simp only [primScanSpec, decide_eq_false hw, Bool.false_eq_true,
          if_false] at h
        rcases step (some b) h with h1 | h1
        · exact Or.inl h1
        · exact Or.inr h1


/-- Membership in the ordered candidate list of one Prim scan. -/
theorem primCandidates_mem {g : GraphData} {visited : List String}
    {w : Int} {e : EdgeData} {nb : String} :
    (w, e, nb) ∈ primCandidates g visited ↔
      ∃ v ∈ visited, nb ∉ visited ∧ (nb, w) ∈ createAdjacencyList g v ∧
        findEdge g v nb = some e := by
  rw [primCandidates]
  simp only [List.mem_flatMap, List.mem_filterMap]
  constructor
  · rintro ⟨v, hv, p, hp, hmap⟩
    obtain ⟨p1, p2⟩ := p
    by_cases hmem : p1 ∈ visited
    · rw [if_pos hmem] at hmap
      exact absurd hmap (fun hc => Option.noConfusion hc)
    · rw [if_neg hmem] at hmap
      cases hfe : findEdge g v p1 with
      | none =>
        rw [hfe] at hmap
        exact absurd hmap (fun hc => Option.noConfusion hc)
      | some e' =>
        rw [hfe, Option.map_some'] at hmap
        have hm := Option.some.inj hmap
        simp only [Prod.mk.injEq] at hm
        obtain ⟨hw, he', hnb⟩ := hm
        subst hw
        subst he'
        subst hnb
        exact ⟨v, hv, hmem, hp, hfe⟩
  · rintro ⟨v, hv, hnb, hadj, hfe⟩
    refine ⟨v, hv, (nb, w), hadj, ?_⟩
    rw [if_neg hnb, hfe, Option.map_some']

/-- A cut-crossing edge yields a candidate for the scan. -/
theorem primCandidates_of_crossing {g : GraphData} (hwf : MSTWf g)
    {visited : List String} {d : EdgeData} {a b : String}
    (hd : d ∈ g.edges) (hj : joins d a b) (ha : a ∈ visited)
    (hb : b ∉ visited) :
    (d.weight, d, b) ∈ primCandidates g visited := by
  refine primCandidates_mem.mpr ⟨a, ha, hb, ?_, ?_⟩
  · exact (createAdjacencyList_mem g a b d.weight).mpr ⟨d, hd, hj, rfl⟩
  · exact findEdge_eq_of_joins hwf hd hj

theorem sumW_nil : sumW [] = 0 := rfl

theorem sumW_cons (e : EdgeData) (E : List EdgeData) :
    sumW (e :: E) = e.weight + sumW E := by
  simp [sumW]

theorem sumW_append (E F : List EdgeData) :
    sumW (E ++ F) = sumW E + sumW F := by
  simp [sumW]

/-- Prim's loop on a connected graph: the run terminates in a `done` step
carrying the starting cost plus the total weight of a set of accepted
edges, all of them light, pairwise distinct, never internal to the starting
visited set, and exactly as many as the unvisited vertices. -/
theorem primLoop_run (g : GraphData) (hwf : MSTWf g)
    (hconn : connectedG g) :
    ∀ (visited : List String) (cost : Int), visited ≠ [] → visited.Nodup →
      (∀ x ∈ visited, x ∈ nodeIds g) →
      ∃ P : List EdgeData,
        (primLoop g visited cost).getLast? =
          some { type := .done, totalCost := some (cost + sumW P) } ∧
        P.Nodup ∧ (∀ e ∈ P, e ∈ g.edges) ∧ (∀ e ∈ P, LightEdge g e) ∧
        (∀ e ∈ P, ¬(e.fromId ∈ visited ∧ e.toId ∈ visited)) ∧
        P.length = g.nodes.length - visited.length := by
  suffices hmain : ∀ (k : Nat) (visited : List String) (cost : Int),
      g.nodes.length - visited.length ≤ k → visited ≠ [] → visited.Nodup →
      (∀ x ∈ visited, x ∈ nodeIds g) →
      ∃ P : List EdgeData,
        (primLoop g visited cost).getLast? =
          some { type := .done, totalCost := some (cost + sumW P) } ∧
        P.Nodup ∧ (∀ e ∈ P, e ∈ g.edges) ∧ (∀ e ∈ P, LightEdge g e) ∧
        (∀ e ∈ P, ¬(e.fromId ∈ visited ∧ e.toId ∈ visited)) ∧
        P.length = g.nodes.length - visited.length by
    intro visited cost h1 h2 h3
    exact hmain (g.nodes.length - visited.length) visited cost le_rfl h1 h2 h3
  intro k
  induction k with
  | zero =>
    intro visited cost hle h1 h2 h3
    have hnlt : ¬ visited.length < g.nodes.length := by omega
    rw [primLoop, if_neg hnlt]
    refine ⟨[], ?_, List.nodup_nil, ?_, ?_, ?_, ?_⟩
    · simp [sumW]
    · intro e he; exact absurd he (List.not_mem_nil e)
    · intro e he; exact absurd he (List.not_mem_nil e)
    · intro e he; exact absurd he (List.not_mem_nil e)
    · simp only [List.length_nil]
      omega
  | succ k ih =>
    intro visited cost hle h1 h2 h3
    by_cases hlt : visited.length < g.nodes.length
    · rw [primLoop, if_pos hlt]
      cases hbest : (primScanVisited g visited visited none).2 with
      | none =>
        exfalso
        have hsub : ∃ u ∈ nodeIds g, u ∉ visited := by
          by_contra hc
          push_neg at hc
          have hsp : List.Subperm (nodeIds g) visited :=
            List.Nodup.subperm hwf.1 (fun x hx => hc x hx)
          have hlen := hsp.length_le
          rw [nodeIds, List.length_map] at hlen
          omega
        obtain ⟨u, hu, hunv⟩ := hsub
        obtain ⟨x0, hx0⟩ := List.exists_mem_of_ne_nil visited h1
        have hlink := hconn x0 (h3 x0 hx0) u hu
        obtain ⟨d, hd, a, b, hj, haS, hbS⟩ :=
          crossing_of_linked hx0 hlink hunv
        have hcand := primCandidates_of_crossing hwf hd hj haS hbS
        have hbest2 : (primScanSpec (primCandidates g visited) none).2 =
            none := by
          rw [primCandidates, ← primScanVisited_eq_spec]
          exact hbest
        rw [primScanSpec_none_iff] at hbest2
        rw [hbest2] at hcand
        exact absurd hcand (List.not_mem_nil _)
      | some cand =>
        have hsv : primScanVisited g visited visited none =
            ((primScanVisited g visited visited none).1, some cand) :=
          Prod.ext rfl hbest
        rw [hsv]
        have h0 : (primScanSpec (primCandidates g visited) none).2 =
            some cand := by
          rw [primCandidates, ← primScanVisited_eq_spec]
          exact hbest
        have hcand_mem : (cand.weight, cand.edge, cand.next) ∈
            primCandidates g visited := by
          rcases primScanSpec_origin _ none cand h0 with hc | hc
          · exact absurd hc (fun hcc => Option.noConfusion hcc)
          · exact hc
        obtain ⟨v0, hv0S, hnextnv, hadj, hfe⟩ :=
          primCandidates_mem.mp hcand_mem
        obtain ⟨heE, hej⟩ := findEdge_some hfe
        obtain ⟨d0, hd0, hjd0, hwd0⟩ :=
          (createAdjacencyList_mem g v0 cand.next cand.weight).mp hadj
        have hde : d0 = cand.edge :=
          hwf.2.2.2.1 d0 hd0 cand.edge heE (joins_sameEnds hjd0 hej)
        have hw_eq : cand.weight = cand.edge.weight := by
          rw [← hde, hwd0]
        have hcond : ¬ cand.next ∈ visited := hnextnv
        dsimp only
        rw [if_neg hcond]
        have hlight : LightEdge g cand.edge := by
          intro hlink
          have hlink2 : linkedE (lighterEdges g cand.edge) v0 cand.next := by
            rcases hej with ⟨hf, ht⟩ | ⟨hf, ht⟩
            · rw [← hf, ← ht]; exact hlink
            · rw [← hf, ← ht]; exact linkedE_symm hlink
          obtain ⟨d2, hd2, a2, b2, hj2, ha2, hb2⟩ :=
            crossing_of_linked hv0S hlink2 hnextnv
          rw [lighterEdges, List.mem_filter] at hd2
          have hd2w : d2.weight < cand.edge.weight := by
            have := hd2.2
            simpa using this
          have hc2 := primCandidates_of_crossing hwf hd2.1 hj2 ha2 hb2
          have hmin := (primScanSpec_min _ none cand h0).1 _ hc2
          simp only at hmin
          omega
        have hnextN : cand.next ∈ nodeIds g := by
          rcases hej with ⟨hf, ht⟩ | ⟨hf, ht⟩
          · exact ht ▸ (hwf.2.1 cand.edge heE).2
          · exact hf ▸ (hwf.2.1 cand.edge heE).1
        have h1' : visited ++ [cand.next] ≠ [] := by simp
        have h2' : (visited ++ [cand.next]).Nodup := by
          simp [List.nodup_append, h2, hnextnv]
        have h3' : ∀ x ∈ visited ++ [cand.next], x ∈ nodeIds g := by
          intro x hx
          rcases List.mem_append.mp hx with hx | hx
          · exact h3 x hx
          · rw [List.mem_singleton] at hx
            exact hx ▸ hnextN
        have hle' : g.nodes.length - (visited ++ [cand.next]).length ≤ k := by
          rw [List.length_append, List.length_singleton]
          omega
        obtain ⟨P', hP'last, hP'nd, hP'E, hP'light, hP'cross, hP'len⟩ :=
          ih (visited ++ [cand.next]) (cost + cand.edge.weight) hle' h1' h2' h3'
        refine ⟨cand.edge :: P', ?_, ?_, ?_, ?_, ?_, ?_⟩
        · have hne : primLoop g (visited ++ [cand.next])
              (cost + cand.edge.weight) ≠ [] := by
            intro hc
            rw [hc] at hP'last
            exact Option.noConfusion hP'last
          rw [List.getLast?_append_of_ne_nil _ (by simp),
            List.getLast?_cons, hP'last, Option.getD_some]
          have harith : cost + cand.edge.weight + sumW P' =
              cost + sumW (cand.edge :: P') := by
            rw [sumW_cons]
            ring
          rw [harith]
        · refine List.nodup_cons.mpr ⟨?_, hP'nd⟩
          intro hmem
          apply hP'cross cand.edge hmem
          rcases hej with ⟨hf, ht⟩ | ⟨hf, ht⟩
          · exact ⟨hf ▸ List.mem_append_left _ hv0S,
              ht ▸ List.mem_append_right _ (List.mem_singleton_self _)⟩
          · exact ⟨hf ▸ List.mem_append_right _ (List.mem_singleton_self _),
              ht ▸ List.mem_append_left _ hv0S⟩
        · intro e he
          rcases List.mem_cons.mp he with rfl | he
          · exact heE
          · exact hP'E e he
        · intro e he
          rcases List.mem_cons.mp he with rfl | he
          · exact hlight
          · exact hP'light e he
        · intro e he
          rcases List.mem_cons.mp he with rfl | he
          · rintro ⟨hfv, htv⟩
            rcases hej with ⟨hf, ht⟩ | ⟨hf, ht⟩
            · exact hnextnv (ht ▸ htv)
            · exact hnextnv (hf ▸ hfv)
          · intro hc
            apply hP'cross e he
            exact ⟨List.mem_append_left _ hc.1, List.mem_append_left _ hc.2⟩
        · rw [List.length_cons, hP'len, List.length_append,
            List.length_singleton]
          omega
    · rw [primLoop, if_neg hlt]
      refine ⟨[], ?_, List.nodup_nil, ?_, ?_, ?_, ?_⟩
      · simp [sumW]
      · intro e he; exact absurd he (List.not_mem_nil e)
      · intro e he; exact absurd he (List.not_mem_nil e)
      · intro e he; exact absurd he (List.not_mem_nil e)
      · simp only [List.length_nil]
        omega


/-- The union-find invariant of Kruskal's run: `parent` is defined exactly
on the node ids, parent pointers stay inside the node ids and strictly
increase `rank` (so chains terminate), and the ghost representative map `f`
assigns each node the root of its chain. -/
def UFState (g : GraphData) (parent : String → Option String)
    (rank : String → Nat) (f : String → String) : Prop :=
  (∀ x, x ∉ nodeIds g → parent x = none) ∧
  (∀ x ∈ nodeIds g, ∃ y ∈ nodeIds g, parent x = some y) ∧
  (∀ x y, parent x = some y → y ≠ x → rank x < rank y) ∧
  (∀ x ∈ nodeIds g, f x ∈ nodeIds g ∧ parent (f x) = some (f x)) ∧
  (∀ x y, parent x = some y → f x = f y) ∧
  (∀ x ∈ nodeIds g, parent x = some x → f x = x)

/-- The number of union-find roots among the node ids. -/
def rootCount (g : GraphData) (parent : String → Option String) : Nat :=
  (nodeIds g).countP (fun x => decide (parent x = some x))

/-- The number of node ids of strictly larger rank: a bound on the length
of the remaining parent chain. -/
def rankAbove (g : GraphData) (rank : String → Nat) (x : String) : Nat :=
  (nodeIds g).countP (fun y => decide (rank x < rank y))

theorem countP_lt_of_witness {α : Type} (l : List α) (p q : α → Bool)
    (himp : ∀ a ∈ l, p a = true → q a = true) (a : α) (ha : a ∈ l)
    (hqa : q a = true) (hpa : p a = false) :
    l.countP p < l.countP q := by
  induction l with
  | nil => exact absurd ha (List.not_mem_nil a)
  | cons b t ih =>
    rw [List.countP_cons, List.countP_cons]
    have hmono : t.countP p ≤ t.countP q :=
      List.countP_mono_left
        (fun x hx hpx => himp x (List.mem_cons_of_mem _ hx) hpx)
    have hif0 : (if (false = true) then 1 else 0) = 0 := rfl
    have hif1 : (if (true = true) then 1 else 0) = 1 := rfl
    rcases List.mem_cons.mp ha with rfl | hat
    · rw [hpa, hqa, hif0, hif1]
      omega
    · have ht := ih (fun x hx hpx => himp x (List.mem_cons_of_mem _ hx)
        hpx) hat
      by_cases hpb : p b = true
      · rw [hpb, himp b (List.mem_cons_self b t) hpb, hif1]
        omega
      · rw [Bool.not_eq_true] at hpb
        rw [hpb, hif0]
        cases hqb : q b
        · rw [hif0]
          omega
        · rw [hif1]
          omega

theorem countP_sub_one {α : Type} {l : List α} (hnd : l.Nodup)
    (p q : α → Bool) (r : α) (hr : r ∈ l) (hpr : p r = true)
    (hqr : q r = false) (hother : ∀ z, z ≠ r → p z = q z) :
    l.countP q + 1 = l.countP p := by
  induction l with
  | nil => exact absurd hr (List.not_mem_nil r)
  | cons b t ih =>
    rw [List.countP_cons, List.countP_cons]
    have hif0 : (if (false = true) then 1 else 0) = 0 := rfl
    have hif1 : (if (true = true) then 1 else 0) = 1 := rfl
    rcases List.mem_cons.mp hr with rfl | hrt
    · rw [hpr, hqr, hif0, hif1]
      have hnt : r ∉ t := (List.nodup_cons.mp hnd).1
      have heq : t.countP p = t.countP q :=
        List.countP_congr (fun x hx => by
          rw [hother x (fun hc => hnt (hc ▸ hx))])
      omega
    · have hbr : b ≠ r := fun hc =>
        (List.nodup_cons.mp hnd).1 (hc ▸ hrt)
      have ht := ih (List.nodup_cons.mp hnd).2 hrt
      rw [hother b hbr]
      omega

theorem countP_unique {α : Type} {l : List α} {p : α → Bool}
    (hnd : l.Nodup) (h : l.countP p ≤ 1) {a b : α} (ha : a ∈ l)
    (hb : b ∈ l) (hpa : p a = true) (hpb : p b = true) : a = b := by
  by_contra hab
  induction l with
  | nil => exact absurd ha (List.not_mem_nil a)
  | cons c t ih =>
    rw [List.countP_cons] at h
    have hif1 : (if (true = true) then 1 else 0) = 1 := rfl
    rcases List.mem_cons.mp ha with rfl | hat
    · rcases List.mem_cons.mp hb with rfl | hbt
      · exact hab rfl
      · have hpos : 0 < t.countP p :=
          List.countP_pos_iff.mpr ⟨b, hbt, hpb⟩
        rw [hpa, hif1] at h
        omega
    · rcases List.mem_cons.mp hb with rfl | hbt
      · have hpos : 0 < t.countP p :=
          List.countP_pos_iff.mpr ⟨a, hat, hpa⟩
        rw [hpb, hif1] at h
        omega
      · have hpos : 0 < t.countP p :=
          List.countP_pos_iff.mpr ⟨a, hat, hpa⟩
        exact ih (List.nodup_cons.mp hnd).2 (by omega) hat hbt

/-- `findRoot` with enough fuel returns the representative, preserves the
invariant, the rank table's meaning and the root set (path compression only
redirects interior pointers to the root). -/
theorem findRoot_spec (g : GraphData) (rank : String → Nat) :
    ∀ (fuel : Nat) (parent : String → Option String) (f : String → String)
      (x : String), UFState g parent rank f → x ∈ nodeIds g →
      rankAbove g rank x ≤ fuel →
      (findRoot parent fuel x).2 = some (f x) ∧
      UFState g (findRoot parent fuel x).1 rank f ∧
      (∀ z, ((findRoot parent fuel x).1 z = some z ↔ parent z = some z)) ∧
      rank x ≤ rank (f x) := by
  intro fuel
  induction fuel with
  | zero =>
    intro parent f x hUF hxN hrk
    obtain ⟨y, hyN, hy⟩ := hUF.2.1 x hxN
    by_cases hyx : y = x
    · have hy' : parent x = some x := by rw [hyx] at hy; exact hy
      have hfx : f x = x := hUF.2.2.2.2.2 x hxN hy'
      rw [findRoot, hy]
      dsimp only
      rw [if_pos hyx]
      exact ⟨by rw [hfx], hUF, fun z => Iff.rfl, by rw [hfx]⟩
    · exfalso
      have hrlt : rank x < rank y := hUF.2.2.1 x y hy hyx
      have hpos : 0 < rankAbove g rank x :=
        List.countP_pos_iff.mpr ⟨y, hyN, by simpa using hrlt⟩
      omega
  | succ fuel ih =>
    intro parent f x hUF hxN hrk
    obtain ⟨y, hyN, hy⟩ := hUF.2.1 x hxN
    by_cases hyx : y = x
    · have hy' : parent x = some x := by rw [hyx] at hy; exact hy
      have hfx : f x = x := hUF.2.2.2.2.2 x hxN hy'
      rw [findRoot, hy]
      dsimp only
      rw [if_pos hyx]
      exact ⟨by rw [hfx], hUF, fun z => Iff.rfl, by rw [hfx]⟩
    · have hrlt : rank x < rank y := hUF.2.2.1 x y hy hyx
      have hrky : rankAbove g rank y ≤ fuel := by
        have hstrict : rankAbove g rank y < rankAbove g rank x := by
          refine countP_lt_of_witness (nodeIds g) _ _ ?_ y hyN ?_ ?_
          · intro a _ hpa
            simp only [decide_eq_true_eq] at hpa ⊢
            omega
          · simp only [decide_eq_true_eq]
            exact hrlt
          · simp only [decide_eq_false_iff_not]
            omega
        omega
      obtain ⟨ihA, ihB, ihC, ihD⟩ := ih parent f y hUF hyN hrky
      have hfxy : f x = f y := hUF.2.2.2.2.1 x y hy
      have hfr : findRoot parent fuel y =
          ((findRoot parent fuel y).1, some (f y)) := Prod.ext rfl ihA
      rw [findRoot, hy]
      dsimp only
      rw [if_neg hyx]
      dsimp only
      rw [hfr]
      dsimp only
      rw [← hfxy]
      have hfxne : f x ≠ x := by
        intro hc
        have hpx : parent x = some x := by
          have h4 := (hUF.2.2.2.1 x hxN).2
          rw [hc] at h4
          exact h4
        rw [hpx] at hy
        exact hyx (Option.some.inj hy).symm
      have hrankfx : rank x < rank (f x) := by
        have := ihD
        rw [hfxy]
        omega
      set p1 := (findRoot parent fuel y).1 with hp1
      have hfxN : f x ∈ nodeIds g := (hUF.2.2.2.1 x hxN).1
      have hffx : f (f x) = f x := by
        have h4 := hUF.2.2.2.1 x hxN
        exact hUF.2.2.2.2.2 (f x) h4.1 h4.2
      refine ⟨rfl, ⟨?_, ?_, ?_, ?_, ?_, ?_⟩, ?_, le_of_lt hrankfx⟩
      · intro z hz
        have hzx : z ≠ x := fun hc => hz (hc ▸ hxN)
        simp only [if_neg hzx]
        exact ihB.1 z hz
      · intro z hzN
        by_cases hzx : z = x
        · subst hzx
          simp only [if_pos rfl]
          exact ⟨f z, (hUF.2.2.2.1 z hzN).1, rfl⟩
        · simp only [if_neg hzx]
          exact ihB.2.1 z hzN
      · intro z w hzw hwz
        by_cases hzx : z = x
        · subst hzx
          simp only [if_pos rfl] at hzw
          have hwfx : w = f z := (Option.some.inj hzw).symm
          rw [hwfx]
          exact hrankfx
        · simp only [if_neg hzx] at hzw
          exact ihB.2.2.1 z w hzw hwz
      · intro z hzN
        refine ⟨(ihB.2.2.2.1 z hzN).1, ?_⟩
        have hfzne : f z ≠ x := by
          intro hc
          have hroot := (ihB.2.2.2.1 z hzN).2
          rw [hc] at hroot
          have hpx : parent x = some x := (ihC x).mp hroot
          rw [hpx] at hy
          exact hyx (Option.some.inj hy).symm
        simp only [if_neg hfzne]
        exact (ihB.2.2.2.1 z hzN).2
      · intro z w hzw
        by_cases hzx : z = x
        · subst hzx
          simp only [if_pos rfl] at hzw
          have hwfx : w = f z := (Option.some.inj hzw).symm
          rw [hwfx, hffx]
        · simp only [if_neg hzx] at hzw
          exact ihB.2.2.2.2.1 z w hzw
      · intro z hzN hzz
        by_cases hzx : z = x
        · subst hzx
          simp only [if_pos rfl] at hzz
          exact absurd (Option.some.inj hzz) hfxne
        · simp only [if_neg hzx] at hzz
          have hpz : parent z = some z := (ihC z).mp hzz
          exact hUF.2.2.2.2.2 z hzN hpz
      · intro z
        by_cases hzx : z = x
        · subst hzx
          simp only [if_pos rfl]
          constructor
          · intro hc
            exact absurd (Option.some.inj hc) hfxne
          · intro hc
            rw [hc] at hy
            exact absurd (Option.some.inj hy).symm hyx
        · simp only [if_neg hzx]
          exact ihC z

theorem merge_class_iff (f : String → String) (a b : String) (hab : a ≠ b)
    (x y : String) :
    ((if f x = a then b else f x) = (if f y = a then b else f y)) ↔
      (f x = f y ∨ (f x = a ∧ f y = b) ∨ (f x = b ∧ f y = a)) := by
  by_cases hx : f x = a <;> by_cases hy : f y = a
  · simp only [if_pos hx, if_pos hy]
    constructor
    · intro _
      exact Or.inl (hx.trans hy.symm)
    · intro _
      trivial
  · simp only [if_pos hx, if_neg hy]
    constructor
    · intro h
      exact Or.inr (Or.inl ⟨hx, h.symm⟩)
    · rintro (h | ⟨h1, h2⟩ | ⟨h1, h2⟩)
      · exact absurd (h ▸ hx) hy
      · exact h2.symm
      · exact absurd (hx.symm.trans h1) hab
  · simp only [if_neg hx, if_pos hy]
    constructor
    · intro h
      exact Or.inr (Or.inr ⟨h, hy⟩)
    · rintro (h | ⟨h1, h2⟩ | ⟨h1, h2⟩)
      · exact absurd (h.symm ▸ hy) hx
      · exact absurd (hy.symm.trans h2) hab
      · exact h1
  · simp only [if_neg hx, if_neg hy]
    constructor
    · intro h
      exact Or.inl h
    · rintro (h | ⟨h1, h2⟩ | ⟨h1, h2⟩)
      · exact h
      · exact absurd h1 hx
      · exact absurd h2 hy

theorem rootCount_congr {g : GraphData}
    {parent parent' : String → Option String}
    (h : ∀ z, parent' z = some z ↔ parent z = some z) :
    rootCount g parent' = rootCount g parent := by
  refine List.countP_congr (fun x _ => ?_)
  simp only [decide_eq_true_eq]
  exact h x

/-- Union of two distinct roots: the result satisfies the invariant for
the representative map that merges the two classes, and has exactly one
root fewer. -/
theorem kruskalUnion_spec (g : GraphData) (hnd : (nodeIds g).Nodup)
    (parent : String → Option String) (rank : String → Nat)
    (f : String → String) (fuel : Nat) (a b : String)
    (hUF : UFState g parent rank f) (haN : a ∈ nodeIds g)
    (hbN : b ∈ nodeIds g) (hra : parent a = some a)
    (hrb : parent b = some b) (hab : a ≠ b) :
    ∃ f', UFState g (kruskalUnion parent rank fuel (some a) (some b)).1
        (kruskalUnion parent rank fuel (some a) (some b)).2 f' ∧
      (∀ x y, (f' x = f' y ↔
        (f x = f y ∨ (f x = a ∧ f y = b) ∨ (f x = b ∧ f y = a)))) ∧
      rootCount g (kruskalUnion parent rank fuel (some a) (some b)).1 + 1 =
        rootCount g parent := by
  have hfa : f a = a := hUF.2.2.2.2.2 a haN hra
  have hfb : f b = b := hUF.2.2.2.2.2 b hbN hrb
  have hfind : ∀ (r : String), parent r = some r →
      findRoot parent fuel r = (parent, some r) := by
    intro r hr
    cases fuel with
    | zero =>
      rw [findRoot, hr]
      dsimp only
      rw [if_pos rfl]
    | succ fuel =>
      rw [findRoot, hr]
      dsimp only
      rw [if_pos rfl]
  have hku : kruskalUnion parent rank fuel (some a) (some b) =
      (if rank a < rank b then
        ((fun z => if z = a then some b else parent z), rank)
      else if rank b < rank a then
        ((fun z => if z = b then some a else parent z), rank)
      else
        ((fun z => if z = b then some a else parent z),
         (fun z => if z = a then rank z + 1 else rank z))) := by
    rw [kruskalUnion]
    dsimp only [findRootOpt]
    rw [hfind a hra]
    dsimp only
    rw [hfind b hrb]
    dsimp only
    rw [if_neg (fun hc : some a = some b => hab (Option.some.inj hc))]
  have main : ∀ (r1 r2 : String) (rank' : String → Nat),
      r1 ∈ nodeIds g → r2 ∈ nodeIds g → parent r1 = some r1 →
      parent r2 = some r2 → r1 ≠ r2 → f r1 = r1 → f r2 = r2 →
      (∀ x y, parent x = some y → y ≠ x → rank' x < rank' y) →
      rank' r1 < rank' r2 →
      UFState g (fun z => if z = r1 then some r2 else parent z) rank'
        (fun z => if f z = r1 then r2 else f z) ∧
      rootCount g (fun z => if z = r1 then some r2 else parent z) + 1 =
        rootCount g parent := by
    intro r1 r2 rank' h1N h2N hp1 hp2 h12 hf1 hf2 hrk' hrlt
    have h21 : r2 ≠ r1 := fun hc => h12 hc.symm
    constructor
    · refine ⟨?_, ?_, ?_, ?_, ?_, ?_⟩
      · intro z hz
        have hz1 : z ≠ r1 := fun hc => hz (hc ▸ h1N)
        simp only [if_neg hz1]
        exact hUF.1 z hz
      · intro z hzN
        by_cases hz1 : z = r1
        · subst hz1
          simp only [if_pos rfl]
          exact ⟨r2, h2N, rfl⟩
        · simp only [if_neg hz1]
          exact hUF.2.1 z hzN
      · intro z w hzw hwz
        by_cases hz1 : z = r1
        · subst hz1
          simp only [if_pos rfl] at hzw
          rw [← Option.some.inj hzw]
          exact hrlt
        · simp only [if_neg hz1] at hzw
          exact hrk' z w hzw hwz
      · intro z hzN
        dsimp only
        by_cases hfz : f z = r1
        · rw [if_pos hfz]
          refine ⟨h2N, ?_⟩
          rw [if_neg h21]
          exact hp2
        · rw [if_neg hfz]
          refine ⟨(hUF.2.2.2.1 z hzN).1, ?_⟩
          rw [if_neg hfz]
          exact (hUF.2.2.2.1 z hzN).2
      · intro z w hzw
        dsimp only
        by_cases hz1 : z = r1
        · subst hz1
          simp only [if_pos rfl] at hzw
          rw [← Option.some.inj hzw, hf1, if_pos rfl, hf2, if_neg h21]
        · simp only [if_neg hz1] at hzw
          rw [hUF.2.2.2.2.1 z w hzw]
      · intro z hzN hzz
        dsimp only
        by_cases hz1 : z = r1
        · subst hz1
          simp only [if_pos rfl] at hzz
          exact absurd (Option.some.inj hzz).symm h12
        · simp only [if_neg hz1] at hzz
          have hfzz : f z = z := hUF.2.2.2.2.2 z hzN hzz
          rw [hfzz, if_neg hz1]
    · refine countP_sub_one hnd _ _ r1 h1N ?_ ?_ ?_
      · simp only [decide_eq_true_eq]
        exact hp1
      · simp only [decide_eq_false_iff_not, if_pos rfl]
        intro hc
        exact h21 (Option.some.inj hc)
      · intro z hz1
        simp only [if_neg hz1]
  by_cases hr1 : rank a < rank b
  · refine ⟨fun z => if f z = a then b else f z, ?_, ?_, ?_⟩
    · rw [hku, if_pos hr1]
      exact (main a b rank haN hbN hra hrb hab hfa hfb hUF.2.2.1 hr1).1
    · intro x y
      exact merge_class_iff f a b hab x y
    · rw [hku, if_pos hr1]
      exact (main a b rank haN hbN hra hrb hab hfa hfb hUF.2.2.1 hr1).2
  · by_cases hr2 : rank b < rank a
    · refine ⟨fun z => if f z = b then a else f z, ?_, ?_, ?_⟩
      · rw [hku, if_neg hr1, if_pos hr2]
        exact (main b a rank hbN haN hrb hra (fun hc => hab hc.symm)
          hfb hfa hUF.2.2.1 hr2).1
      · intro x y
        have h := merge_class_iff f b a (fun hc => hab hc.symm) x y
        rw [h]
        tauto
      · rw [hku, if_neg hr1, if_pos hr2]
        exact (main b a rank hbN haN hrb hra (fun hc => hab hc.symm)
          hfb hfa hUF.2.2.1 hr2).2
    · have hreq : rank a = rank b := by omega
      refine ⟨fun z => if f z = b then a else f z, ?_, ?_, ?_⟩
      · rw [hku, if_neg hr1, if_neg hr2]
        refine (main b a (fun z => if z = a then rank z + 1 else rank z)
          hbN haN hrb hra (fun hc => hab hc.symm) hfb hfa ?_ ?_).1
        · intro x y hxy hyx
          have hr := hUF.2.2.1 x y hxy hyx
          dsimp only
          by_cases hxa : x = a
          · subst hxa
            rw [hra] at hxy
            exact absurd (Option.some.inj hxy).symm hyx
          · rw [if_neg hxa]
            by_cases hya : y = a
            · rw [if_pos hya]
              omega
            · rw [if_neg hya]
              omega
        · dsimp only
          rw [if_neg (fun hc : b = a => hab hc.symm), if_pos rfl]
          omega
      · intro x y
        have h := merge_class_iff f b a (fun hc => hab hc.symm) x y
        rw [h]
        tauto
      · rw [hku, if_neg hr1, if_neg hr2]
        refine (main b a (fun z => if z = a then rank z + 1 else rank z)
          hbN haN hrb hra (fun hc => hab hc.symm) hfb hfa ?_ ?_).2
        · intro x y hxy hyx
          have hr := hUF.2.2.1 x y hxy hyx
          dsimp only
          by_cases hxa : x = a
          · subst hxa
            rw [hra] at hxy
            exact absurd (Option.some.inj hxy).symm hyx
          · rw [if_neg hxa]
            by_cases hya : y = a
            · rw [if_pos hya]
              omega
            · rw [if_neg hya]
              omega
        · dsimp only
          rw [if_neg (fun hc : b = a => hab hc.symm), if_pos rfl]
          omega


instance : IsTotal EdgeData (fun a b => a.weight ≤ b.weight) :=
  ⟨fun a b => le_total a.weight b.weight⟩

instance : IsTrans EdgeData (fun a b => a.weight ≤ b.weight) :=
  ⟨fun _ _ _ h1 h2 => le_trans h1 h2⟩

theorem edges_nodup {g : GraphData} (hwf : MSTWf g) : g.edges.Nodup :=
  List.Nodup.of_map _ hwf.2.2.2.2

theorem weight_inj_list : ∀ (l : List EdgeData),
    (l.map (fun e => e.weight)).Nodup →
    ∀ d ∈ l, ∀ e ∈ l, d.weight = e.weight → d = e := by
  intro l
  induction l with
  | nil =>
    intro _ d hd
    exact absurd hd (List.not_mem_nil d)
  | cons a t ih =>
    intro hnd d hd e he hw
    rw [List.map_cons, List.nodup_cons] at hnd
    rcases List.mem_cons.mp hd with rfl | hdt <;>
      rcases List.mem_cons.mp he with rfl | het
    · rfl
    · exfalso
      apply hnd.1
      rw [hw]
      exact List.mem_map.mpr ⟨e, het, rfl⟩
    · exfalso
      apply hnd.1
      rw [← hw]
      exact List.mem_map.mpr ⟨d, hdt, rfl⟩
    · exact ih hnd.2 d hdt e het hw

theorem sortEdges_mem {g : GraphData} {d : EdgeData} :
    d ∈ sortEdgesByWeight g.edges ↔ d ∈ g.edges :=
  (List.perm_insertionSort _ g.edges).mem_iff

theorem sortEdges_nodup {g : GraphData} (hwf : MSTWf g) :
    (sortEdgesByWeight g.edges).Nodup :=
  ((List.perm_insertionSort _ g.edges).nodup_iff).mpr (edges_nodup hwf)

theorem sortEdges_sorted (g : GraphData) :
    List.Sorted (fun a b : EdgeData => a.weight ≤ b.weight)
      (sortEdgesByWeight g.edges) :=
  List.sorted_insertionSort _ g.edges

/-- Any split of the sorted edge list is strict on weights across the
split. -/
theorem sortSplit_lt {g : GraphData} (hwf : MSTWf g)
    {l1 l2 : List EdgeData}
    (hdec : sortEdgesByWeight g.edges = l1 ++ l2) :
    ∀ a ∈ l1, ∀ d ∈ l2, a.weight < d.weight := by
  intro a ha d hd
  have hsorted := sortEdges_sorted g
  have hnd := sortEdges_nodup hwf
  rw [hdec] at hsorted hnd
  have hle : a.weight ≤ d.weight :=
    (List.pairwise_append.mp hsorted).2.2 a ha d hd
  have hne : a ≠ d := by
    intro hc
    exact (List.nodup_append.mp hnd).2.2 ha (hc ▸ hd)
  have haE : a ∈ g.edges := sortEdges_mem.mp (hdec ▸ List.mem_append_left _ ha)
  have hdE : d ∈ g.edges := sortEdges_mem.mp (hdec ▸ List.mem_append_right _ hd)
  have hwne : a.weight ≠ d.weight := fun hc =>
    hne (weight_inj_list g.edges hwf.2.2.2.2 a haE d hdE hc)
  omega

/-- The processed prefix at the head edge is exactly the set of strictly
lighter edges. -/
theorem processed_iff_lighter {g : GraphData} (hwf : MSTWf g)
    {processed rest : List EdgeData} {e : EdgeData}
    (hdec : sortEdgesByWeight g.edges = processed ++ e :: rest) :
    ∀ d, d ∈ processed ↔ d ∈ lighterEdges g e := by
  intro d
  constructor
  · intro hd
    have hdE : d ∈ g.edges :=
      sortEdges_mem.mp (hdec ▸ List.mem_append_left _ hd)
    have hlt : d.weight < e.weight :=
      sortSplit_lt hwf hdec d hd e (List.mem_cons_self e rest)
    rw [lighterEdges, List.mem_filter]
    exact ⟨hdE, by simpa using hlt⟩
  · intro hd
    rw [lighterEdges, List.mem_filter] at hd
    have hlt : d.weight < e.weight := by simpa using hd.2
    have hdS : d ∈ processed ++ e :: rest := by
      rw [← hdec]
      exact sortEdges_mem.mpr hd.1
    rcases List.mem_append.mp hdS with h | h
    · exact h
    · rcases List.mem_cons.mp h with rfl | h
      · omega
    
      · have hdec2 : sortEdgesByWeight g.edges =
            (processed ++ [e]) ++ rest := by
          rw [hdec, List.append_assoc, List.singleton_append]
        have := sortSplit_lt hwf hdec2 e
          (List.mem_append_right _ (List.mem_singleton_self e)) d h
        omega


/-- The invariant run of Kruskal's edge loop: starting from a union-find
state that realizes the partition of the accepted (all-light) edges and a
processed prefix with the same connectivity, the loop returns an accepted
list extending the input, consisting exactly of the light edges of the
graph, with the accumulated cost equal to its total weight, and at most
`n - 1` edges. -/
theorem kruskalLoop_run (g : GraphData) (hwf : MSTWf g) :
    ∀ (edges : List EdgeData) (processed : List EdgeData)
      (parent : String → Option String) (rank : String → Nat)
      (f : String → String) (A : List EdgeData) (cost : Int),
      sortEdgesByWeight g.edges = processed ++ edges →
      UFState g parent rank f →
      (∀ x ∈ nodeIds g, ∀ y ∈ nodeIds g, (f x = f y ↔ linkedE A x y)) →
      (∀ x y, linkedE A x y ↔ linkedE processed x y) →
      rootCount g parent + A.length = g.nodes.length →
      (∀ e ∈ A, e ∈ processed) →
      A.Nodup →
      (∀ e ∈ A, LightEdge g e) →
      (∀ e ∈ processed, LightEdge g e → e ∈ A) →
      cost = sumW A →
      (∃ L, (kruskalLoop g edges parent rank A cost).2.1 = A ++ L) ∧
      (∀ e ∈ (kruskalLoop g edges parent rank A cost).2.1, e ∈ g.edges) ∧
      (kruskalLoop g edges parent rank A cost).2.1.Nodup ∧
      (∀ e ∈ (kruskalLoop g edges parent rank A cost).2.1, LightEdge g e) ∧
      (kruskalLoop g edges parent rank A cost).2.2 =
        sumW (kruskalLoop g edges parent rank A cost).2.1 ∧
      (∀ e ∈ g.edges, LightEdge g e →
        e ∈ (kruskalLoop g edges parent rank A cost).2.1) ∧
      (g.nodes ≠ [] →
        (kruskalLoop g edges parent rank A cost).2.1.length <
          g.nodes.length) := by
  intro edges
  induction edges with
  | nil =>
    intro processed parent rank f A cost hdec hUF hS hlinkAP hcount hsubA
      hAnd hAlight hLP hcost
    have hproc_eq : processed = sortEdgesByWeight g.edges := by
      rw [hdec, List.append_nil]
    have hnil : kruskalLoop g [] parent rank A cost = ([], A, cost) := rfl
    rw [hnil]
    dsimp only
    refine ⟨⟨[], (List.append_nil A).symm⟩, ?_, hAnd, hAlight, hcost, ?_, ?_⟩
    · intro e he
      exact sortEdges_mem.mp (hproc_eq ▸ hsubA e he)
    · intro d hdE hdl
      refine hLP d ?_ hdl
      rw [hproc_eq]
      exact sortEdges_mem.mpr hdE
    · intro hne
      have hNne : nodeIds g ≠ [] := by
        rw [nodeIds]
        simpa using hne
      obtain ⟨x, hx⟩ := List.exists_mem_of_ne_nil _ hNne
      have hroot := hUF.2.2.2.1 x hx
      have hpos : 0 < rootCount g parent :=
        List.countP_pos_iff.mpr ⟨f x, hroot.1, by
          simp only [decide_eq_true_eq]
          exact hroot.2⟩
      omega
  | cons e rest ih =>
    intro processed parent rank f A cost hdec hUF hS hlinkAP hcount hsubA
      hAnd hAlight hLP hcost
    have heE : e ∈ g.edges := by
      refine sortEdges_mem.mp ?_
      rw [hdec]
      exact List.mem_append_right _ (List.mem_cons_self e rest)
    have hprocE : ∀ d ∈ processed, d ∈ g.edges := by
      intro d hd
      refine sortEdges_mem.mp ?_
      rw [hdec]
      exact List.mem_append_left _ hd
    have hdec2 : sortEdgesByWeight g.edges = (processed ++ [e]) ++ rest := by
      rw [hdec, List.append_assoc, List.singleton_append]
    obtain ⟨hfromN, htoN⟩ := hwf.2.1 e heE
    have hrkbound : ∀ (rk : String → Nat) (x : String),
        rankAbove g rk x ≤ g.nodes.length := by
      intro rk x
      have h1 : rankAbove g rk x ≤ (nodeIds g).length :=
        List.countP_le_length _
      rw [nodeIds, List.length_map] at h1
      exact h1
    obtain ⟨hA1, hB1, hC1, -⟩ := findRoot_spec g rank g.nodes.length parent
      f e.fromId hUF hfromN (hrkbound rank e.fromId)
    obtain ⟨hA2, hB2, hC2, -⟩ := findRoot_spec g rank g.nodes.length
      ((findRoot parent g.nodes.length e.fromId).1) f e.toId hB1 htoN
      (hrkbound rank e.toId)
    have hcount2 : rootCount g ((findRoot
        ((findRoot parent g.nodes.length e.fromId).1)
        g.nodes.length e.toId).1) = rootCount g parent := by
      rw [rootCount_congr hC2, rootCount_congr hC1]
    rw [kruskalLoop]
    dsimp only
    have hfr1 : findRoot parent g.nodes.length e.fromId =
        ((findRoot parent g.nodes.length e.fromId).1, some (f e.fromId)) :=
      Prod.ext rfl hA1
    rw [hfr1]
    dsimp only
    have hfr2 : findRoot ((findRoot parent g.nodes.length e.fromId).1)
        g.nodes.length e.toId =
        ((findRoot ((findRoot parent g.nodes.length e.fromId).1)
          g.nodes.length e.toId).1, some (f e.toId)) :=
      Prod.ext rfl hA2
    rw [hfr2]
    dsimp only
    by_cases hroots : f e.fromId = f e.toId
    · rw [if_pos (congrArg some hroots)]
      have hPfromto : linkedE processed e.fromId e.toId :=
        (hlinkAP _ _).mp ((hS e.fromId hfromN e.toId htoN).mp hroots)
      have hnotlight : ¬ LightEdge g e := by
        intro hl
        exact hl ((linkedE_congr (processed_iff_lighter hwf hdec) _ _).mp
          hPfromto)
      have ihres := ih (processed ++ [e])
        ((findRoot ((findRoot parent g.nodes.length e.fromId).1)
          g.nodes.length e.toId).1) rank f A cost hdec2 hB2 hS
        (fun x y => (hlinkAP x y).trans
          (linkedE_append_redundant hPfromto x y).symm)
        (by rw [hcount2]; exact hcount)
        (fun d hd => List.mem_append_left _ (hsubA d hd))
        hAnd hAlight
        (by
          intro d hd hdl
          rcases List.mem_append.mp hd with hd | hd
          · exact hLP d hd hdl
          · rw [List.mem_singleton] at hd
            exact absurd (hd ▸ hdl) hnotlight)
        hcost
      rcases hres : kruskalLoop g rest
        ((findRoot ((findRoot parent g.nodes.length e.fromId).1)
          g.nodes.length e.toId).1) rank A cost with ⟨s2, K2, c2⟩
      rw [hres] at ihres
      exact ihres
    · rw [if_neg (fun hc : some (f e.fromId) = some (f e.toId) =>
        hroots (Option.some.inj hc))]
      obtain ⟨f', hUF3, hmerge, hcount3⟩ := kruskalUnion_spec g hwf.1
        ((findRoot ((findRoot parent g.nodes.length e.fromId).1)
          g.nodes.length e.toId).1) rank f g.nodes.length
        (f e.fromId) (f e.toId) hB2
        (hB2.2.2.2.1 _ hfromN).1 (hB2.2.2.2.1 _ htoN).1
        (hB2.2.2.2.1 _ hfromN).2 (hB2.2.2.2.1 _ htoN).2 hroots
      have hlightE : LightEdge g e := by
        intro hl
        have h1 : linkedE processed e.fromId e.toId :=
          (linkedE_congr (processed_iff_lighter hwf hdec) _ _).mpr hl
        exact hroots ((hS _ hfromN _ htoN).mpr ((hlinkAP _ _).mpr h1))
      have hndsorted : (processed ++ e :: rest).Nodup := by
        rw [← hdec]
        exact sortEdges_nodup hwf
      have heNP : e ∉ processed := by
        intro hc
        exact (List.nodup_append.mp hndsorted).2.2 hc
          (List.mem_cons_self e rest)
      have heNA : e ∉ A := fun hc => heNP (hsubA e hc)
      have hA'nd : (A ++ [e]).Nodup := by
        rw [List.nodup_append]
        refine ⟨hAnd, List.nodup_singleton e, ?_⟩
        intro a ha hb
        rw [List.mem_singleton] at hb
        exact heNA (hb ▸ ha)
      have hA'light : ∀ d ∈ A ++ [e], LightEdge g d := by
        intro d hd
        rcases List.mem_append.mp hd with hd | hd
        · exact hAlight d hd
        · rw [List.mem_singleton] at hd
          exact hd ▸ hlightE
      have hA'sub : ∀ d ∈ A ++ [e], d ∈ processed ++ [e] := by
        intro d hd
        rcases List.mem_append.mp hd with hd | hd
        · exact List.mem_append_left _ (hsubA d hd)
        · exact List.mem_append_right _ hd
      have hA'E : ∀ d ∈ A ++ [e], d ∈ g.edges := by
        intro d hd
        rcases List.mem_append.mp (hA'sub d hd) with hd | hd
        · exact hprocE d hd
        · rw [List.mem_singleton] at hd
          exact hd ▸ heE
      have hS' : ∀ x ∈ nodeIds g, ∀ y ∈ nodeIds g,
          (f' x = f' y ↔ linkedE (A ++ [e]) x y) := by
        intro x hx y hy
        rw [hmerge x y, linkedE_append_single]
        constructor
        · rintro (h | ⟨h1, h2⟩ | ⟨h1, h2⟩)
          · exact Or.inl ((hS x hx y hy).mp h)
          · exact Or.inr (Or.inl ⟨(hS x hx _ hfromN).mp h1,
              linkedE_symm ((hS y hy _ htoN).mp h2)⟩)
          · exact Or.inr (Or.inr ⟨(hS x hx _ htoN).mp h1,
              linkedE_symm ((hS y hy _ hfromN).mp h2)⟩)
        · rintro (h | ⟨h1, h2⟩ | ⟨h1, h2⟩)
          · exact Or.inl ((hS x hx y hy).mpr h)
          · exact Or.inr (Or.inl ⟨(hS x hx _ hfromN).mpr h1,
              (hS y hy _ htoN).mpr (linkedE_symm h2)⟩)
          · exact Or.inr (Or.inr ⟨(hS x hx _ htoN).mpr h1,
              (hS y hy _ hfromN).mpr (linkedE_symm h2)⟩)
      have hlink' : ∀ x y, linkedE (A ++ [e]) x y ↔
          linkedE (processed ++ [e]) x y := by
        intro x y
        rw [linkedE_append_single, linkedE_append_single]
        constructor
        · rintro (h | ⟨h1, h2⟩ | ⟨h1, h2⟩)
          · exact Or.inl ((hlinkAP x y).mp h)
          · exact Or.inr (Or.inl ⟨(hlinkAP _ _).mp h1, (hlinkAP _ _).mp h2⟩)
          · exact Or.inr (Or.inr ⟨(hlinkAP _ _).mp h1, (hlinkAP _ _).mp h2⟩)
        · rintro (h | ⟨h1, h2⟩ | ⟨h1, h2⟩)
          · exact Or.inl ((hlinkAP x y).mpr h)
          · exact Or.inr (Or.inl ⟨(hlinkAP _ _).mpr h1, (hlinkAP _ _).mpr h2⟩)
          · exact Or.inr (Or.inr ⟨(hlinkAP _ _).mpr h1, (hlinkAP _ _).mpr h2⟩)
      have hLP' : ∀ d ∈ processed ++ [e], LightEdge g d → d ∈ A ++ [e] := by
        intro d hd hdl
        rcases List.mem_append.mp hd with hd | hd
        · exact List.mem_append_left _ (hLP d hd hdl)
        · exact List.mem_append_right _ hd
      have hcost' : cost + e.weight = sumW (A ++ [e]) := by
        rw [sumW_append, ← hcost]
        simp [sumW]
      rcases hun : kruskalUnion
        ((findRoot ((findRoot parent g.nodes.length e.fromId).1)
          g.nodes.length e.toId).1) rank g.nodes.length
        (some (f e.fromId)) (some (f e.toId)) with ⟨p3, rank1⟩
      rw [hun] at hUF3 hcount3
      try dsimp only at hUF3 hcount3
      try dsimp only
      have hcount' : rootCount g p3 + (A ++ [e]).length =
          g.nodes.length := by
        rw [List.length_append, List.length_singleton]
        rw [hcount2] at hcount3
        omega
      by_cases hbreak : (A ++ [e]).length = g.nodes.length - 1
      · rw [if_pos hbreak]
        dsimp only
        refine ⟨⟨[e], rfl⟩, hA'E, hA'nd, hA'light, hcost', ?_, ?_⟩
        · intro d hdE hdl
          have hdS : d ∈ processed ++ e :: rest := by
            rw [← hdec]
            exact sortEdges_mem.mpr hdE
          rcases List.mem_append.mp hdS with hd | hd
          · exact List.mem_append_left _ (hLP d hd hdl)
          · rcases List.mem_cons.mp hd with rfl | hd
            · exact List.mem_append_right _ (List.mem_singleton_self d)
            · exfalso
              have hroots1 : rootCount g p3 = 1 := by
                rw [List.length_append, List.length_singleton] at hbreak
                omega
              have hall : ∀ x ∈ nodeIds g, ∀ y ∈ nodeIds g,
                  f' x = f' y := by
                intro x hx y hy
                have hx1 := hUF3.2.2.2.1 x hx
                have hy1 := hUF3.2.2.2.1 y hy
                refine countP_unique hwf.1 (le_of_eq hroots1) hx1.1 hy1.1
                  ?_ ?_
                · simp only [decide_eq_true_eq]
                  exact hx1.2
                · simp only [decide_eq_true_eq]
                  exact hy1.2
              obtain ⟨hdfN, hdtN⟩ := hwf.2.1 d hdE
              have hlinked : linkedE (A ++ [e]) d.fromId d.toId :=
                (hS' _ hdfN _ hdtN).mp (hall _ hdfN _ hdtN)
              have hsubl : ∀ a ∈ A ++ [e], a ∈ lighterEdges g d := by
                intro a ha
                have hlt := sortSplit_lt hwf hdec2 a (hA'sub a ha) d hd
                rw [lighterEdges, List.mem_filter]
                exact ⟨hA'E a ha, by simpa using hlt⟩
              exact hdl (linkedE_mono hsubl hlinked)
        · intro _
          rw [List.length_append, List.length_singleton]
          rw [List.length_append, List.length_singleton] at hbreak
          omega
      · rw [if_neg hbreak]
        have ihres := ih (processed ++ [e]) p3 rank1 f' (A ++ [e])
          (cost + e.weight) hdec2 hUF3 hS' hlink' hcount' hA'sub hA'nd
          hA'light hLP' hcost'
        rcases hres : kruskalLoop g rest p3 rank1 (A ++ [e])
          (cost + e.weight) with ⟨s2, K2, c2⟩
        rw [hres] at ihres
        dsimp only at ihres ⊢
        obtain ⟨⟨L, hL⟩, ihE, ihnd, ihlight, ihcost, ihcomp, ihlen⟩ := ihres
        refine ⟨⟨e :: L, ?_⟩, ihE, ihnd, ihlight, ihcost, ihcomp, ihlen⟩
        rw [hL, List.append_assoc, List.singleton_append]


/-- The initial union-find parent map of `kruskalMST`. -/
def kruskalParent0 (g : GraphData) : String → Option String :=
  g.nodes.foldl
    (fun p node => fun x => if x = node.id then some node.id else p x)
    (fun _ => none)

theorem foldl_parent0 (nodes : List NodeData) :
    ∀ (p : String → Option String) (x : String),
      (nodes.foldl (fun p node => fun y =>
        if y = node.id then some node.id else p y) p) x =
      if x ∈ nodes.map (fun n => n.id) then some x else p x := by
  induction nodes with
  | nil =>
    intro p x
    simp
  | cons n t ih =>
    intro p x
    rw [List.foldl_cons, ih]
    by_cases hx : x ∈ t.map (fun n => n.id)
    · rw [if_pos hx, if_pos (by simp [hx])]
    · rw [if_neg hx]
      by_cases hxn : x = n.id
      · rw [if_pos hxn, if_pos (by simp [hxn]), hxn]
      · rw [if_neg hxn, if_neg (by simp [hxn, hx])]

theorem kruskalParent0_eq (g : GraphData) (x : String) :
    kruskalParent0 g x = if x ∈ nodeIds g then some x else none := by
  rw [kruskalParent0, foldl_parent0, nodeIds]

/-- `kruskalMST` unfolded: the announcement step, the loop steps, and the
terminal `done` carrying the loop's accumulated cost. -/
theorem kruskalMST_shape (g : GraphData) :
    kruskalMST g = { type := .done } ::
      (kruskalLoop g (sortEdgesByWeight g.edges) (kruskalParent0 g)
        (fun _ => 0) [] 0).1 ++
      [{ type := .done, totalCost := some ((kruskalLoop g
        (sortEdgesByWeight g.edges) (kruskalParent0 g)
        (fun _ => 0) [] 0).2.2) }] := rfl

theorem kruskalParent0_UF (g : GraphData) :
    UFState g (kruskalParent0 g) (fun _ => 0) (fun x => x) := by
  refine ⟨?_, ?_, ?_, ?_, ?_, ?_⟩
  · intro x hx
    rw [kruskalParent0_eq, if_neg hx]
  · intro x hx
    exact ⟨x, hx, by rw [kruskalParent0_eq, if_pos hx]⟩
  · intro x y hxy hyx
    rw [kruskalParent0_eq] at hxy
    by_cases hx : x ∈ nodeIds g
    · rw [if_pos hx] at hxy
      exact absurd (Option.some.inj hxy).symm hyx
    · rw [if_neg hx] at hxy
      exact Option.noConfusion hxy
  · intro x hx
    exact ⟨hx, by rw [kruskalParent0_eq, if_pos hx]⟩
  · intro x y hxy
    rw [kruskalParent0_eq] at hxy
    by_cases hx : x ∈ nodeIds g
    · rw [if_pos hx] at hxy
      exact (Option.some.inj hxy)
    · rw [if_neg hx] at hxy
      exact Option.noConfusion hxy
  · intro x _ _
    rfl

theorem kruskalParent0_count (g : GraphData) :
    rootCount g (kruskalParent0 g) = g.nodes.length := by
  rw [rootCount]
  have h : ∀ x ∈ nodeIds g,
      decide (kruskalParent0 g x = some x) = true := by
    intro x hx
    simp only [decide_eq_true_eq]
    rw [kruskalParent0_eq, if_pos hx]
  rw [List.countP_eq_length.mpr h, nodeIds, List.length_map]

/-- Prim from any valid start and Kruskal report the same terminal cost on
a connected graph with pairwise distinct weights: both accept exactly the
light edges (up to permutation) and sum their weights. -/
theorem mst_costs_agree (g : GraphData) (start : String) (hwf : MSTWf g)
    (hconn : connectedG g) (hstart : start ∈ nodeIds g)
    (hne : start ≠ "") :
    ∃ c : Int,
      (primMST g start).getLast? =
        some { type := .done, totalCost := some c } ∧
      (kruskalMST g).getLast? =
        some { type := .done, totalCost := some c } := by
  have hfind : ¬(start = "" ∨
      g.nodes.find? (fun n => n.id = start) = none) := by
    rintro (h | h)
    · exact hne h
    · rw [nodeIds] at hstart
      obtain ⟨n, hn, hid⟩ := List.mem_map.mp hstart
      have hc := List.find?_eq_none.mp h n hn
      apply hc
      simp [hid]
  obtain ⟨P, hPlast, hPnd, hPE, hPlight, -, hPlen⟩ :=
    primLoop_run g hwf hconn [start] 0 (by simp)
      (List.nodup_singleton _)
      (by
        intro x hx
        rw [List.mem_singleton] at hx
        exact hx ▸ hstart)
  obtain ⟨⟨L, hKdec⟩, hKE, hKnd, hKlight, hKcost, hKcomp, hKlen⟩ :=
    kruskalLoop_run g hwf (sortEdgesByWeight g.edges) [] (kruskalParent0 g)
      (fun _ => 0) (fun x => x) [] 0 (List.nil_append _).symm
      (kruskalParent0_UF g)
      (by
        intro x hx y hy
        rw [linkedE_nil])
      (fun x y => Iff.rfl)
      (by
        rw [List.length_nil, kruskalParent0_count]
        omega)
      (by intro e he; exact absurd he (List.not_mem_nil e))
      List.nodup_nil
      (by intro e he; exact absurd he (List.not_mem_nil e))
      (by intro e he; exact absurd he (List.not_mem_nil e))
      rfl
  have hnodes : g.nodes ≠ [] := by
    intro hc
    rw [nodeIds, hc] at hstart
    exact absurd hstart (List.not_mem_nil start)
  have hPK : ∀ e ∈ P,
      e ∈ (kruskalLoop g (sortEdgesByWeight g.edges) (kruskalParent0 g)
        (fun _ => 0) [] 0).2.1 :=
    fun e he => hKcomp e (hPE e he) (hPlight e he)
  have hsubperm : List.Subperm P
      ((kruskalLoop g (sortEdgesByWeight g.edges) (kruskalParent0 g)
        (fun _ => 0) [] 0).2.1) :=
    List.Nodup.subperm hPnd hPK
  have hlenP : P.length = g.nodes.length - 1 := by
    rw [hPlen, List.length_singleton]
  have hperm : List.Perm P
      ((kruskalLoop g (sortEdgesByWeight g.edges) (kruskalParent0 g)
        (fun _ => 0) [] 0).2.1) := by
    refine hsubperm.perm_of_length_le ?_
    have hik := hKlen hnodes
    omega
  have hsum : sumW P = sumW ((kruskalLoop g (sortEdgesByWeight g.edges)
      (kruskalParent0 g) (fun _ => 0) [] 0).2.1) := by
    rw [sumW, sumW]
    exact List.Perm.sum_eq (hperm.map _)
  refine ⟨sumW P, ?_, ?_⟩
  · have hprim : primMST g start =
        { type := .visitNode, nodeId := some start } ::
          primLoop g [start] 0 := by
      rw [primMST, if_neg hfind]
    rw [hprim, List.getLast?_cons, hPlast, Option.getD_some, zero_add]
  · rw [kruskalMST_shape, List.getLast?_concat, hKcost, ← hsum]


instance (e₁ e₂ : EdgeData) : Decidable (sameEnds e₁ e₂) := by
  unfold sameEnds
  exact inferInstance

theorem scenario_wf : MSTWf scenario := by
  refine ⟨?_, ?_, ?_, ?_, ?_⟩ <;> decide

theorem scenario_connected : connectedG scenario := by
  have l12 : linkedE scenario.edges "a1" "a2" :=
    Relation.ReflTransGen.single ⟨edgeAB, by decide, Or.inl ⟨rfl, rfl⟩⟩
  have l13 : linkedE scenario.edges "a1" "a3" :=
    Relation.ReflTransGen.single ⟨edgeAC, by decide, Or.inl ⟨rfl, rfl⟩⟩
  have l23 : linkedE scenario.edges "a2" "a3" :=
    Relation.ReflTransGen.single ⟨edgeBC, by decide, Or.inl ⟨rfl, rfl⟩⟩
  have l34 : linkedE scenario.edges "a3" "a4" :=
    Relation.ReflTransGen.single ⟨edgeCD, by decide, Or.inl ⟨rfl, rfl⟩⟩
  have l14 := l13.trans l34
  have l24 := l23.trans l34
  intro u hu v hv
  have hu4 : u = "a1" ∨ u = "a2" ∨ u = "a3" ∨ u = "a4" := by
    simpa [nodeIds, scenario, nodeA, nodeB, nodeC, nodeD] using hu
  have hv4 : v = "a1" ∨ v = "a2" ∨ v = "a3" ∨ v = "a4" := by
    simpa [nodeIds, scenario, nodeA, nodeB, nodeC, nodeD] using hv
  rcases hu4 with rfl | rfl | rfl | rfl <;>
    rcases hv4 with rfl | rfl | rfl | rfl <;>
    first
    | exact Relation.ReflTransGen.refl
    | exact l12
    | exact l13
    | exact l14
    | exact l23
    | exact l24
    | exact l34
    | exact linkedE_symm l12
    | exact linkedE_symm l13
    | exact linkedE_symm l14
    | exact linkedE_symm l23
    | exact linkedE_symm l24
    | exact linkedE_symm l34

/-- C1: on every connected, well-formed graph with pairwise distinct edge
weights, the terminal `done` steps of `primMST` (from any vertex) and of
`kruskalMST` carry the same `totalCost`; on the four-vertex scenario graph
both report a total cost of 7. -/
theorem C1_mst_total_cost :
    (∀ (g : GraphData) (start : String), MSTWf g → connectedG g →
      start ∈ nodeIds g → start ≠ "" →
      ∃ c : Int,
        (primMST g start).getLast? =
          some { type := .done, totalCost := some c } ∧
        (kruskalMST g).getLast? =
          some { type := .done, totalCost := some c }) ∧
    (primMST scenario "a1").getLast? =
      some { type := .done, totalCost := some 7 } ∧
    (kruskalMST scenario).getLast? =
      some { type := .done, totalCost := some 7 } := by
  have hk : (kruskalMST scenario).getLast? =
      some { type := .done, totalCost := some 7 } := by decide
  refine ⟨fun g start h1 h2 h3 h4 => mst_costs_agree g start h1 h2 h3 h4,
    ?_, hk⟩
  obtain ⟨c, hp, hks⟩ := mst_costs_agree scenario "a1" scenario_wf
    scenario_connected (by decide) (by decide)
  rw [hks] at hk
  have hstep := Option.some.inj hk
  have hcost : (some c : Option Int) = some 7 :=
    congrArg (fun s => s.totalCost) hstep
  have hc : c = 7 := Option.some.inj hcost
  rw [hp, hc]


end GraphFlow
